import Mathlib

/-
  Verification of the cloze post-processing pipeline of the Cloze Refiner
  repository.  Strings are modelled as lists of characters.  The JavaScript
  regular-expression scans are modelled as fuel-structural left-to-right
  scanners; fuel equal to the length of the scanned list is always enough,
  and fuel-irrelevance lemmas recover clean unfolding equations.
-/

namespace Cloze

abbrev Str := List Char

/-- Character class of the JavaScript regular-expression escape backslash-s
and of the character set removed by the trim method. -/
def isJsSpace (c : Char) : Bool :=
  c.toNat = 32 || (9 ≤ c.toNat && c.toNat ≤ 13) || c.toNat = 160 || c.toNat = 5760 ||
  (8192 ≤ c.toNat && c.toNat ≤ 8202) || c.toNat = 8232 || c.toNat = 8233 ||
  c.toNat = 8239 || c.toNat = 8287 || c.toNat = 12288 || c.toNat = 65279

/-- Character class of the JavaScript escape backslash-d (ASCII digits). -/
def isDig (c : Char) : Bool := 48 ≤ c.toNat && c.toNat ≤ 57

/-- Character class of the JavaScript escape backslash-w (ASCII word chars). -/
def isWordChar (c : Char) : Bool :=
  (97 ≤ c.toNat && c.toNat ≤ 122) || (65 ≤ c.toNat && c.toNat ≤ 90) ||
  (48 ≤ c.toNat && c.toNat ≤ 57) || c.toNat = 95

def isBrace (c : Char) : Bool := c = '\x7b' || c = '\x7d'

/-- Drop a run of characters satisfying p from the end of a list. -/
def dropEndWhile (p : Char → Bool) : Str → Str
  | [] => []
  | c :: r =>
    match dropEndWhile p r with
    | [] => if p c then [] else [c]
    | x :: xs => c :: x :: xs

/-- Model of the JavaScript trim method. -/
def trim (s : Str) : Str := dropEndWhile isJsSpace (s.dropWhile isJsSpace)

/-- Maximal runs of non-whitespace characters, in order: the token list
produced by splitting on runs of whitespace and discarding empty pieces. -/
def wsTokens : Str → List Str
  | [] => []
  | [c] => if isJsSpace c then [] else [[c]]
  | c :: c2 :: r =>
    if isJsSpace c then wsTokens (c2 :: r)
    else if isJsSpace c2 then [c] :: wsTokens r
    else
      match wsTokens (c2 :: r) with
      | t :: ts => (c :: t) :: ts
      | [] => [[c]]

/-- Strip leading and trailing runs of non-word characters from a token. -/
def stripPunct (t : Str) : Str :=
  dropEndWhile (fun c => !(isWordChar c)) (t.dropWhile (fun c => !(isWordChar c)))

/-- Decimal digit character of a value below ten. -/
def digChar : Nat → Char
  | 0 => '0' | 1 => '1' | 2 => '2' | 3 => '3' | 4 => '4'
  | 5 => '5' | 6 => '6' | 7 => '7' | 8 => '8' | _ => '9'

/-- Decimal representation of a natural number, as the JavaScript String
conversion produces for the small counters used by the renumbering pass. -/
def natDigitsAux : Nat → Nat → Str
  | 0, _ => []
  | f + 1, n => if n < 10 then [digChar n] else natDigitsAux f (n / 10) ++ [digChar (n % 10)]

def natDigits (n : Nat) : Str := natDigitsAux (n + 1) n

/-- Numeric value of a digit string, used to invert natDigits. -/
def digitsVal (l : Str) : Nat := l.foldl (fun a c => 10 * a + (c.toNat - 48)) 0

/- ---------------------------------------------------------------------
   Span matchers, modelling the three regular expressions of the source.
   --------------------------------------------------------------------- -/

/-- Split a list at the first occurrence of two adjacent closing braces:
the lazy content match of the span regular expressions. -/
def splitACB : Str → Option (Str × Str)
  | [] => none
  | [_] => none
  | c1 :: c2 :: r =>
    if c1 = '\x7d' && c2 = '\x7d' then some ([], r)
    else
      match splitACB (c2 :: r) with
      | some (i, rr) => some (c1 :: i, rr)
      | none => none

/-- True when the list has no two adjacent closing braces. -/
def pairFree : Str → Bool
  | [] => true
  | [_] => true
  | c1 :: c2 :: r => !(c1 = '\x7d' && c2 = '\x7d') && pairFree (c2 :: r)

/-- Match of the strict span pattern (open braces, letter c, digits, two
colons, lazy content, close braces) at the head of the list; yields the
digit string, the content and the remainder after the close braces. -/
def matchStrictSpan (s : Str) : Option (Str × Str × Str) :=
  match s with
  | '\x7b' :: '\x7b' :: 'c' :: r =>
    let ds := r.takeWhile isDig
    if ds.isEmpty then none
    else
      match r.dropWhile isDig with
      | ':' :: ':' :: r3 =>
        match splitACB r3 with
        | some (inner, rest) => some (ds, inner, rest)
        | none => none
      | _ => none
  | _ => none

/-- Match of the lenient opener pattern (open braces, optional whitespace,
letter c, digits, optional whitespace, two colons) at the head of the list;
yields the digit string and the remainder. -/
def matchLenOpen (s : Str) : Option (Str × Str) :=
  match s with
  | '\x7b' :: '\x7b' :: r =>
    match r.dropWhile isJsSpace with
    | 'c' :: r2 =>
      let ds := r2.takeWhile isDig
      if ds.isEmpty then none
      else
        match (r2.dropWhile isDig).dropWhile isJsSpace with
        | ':' :: ':' :: r4 => some (ds, r4)
        | _ => none
    | _ => none
  | _ => none

/-- Match of the lenient full-span pattern at the head of the list; yields
the digit string, the content and the remainder. -/
def matchLenSpan (s : Str) : Option (Str × Str × Str) :=
  match matchLenOpen s with
  | some (ds, r) =>
    match splitACB r with
    | some (inner, rest) => some (ds, inner, rest)
    | none => none
  | none => none

/- ---------------------------------------------------------------------
   AnchorSelector: pickAnchorWords.
   --------------------------------------------------------------------- -/

/-- Case-insensitive literal prefix test: the pattern (given lower-case)
matches the head of the input up to ASCII case. -/
def ciAt : Str → Str → Bool
  | [], _ => true
  | _ :: _, [] => false
  | p :: ps, c :: cs => (c.toLower = p) && ciAt ps cs

/-- Case-insensitive substring test, modelling the test method of a
case-insensitive literal regular expression. -/
def containsCI : Str → Str → Bool
  | s, pat =>
    ciAt pat s ||
      match s with
      | [] => false
      | _ :: r => containsCI r pat

/-- One word-bounded alternative matches at the current position: the
literal matches case-insensitively, the previous character (if any) is not
a word character, and the character after the match (if any) is not a word
character.  Every keyword alternative begins and ends with a word
character, so both boundary requirements reduce to these tests. -/
def altMatchAt (alt : Str) (prev : Option Char) (s : Str) : Bool :=
  ciAt alt s &&
  (match prev with
   | none => true
   | some p => !(isWordChar p)) &&
  (match s.drop alt.length with
   | [] => true
   | c :: _ => !(isWordChar c))

/-- Try the alternatives of one pattern at the current position, greedy
alternative first, returning the matched slice of the input. -/
def tryAltsAt (alts : List Str) (prev : Option Char) (s : Str) : Option Str :=
  match alts with
  | [] => none
  | a :: rest =>
    if altMatchAt a prev s then some (s.take a.length) else tryAltsAt rest prev s

/-- Leftmost match of one keyword pattern: scan positions left to right. -/
def findKwAux (alts : List Str) : Option Char → Str → Option Str
  | prev, [] => tryAltsAt alts prev []
  | prev, c :: r =>
    match tryAltsAt alts prev (c :: r) with
    | some w => some w
    | none => findKwAux alts (some c) r

/-- The ordered keyword pattern list of pickAnchorWords.  Each pattern is a
list of word-bounded case-insensitive alternatives, greedy first, so an
optional apostrophe or plural letter s appears as two alternatives. -/
def kwAlts : List (List Str) :=
  [ [ "hypnozoite".data ],
    [ "schuffner\x27s".data, "schuffners".data ],
    [ "dots".data, "dot".data ],
    [ "merozoites".data, "merozoite".data ],
    [ "schizonts".data, "schizont".data ],
    [ "tertian".data ],
    [ "quotidian".data ],
    [ "48".data ],
    [ "24".data ],
    [ "vivax".data ],
    [ "ovale".data ],
    [ "malariae".data ],
    [ "knowlesi".data ] ]

/-- First keyword pattern with a match anywhere in the string wins, and
yields its leftmost matched slice. -/
def findKw (s : Str) : Option Str :=
  kwAlts.findSome? (fun alts => findKwAux alts none s)

/-- Model of pickAnchorWords from the source. -/
def pickAnchorWords (content : Str) (maxWords : Nat) : Str :=
  let s := trim content
  match findKw s with
  | some w =>
    if containsCI w "schuffner".data && containsCI s "dot".data then
      "Schuffner\x27s dots".data
    else w
  | none =>
    let words := ((wsTokens s).map stripPunct).filter (fun t => !t.isEmpty)
    if words.isEmpty then s
    else List.intercalate [' '] (words.take maxWords)

/- ---------------------------------------------------------------------
   ClozeLimiter: enforceClozeWordLimit.
   --------------------------------------------------------------------- -/

/-- Reassemble a strict-form span from a digit string and a content. -/
def mkSpan (ds inner : Str) : Str :=
  '\x7b' :: '\x7b' :: 'c' :: (ds ++ ':' :: ':' :: (inner ++ ['\x7d', '\x7d']))

/-- Replacement for one matched span of the word-limit pass. -/
def enfRepl (maxW : Nat) (ds inner : Str) : Str :=
  let content := trim inner
  let words := wsTokens content
  if words.length ≤ maxW then mkSpan ds inner
  else mkSpan ds (pickAnchorWords content maxW)

/- ---------------------------------------------------------------------
   The generic fueled scan.  A global regular-expression replace or
   matchAll walks the string left to right: at each position it either
   consumes a whole match, or moves one character forward.  The scan is
   modelled with explicit fuel (one unit per step; the length of the
   string is always enough), producing the list of tokens in scan order.
   --------------------------------------------------------------------- -/

def scanG {G : Type} (mt : Str → Option (G × Str)) (lt : Char → G) : Nat → Str → List G
  | 0, _ => []
  | f + 1, s =>
    match mt s with
    | some (b, rest) => b :: scanG mt lt f rest
    | none =>
      match s with
      | [] => []
      | c :: r => lt c :: scanG mt lt f r

def runScan {G : Type} (mt : Str → Option (G × Str)) (lt : Char → G) (s : Str) : List G :=
  scanG mt lt s.length s

/-- Token of the strict-span scan of the word-limit pass: a literal
character, or a span carrying its digit string and content. -/
inductive ETok where
  | lit : Char → ETok
  | sp : Str → Str → ETok
deriving DecidableEq

def mtE (s : Str) : Option (ETok × Str) :=
  (matchStrictSpan s).map (fun x => (ETok.sp x.1 x.2.1, x.2.2))

/-- Tokenisation of a text by the strict-span scan. -/
def parseE (s : Str) : List ETok := runScan mtE ETok.lit s

/-- Per-token output of the word-limit pass: literal characters pass
through; a span whose content has more than the allowed number of
whitespace tokens is rebuilt around the selected anchor. -/
def renderE (maxW : Nat) : ETok → Str
  | ETok.lit c => [c]
  | ETok.sp ds inner => enfRepl maxW ds inner

/-- Model of enforceClozeWordLimit from the source: the global replace
emits, in scan order, the untouched characters between matches and the
callback result for every matched span. -/
def enforceClozeWordLimit (t : Str) (maxW : Nat) : Str :=
  if t.isEmpty then t else ((parseE t).map (renderE maxW)).flatten

/-- The strict-form spans of a text, in scan order. -/
def strictSpans (t : Str) : List (Str × Str) :=
  (parseE t).filterMap (fun tok =>
    match tok with
    | ETok.sp ds inner => some (ds, inner)
    | ETok.lit _ => none)

/- ---------------------------------------------------------------------
   Batch splitting.
   --------------------------------------------------------------------- -/

/-- A falsy (empty) delimiter argument is replaced by the default. -/
def delimOr (d : Str) : Str := if d.isEmpty then "===CARD===".data else d

/-- Model of the JavaScript split method with a non-empty separator. -/
def splitDAux (D : Str) : Nat → Str → List Str
  | 0, s => [s]
  | f + 1, s =>
    if D.isPrefixOf s && !D.isEmpty then
      [] :: splitDAux D f (s.drop D.length)
    else
      match s with
      | [] => [[]]
      | c :: r =>
        match splitDAux D f r with
        | [] => [[c]]
        | x :: xs => (c :: x) :: xs

def splitD (D : Str) (s : Str) : List Str := splitDAux D (s.length + 1) s

/-- Model of splitByDelimiter from the source: split, trim each segment,
drop the empty ones. -/
def splitByDelimiter (raw : Str) (delim : Str) : List Str :=
  ((splitD (delimOr delim) raw).map trim).filter (fun s => !s.isEmpty)

/-- Model of joinByDelimiter from the source. -/
def joinByDelimiter (parts : List Str) (delim : Str) : Str :=
  List.intercalate ('\n' :: (delimOr delim ++ ['\n'])) parts

/- ---------------------------------------------------------------------
   ClozeRenumberer: renumberClozesPerCard.
   --------------------------------------------------------------------- -/

def lookupStr (x : Str) : List (Str × Nat) → Option Nat
  | [] => none
  | (k, v) :: r => if k = x then some v else lookupStr x r

/-- Normalised opener written by the renumbering pass. -/
def openerStr (ds : Str) : Str := '\x7b' :: '\x7b' :: 'c' :: (ds ++ [':', ':'])

/-- Token of the lenient-opener scan: a literal character, or an opener
carrying its digit string. -/
inductive RTok where
  | lit : Char → RTok
  | op : Str → RTok
deriving DecidableEq

def mtR (s : Str) : Option (RTok × Str) :=
  (matchLenOpen s).map (fun x => (RTok.op x.1, x.2))

/-- Tokenisation of a card by the lenient-opener scan. -/
def parseR (s : Str) : List RTok := runScan mtR RTok.lit s

/-- The stateful index assignment of the renumbering callback: the map
holds the numbers already assigned to the original digit strings seen so
far, and a fresh number is assigned on the first sighting of a new one. -/
def assignR : List (Str × Nat) → Nat → List RTok → List RTok
  | _, _, [] => []
  | m, nx, RTok.lit c :: ts => RTok.lit c :: assignR m nx ts
  | m, nx, RTok.op ds :: ts =>
    match lookupStr ds m with
    | some k => RTok.op (natDigits k) :: assignR m nx ts
    | none => RTok.op (natDigits nx) :: assignR ((ds, nx) :: m) (nx + 1) ts

/-- Rendering of the tokens back to text, openers in normalised form. -/
def renderR1 : RTok → Str
  | RTok.lit c => [c]
  | RTok.op ds => openerStr ds

/-- Per-card renumbering scan of the source: the replace emits the
untouched characters and the renumbered openers in scan order, with the
callback state threaded through the matches in order. -/
def renumberCard (s : Str) : Str := ((assignR [] 1 (parseR s)).map renderR1).flatten

/-- Model of renumberClozesPerCard from the source. -/
def renumberClozesPerCard (t : Str) (delim : Str) : Str :=
  let d := delimOr delim
  List.intercalate d ((splitD d t).map renumberCard)

/-- The digit string of an opener token. -/
def opDigits : RTok → Option Str
  | RTok.op ds => some ds
  | RTok.lit _ => none

/-- The digit strings of the lenient openers of a card, in scan order:
this is also the allowed-index collection of the capper. -/
def openerIdx (s : Str) : List Str := (parseR s).filterMap opDigits

/-- The character of a literal token; opener tokens yield none. -/
def tokShape : RTok → Option Char
  | RTok.lit c => some c
  | RTok.op _ => none

/-- The non-cloze characters of a token list: the literal characters, in
order, with the opener tokens erased. -/
def litChars (ts : List RTok) : Str := ts.filterMap tokShape

/- ---------------------------------------------------------------------
   InputClozeCapper: capClozesToInput.
   --------------------------------------------------------------------- -/

/-- Token of the lenient full-span scan: a literal character, or a span
carrying its raw matched text, digit string and content. -/
inductive CTok where
  | lit : Char → CTok
  | sp : Str → Str → Str → CTok
deriving DecidableEq

def mtC (s : Str) : Option (CTok × Str) :=
  (matchLenSpan s).map (fun x =>
    (CTok.sp (s.take (s.length - x.2.2.length)) x.1 x.2.1, x.2.2))

/-- Tokenisation of a card by the lenient full-span scan. -/
def parseC (s : Str) : List CTok := runScan mtC CTok.lit s

/-- Per-token action of the capping pass with a given allowed list: a
span whose index is in the list is kept verbatim, any other span is
replaced by its trimmed content. -/
def capTokRender (allowed : List Str) : CTok → Str
  | CTok.lit c => [c]
  | CTok.sp raw ds inner => if allowed.contains ds then raw else trim inner

/-- Per-card capping of the source: with a non-empty allowed set the
replace runs over the card; with an empty allowed set the card passes
through unchanged. -/
def capCard (outCard inCard : Str) : Str :=
  let allowed := openerIdx inCard
  if allowed.isEmpty then outCard
  else ((parseC outCard).map (capTokRender allowed)).flatten

/-- Expected tokens of the rescan of one capped token: a kept span
re-scans as itself, while a replaced span contributes only the literal
characters of its trimmed content. -/
def capTokES (allowed : List Str) : CTok → List CTok
  | CTok.lit c => [CTok.lit c]
  | CTok.sp raw ds inner =>
    if allowed.contains ds then [CTok.sp raw ds inner]
    else (trim inner).map CTok.lit

/-- Expected token list of the rescan of a capped card. -/
def capTokScan (allowed : List Str) : List CTok → List CTok
  | [] => []
  | t :: ts => capTokES allowed t ++ capTokScan allowed ts

/-- Positional pairing of output cards with input cards; a missing input
card behaves as the empty string. -/
def capCards : List Str → List Str → List Str
  | [], _ => []
  | oc :: ocs, ics => capCard oc (ics.headD []) :: capCards ocs ics.tail

/-- Model of capClozesToInput from the source. -/
def capClozesToInput (outT inT : Str) (delim : Str) : Str :=
  let d := delimOr delim
  List.intercalate d (capCards (splitD d outT) (splitD d inT))

/-- The digit strings of the lenient full spans of a text, in scan
order. -/
def lenSpanIdx (s : Str) : List Str :=
  (parseC s).filterMap (fun tok =>
    match tok with
    | CTok.sp _ ds _ => some ds
    | CTok.lit _ => none)

/-- A token is brace-clean when a literal character is not a brace, and a
span content contains no brace; a card all of whose tokens are brace-clean
has braces only as the markup of its scanned spans. -/
def braceClean : CTok → Bool
  | CTok.lit c => !(isBrace c)
  | CTok.sp _ _ inner => inner.all (fun c => !(isBrace c))

/-- First occurrences of the elements of a list, in order. -/
def firstOccsAux (seen : List Str) : List Str → List Str
  | [] => []
  | x :: xs =>
    if x ∈ seen then firstOccsAux seen xs
    else x :: firstOccsAux (x :: seen) xs

/-- Position of the first occurrence of an element. -/
def idxOf (x : Str) : List Str → Nat
  | [] => 0
  | y :: r => if y = x then 0 else idxOf x r + 1

/-- The number already assigned to a seen digit string. -/
def posOpt (seen : List Str) (x : Str) : Option Nat :=
  if x ∈ seen then some (idxOf x seen + 1) else none

/-- The renumbering assignment restricted to the digit strings. -/
def assignD : List (Str × Nat) → Nat → List Str → List Str
  | _, _, [] => []
  | m, nx, ds :: xs =>
    match lookupStr ds m with
    | some k => natDigits k :: assignD m nx xs
    | none => natDigits nx :: assignD ((ds, nx) :: m) (nx + 1) xs

def firstOccs (l : List Str) : List Str := firstOccsAux [] l

/-- Occurrence test: the pattern occurs as a contiguous block. -/
def hasOccur (D : Str) : Str → Bool
  | [] => false
  | c :: r => D.isPrefixOf (c :: r) || hasOccur D r

/-- No copy of the pattern starts inside the first list when it is
followed by the second. -/
def noCross (D : Str) : Str → Str → Bool
  | [], _ => true
  | c :: r, tail => !(D.isPrefixOf (c :: r ++ tail)) && noCross D r tail

/-- The characters that can appear in a normalised opener written by the
renumbering pass. -/
def isRenChar (c : Char) : Bool := c = '\x7b' || c = 'c' || c = ':' || isDig c

/-- The last character is a closing brace. -/
def endsB : Str → Bool
  | [] => false
  | [c] => c = '\x7d'
  | _ :: c2 :: r => endsB (c2 :: r)

/-- The text that follows a batch segment in the joined form: nothing
after the last segment, a separator and the rest otherwise. -/
def sepTail (D : Str) : List Str → Str
  | [] => []
  | x :: xs => D ++ List.intercalate D (x :: xs)

/-- The separation invariant of a split: no copy of the delimiter starts
inside any segment of the joined text. -/
def sepOK (D : Str) : List Str → Bool
  | [] => true
  | x :: xs => noCross D x (sepTail D xs) && sepOK D xs

/-- Number of whitespace-delimited tokens, carrying whether the previous
character was inside a token. -/
def tokCount : Bool → Str → Nat
  | _, [] => 0
  | b, c :: r =>
    if isJsSpace c then tokCount false r
    else (if b then 0 else 1) + tokCount true r

/-- No character of the string is a word character. -/
def noWord (u : Str) : Bool := u.all (fun c => !(isWordChar c))

/-- The amended guarantee for a span content: few whitespace tokens, or no
word character at all (the degenerate anchor fallback). -/
def contOK (maxW : Nat) (i : Str) : Prop :=
  (wsTokens i).length ≤ maxW ∨ noWord i = true

/-- Contiguous substring. -/
def infixOf (v c : Str) : Prop := ∃ p q, c = p ++ (v ++ q)

/-- The content the word-limit pass writes back into a span. -/
def enfCont (maxW : Nat) (inner : Str) : Str :=
  if (wsTokens (trim inner)).length ≤ maxW then inner
  else pickAnchorWords (trim inner) maxW

/-- Output of the word-limit replace (without the empty-text guard). -/
def enfOut (maxW : Nat) (t : Str) : Str := ((parseE t).map (renderE maxW)).flatten

/-- The last character of a scanned prefix, or the carried previous
character when the prefix is empty. -/
def lastOpt (prev : Option Char) : Str → Option Char
  | [] => prev
  | c :: r => lastOpt (some c) r

/-- The raw segments after the first that the split of the joined batch
produces: every middle part keeps the newline the join put on each side,
the last part only its leading one. -/
def midSegs : List Str → List Str
  | [] => []
  | [q] => ['
' :: q]
  | q :: q2 :: qs => ('
' :: (q ++ ['
'])) :: midSegs (q2 :: qs)

/- ---------------------------------------------------------------------
   Basic lemmas: character classes, prefixes, takeWhile and dropWhile.
   --------------------------------------------------------------------- -/

theorem bpos {p q : Prop} [Decidable p] [Decidable q] (h1 : p) (h2 : q) :
    (decide p && decide q) = true := by simp [h1, h2]

theorem bneg {p q : Prop} [Decidable p] [Decidable q] (h : ¬ (p ∧ q)) :
    ¬ ((decide p && decide q) = true) := by
  simp only [Bool.and_eq_true, decide_eq_true_eq]
  exact h

theorem charEq_of_toNat {a b : Char} (h : a.toNat = b.toNat) : a = b := by
  have ha := Char.ofNat_toNat a
  have hb := Char.ofNat_toNat b
  rw [← ha, ← hb, h]

theorem space_not_dig {c : Char} (h : isJsSpace c = true) : isDig c = false := by
  simp only [isJsSpace, Bool.or_eq_true, Bool.and_eq_true, decide_eq_true_eq] at h
  rw [Bool.eq_false_iff]
  simp only [ne_eq, isDig, Bool.and_eq_true, decide_eq_true_eq, not_and, not_le]
  omega

theorem dig_ne_lb {c : Char} (h : isDig c = true) : c ≠ '\x7b' := by
  intro he; rw [he] at h; revert h; decide

theorem space_ne_lb {c : Char} (h : isJsSpace c = true) : c ≠ '\x7b' := by
  intro he; rw [he] at h; revert h; decide

theorem ipo_app (D y : Str) : D.isPrefixOf (D ++ y) = true := by
  induction D with
  | nil => simp [List.isPrefixOf]
  | cons c r ih => simpa [List.isPrefixOf] using ih

theorem ipo_ex {D s : Str} (h : D.isPrefixOf s = true) : ∃ y, s = D ++ y := by
  induction D generalizing s with
  | nil => exact ⟨s, rfl⟩
  | cons c r ih =>
    cases s with
    | nil => simp [List.isPrefixOf] at h
    | cons b t =>
      simp only [List.isPrefixOf, Bool.and_eq_true, beq_iff_eq] at h
      obtain ⟨y, hy⟩ := ih h.2
      exact ⟨y, by simp [hy, h.1]⟩

theorem ipo_len {D s : Str} (h : D.isPrefixOf s = true) : D.length ≤ s.length := by
  obtain ⟨y, rfl⟩ := ipo_ex h
  simp

theorem takeWhile_app_all {p : Char → Bool} :
    ∀ {a : Str}, (∀ c ∈ a, p c = true) → ∀ b : Str,
      (a ++ b).takeWhile p = a ++ b.takeWhile p := by
  intro a
  induction a with
  | nil => intro _ b; rfl
  | cons c r ih =>
    intro h b
    have hc : p c = true := h c (by simp)
    simp [List.takeWhile_cons, hc, ih (fun d hd => h d (by simp [hd]))]

theorem dropWhile_app_all {p : Char → Bool} :
    ∀ {a : Str}, (∀ c ∈ a, p c = true) → ∀ b : Str,
      (a ++ b).dropWhile p = b.dropWhile p := by
  intro a
  induction a with
  | nil => intro _ b; rfl
  | cons c r ih =>
    intro h b
    have hc : p c = true := h c (by simp)
    simp [List.dropWhile_cons, hc, ih (fun d hd => h d (by simp [hd]))]

theorem takeWhile_neg {p : Char → Bool} {c : Char} (r : Str) (h : p c = false) :
    (c :: r).takeWhile p = [] := by
  simp [List.takeWhile_cons, h]

theorem dropWhile_neg {p : Char → Bool} {c : Char} (r : Str) (h : p c = false) :
    (c :: r).dropWhile p = c :: r := by
  simp [List.dropWhile_cons, h]

/- ---------------------------------------------------------------------
   Structure of the brace-pair split.
   --------------------------------------------------------------------- -/

theorem splitACB_cons2 (c1 c2 : Char) (r : Str) :
    splitACB (c1 :: c2 :: r) =
      if (c1 = '\x7d' && c2 = '\x7d') then some ([], r)
      else
        match splitACB (c2 :: r) with
        | some (i, rr) => some (c1 :: i, rr)
        | none => none := rfl

theorem pairFree_cons2 (c1 c2 : Char) (r : Str) :
    pairFree (c1 :: c2 :: r) = (!(c1 = '\x7d' && c2 = '\x7d') && pairFree (c2 :: r)) := rfl

theorem endsB_cons2 (c1 c2 : Char) (r : Str) :
    endsB (c1 :: c2 :: r) = endsB (c2 :: r) := rfl

theorem splitACB_some :
    ∀ {s i r : Str}, splitACB s = some (i, r) →
      s = i ++ '\x7d' :: '\x7d' :: r ∧ pairFree i = true ∧ endsB i = false := by
  intro s
  induction s with
  | nil => intro i r h; simp [splitACB] at h
  | cons c t ih =>
    intro i r h
    cases t with
    | nil => simp [splitACB] at h
    | cons c2 t2 =>
      rw [splitACB_cons2] at h
      by_cases hb : c = '\x7d' ∧ c2 = '\x7d'
      · rw [if_pos (bpos hb.1 hb.2)] at h
        simp only [Option.some.injEq, Prod.mk.injEq] at h
        obtain ⟨h1, h2⟩ := h
        subst h1; subst h2
        exact ⟨by simp [hb.1, hb.2], rfl, rfl⟩
      · rw [if_neg (bneg hb)] at h
        cases hrec : splitACB (c2 :: t2) with
        | none => rw [hrec] at h; cases h
        | some pr =>
          obtain ⟨i', rr⟩ := pr
          rw [hrec] at h
          simp only [Option.some.injEq, Prod.mk.injEq] at h
          obtain ⟨h1, h2⟩ := h
          subst h1; subst h2
          obtain ⟨heq, hpf, hend⟩ := ih hrec
          refine ⟨by rw [List.cons_append, ← heq], ?_, ?_⟩
          · cases i' with
            | nil => simp [pairFree]
            | cons d t' =>
              have hcd : c2 = d := by
                have h3 : c2 :: t2 = d :: (t' ++ '\x7d' :: '\x7d' :: rr) := by
                  simpa using heq
                exact (List.cons_eq_cons.mp h3).1
              rw [pairFree_cons2, hpf, Bool.and_true, Bool.not_eq_true',
                Bool.and_eq_false_iff]
              by_cases hcb : c = '\x7d'
              · right
                simp only [decide_eq_false_iff_not]
                intro hd
                exact hb ⟨hcb, by rw [hcd, hd]⟩
              · left
                simp [hcb]
          · cases i' with
            | nil =>
              have hc2 : c2 = '\x7d' := by
                have h3 : c2 :: t2 = '\x7d' :: '\x7d' :: rr := by simpa using heq
                exact (List.cons_eq_cons.mp h3).1
              have hcb : c ≠ '\x7d' := fun hc => hb ⟨hc, hc2⟩
              simp [endsB, hcb]
            | cons d t' =>
              rw [endsB_cons2]
              exact hend

theorem splitACB_none :
    ∀ {s : Str}, splitACB s = none ↔ pairFree s = true := by
  intro s
  induction s with
  | nil => simp [splitACB, pairFree]
  | cons c t ih =>
    cases t with
    | nil => simp [splitACB, pairFree]
    | cons c2 t2 =>
      rw [splitACB_cons2, pairFree_cons2]
      by_cases hb : c = '\x7d' ∧ c2 = '\x7d'
      · rw [if_pos (bpos hb.1 hb.2)]
        simp [hb.1, hb.2]
      · rw [if_neg (bneg hb)]
        have hside : (!(decide (c = '\x7d') && decide (c2 = '\x7d'))) = true := by
          rw [Bool.not_eq_true', Bool.and_eq_false_iff]
          by_cases hcb : c = '\x7d'
          · right; simp only [decide_eq_false_iff_not]; exact fun hd => hb ⟨hcb, hd⟩
          · left; simp [hcb]
        rw [hside, Bool.true_and]
        cases hrec : splitACB (c2 :: t2) with
        | none => simpa [hrec] using ih
        | some pr =>
          obtain ⟨i', rr⟩ := pr
          constructor
          · intro h; cases h
          · intro h
            rw [← ih] at h
            rw [h] at hrec
            cases hrec

theorem splitACB_app :
    ∀ {i : Str}, pairFree i = true → ∀ X : Str,
      splitACB (i ++ '\x7d' :: '\x7d' :: X) =
        if endsB i then some (i.dropLast, '\x7d' :: X) else some (i, X) := by
  intro i
  induction i with
  | nil =>
    intro _ X
    simp [splitACB_cons2, endsB]
  | cons c t ih =>
    intro hp X
    cases t with
    | nil =>
      by_cases hc : c = '\x7d'
      · subst hc
        simp [splitACB_cons2, endsB]
      · rw [List.cons_append, List.nil_append, splitACB_cons2,
          if_neg (bneg (fun hh => hc hh.1))]
        simp [splitACB_cons2, endsB, hc]
    | cons c2 t2 =>
      rw [pairFree_cons2, Bool.and_eq_true] at hp
      obtain ⟨hside, hp2⟩ := hp
      have hnb : ¬ (c = '\x7d' ∧ c2 = '\x7d') := by
        rw [Bool.not_eq_true', Bool.and_eq_false_iff] at hside
        rcases hside with h1 | h1 <;>
          (simp only [decide_eq_false_iff_not] at h1; tauto)
      simp only [List.cons_append]
      rw [splitACB_cons2, if_neg (bneg hnb)]
      have hrec := ih hp2 X
      simp only [List.cons_append] at hrec
      rw [hrec, endsB_cons2]
      by_cases he : endsB (c2 :: t2) = true
      · rw [if_pos he, if_pos he]
        try rfl
      · rw [if_neg he, if_neg he]
        try rfl

/- ---------------------------------------------------------------------
   Structure of the three matchers.
   --------------------------------------------------------------------- -/

theorem take_sub_app (a b : Str) : (a ++ b).take ((a ++ b).length - b.length) = a := by
  have h : (a ++ b).length - b.length = a.length := by simp
  rw [h]
  exact List.take_left a b

theorem mss_some :
    ∀ {s ds i r : Str}, matchStrictSpan s = some (ds, i, r) →
      s = mkSpan ds i ++ r ∧ ds ≠ [] ∧ (∀ c ∈ ds, isDig c = true) ∧
        pairFree i = true ∧ endsB i = false := by
  intro s ds i r h
  unfold matchStrictSpan at h
  split at h
  · next rr =>
    simp only [] at h
    split at h
    · cases h
    · next hne =>
      split at h
      · next r3 heq =>
        split at h
        · next inner rest heq2 =>
          simp only [Option.some.injEq, Prod.mk.injEq] at h
          obtain ⟨h1, h2, h3⟩ := h
          subst h1; subst h2; subst h3
          obtain ⟨he, hpf, hend⟩ := splitACB_some heq2
          have hrr : rr = List.takeWhile isDig rr ++ (':' :: ':' :: r3) := by
            rw [← heq, List.takeWhile_append_dropWhile]
          refine ⟨?_, ?_, ?_, hpf, hend⟩
          · rw [mkSpan]
            simp only [List.cons_append, List.append_assoc]
            have k : rr = List.takeWhile isDig rr ++
                (':' :: ':' :: (inner ++ '\x7d' :: '\x7d' :: rest)) := by
              conv_lhs => rw [hrr]
              rw [he]
            conv_lhs => rw [k]
            simp
          · intro hnil
            rw [hnil] at hne
            simp at hne
          · intro c hc
            exact List.mem_takeWhile_imp hc
        · cases h
      · cases h
  · cases h

theorem mss_mk {ds i : Str} (hne : ds ≠ []) (hd : ∀ c ∈ ds, isDig c = true)
    (hp : pairFree i = true) (X : Str) :
    matchStrictSpan (mkSpan ds i ++ X) =
      if endsB i then some (ds, i.dropLast, '\x7d' :: X) else some (ds, i, X) := by
  have h1 : List.takeWhile isDig (ds ++ ':' :: ':' :: (i ++ '\x7d' :: '\x7d' :: X)) = ds := by
    rw [takeWhile_app_all hd, takeWhile_neg _ (by decide)]
    simp
  have h2 : List.dropWhile isDig (ds ++ ':' :: ':' :: (i ++ '\x7d' :: '\x7d' :: X)) =
      ':' :: ':' :: (i ++ '\x7d' :: '\x7d' :: X) := by
    rw [dropWhile_app_all hd, dropWhile_neg _ (by decide)]
  have h3 := splitACB_app hp X
  have hemp : ds.isEmpty = false := by
    cases ds with
    | nil => exact absurd rfl hne
    | cons a t => rfl
  rw [mkSpan]
  simp only [List.cons_append, List.append_assoc]
  unfold matchStrictSpan
  simp only [List.nil_append, List.cons_append]
  rw [h1, h2, hemp]
  simp only [Bool.false_eq_true, if_false]
  rw [h3]
  by_cases he : endsB i = true
  · rw [if_pos he, if_pos he]
  · rw [if_neg he, if_neg he]

theorem mss_none_head {c : Char} (r : Str) (h : c ≠ '\x7b') :
    matchStrictSpan (c :: r) = none := by
  cases hm : matchStrictSpan (c :: r) with
  | none => rfl
  | some tr =>
    obtain ⟨ds, i, rest⟩ := tr
    obtain ⟨heq, -⟩ := mss_some hm
    rw [mkSpan] at heq
    simp only [List.cons_append, List.cons_eq_cons] at heq
    exact absurd heq.1 h

theorem mss_len {s ds i r : Str} (h : matchStrictSpan s = some (ds, i, r)) :
    r.length < s.length := by
  obtain ⟨heq, -⟩ := mss_some h
  rw [heq, mkSpan]
  simp
  omega

theorem mlo_some :
    ∀ {s ds r : Str}, matchLenOpen s = some (ds, r) →
      ∃ w1 w2 : Str,
        s = '\x7b' :: '\x7b' :: (w1 ++ 'c' :: (ds ++ (w2 ++ ':' :: ':' :: r))) ∧
        (∀ c ∈ w1, isJsSpace c = true) ∧ (∀ c ∈ w2, isJsSpace c = true) ∧
        ds ≠ [] ∧ (∀ c ∈ ds, isDig c = true) := by
  intro s ds r h
  unfold matchLenOpen at h
  split at h
  · next rr =>
    split at h
    · next r2 heq =>
      simp only [] at h
      split at h
      · cases h
      · next hne =>
        split at h
        · next r4 heq2 =>
          simp only [Option.some.injEq, Prod.mk.injEq] at h
          obtain ⟨h1, h2⟩ := h
          subst h1; subst h2
          refine ⟨List.takeWhile isJsSpace rr, List.takeWhile isJsSpace (List.dropWhile isDig r2),
            ?_, ?_, ?_, ?_, ?_⟩
          · have hrr : rr = List.takeWhile isJsSpace rr ++ ('c' :: r2) := by
              rw [← heq, List.takeWhile_append_dropWhile]
            have hr2 : r2 = List.takeWhile isDig r2 ++ List.dropWhile isDig r2 := by
              rw [List.takeWhile_append_dropWhile]
            have hr3 : List.dropWhile isDig r2 =
                List.takeWhile isJsSpace (List.dropWhile isDig r2) ++ (':' :: ':' :: r4) := by
              rw [← heq2, List.takeWhile_append_dropWhile]
            have k2 : r2 = List.takeWhile isDig r2 ++
                (List.takeWhile isJsSpace (List.dropWhile isDig r2) ++ ':' :: ':' :: r4) := by
              conv_lhs => rw [hr2]
              conv_lhs => rw [hr3]
            have k1 : rr = List.takeWhile isJsSpace rr ++
                'c' :: (List.takeWhile isDig r2 ++
                  (List.takeWhile isJsSpace (List.dropWhile isDig r2) ++ ':' :: ':' :: r4)) := by
              conv_lhs => rw [hrr, k2]
            conv_lhs => rw [k1]
          · intro c hc; exact List.mem_takeWhile_imp hc
          · intro c hc; exact List.mem_takeWhile_imp hc
          · intro hnil
            rw [hnil] at hne
            simp at hne
          · intro c hc; exact List.mem_takeWhile_imp hc
        · cases h
    · cases h
  · cases h

theorem mlo_full {w1 w2 ds : Str} (hw1 : ∀ c ∈ w1, isJsSpace c = true)
    (hw2 : ∀ c ∈ w2, isJsSpace c = true) (hne : ds ≠ [])
    (hd : ∀ c ∈ ds, isDig c = true) (X : Str) :
    matchLenOpen ('\x7b' :: '\x7b' :: (w1 ++ 'c' :: (ds ++ (w2 ++ ':' :: ':' :: X)))) =
      some (ds, X) := by
  have h1 : List.dropWhile isJsSpace (w1 ++ 'c' :: (ds ++ (w2 ++ ':' :: ':' :: X))) =
      'c' :: (ds ++ (w2 ++ ':' :: ':' :: X)) := by
    rw [dropWhile_app_all hw1, dropWhile_neg _ (by decide)]
  have htk : List.takeWhile isDig (w2 ++ ':' :: ':' :: X) = [] := by
    cases w2 with
    | nil => exact takeWhile_neg _ (by decide)
    | cons a t =>
      rw [List.cons_append]
      exact takeWhile_neg _ (space_not_dig (hw2 a (by simp)))
  have hdr : List.dropWhile isDig (w2 ++ ':' :: ':' :: X) = w2 ++ ':' :: ':' :: X := by
    cases w2 with
    | nil => exact dropWhile_neg _ (by decide)
    | cons a t =>
      rw [List.cons_append]
      exact dropWhile_neg _ (space_not_dig (hw2 a (by simp)))
  have h2 : List.takeWhile isDig (ds ++ (w2 ++ ':' :: ':' :: X)) = ds := by
    rw [takeWhile_app_all hd, htk]
    simp
  have h3 : List.dropWhile isDig (ds ++ (w2 ++ ':' :: ':' :: X)) = w2 ++ ':' :: ':' :: X := by
    rw [dropWhile_app_all hd, hdr]
  have h4 : List.dropWhile isJsSpace (w2 ++ ':' :: ':' :: X) = ':' :: ':' :: X := by
    rw [dropWhile_app_all hw2, dropWhile_neg _ (by decide)]
  simp only [matchLenOpen]
  rw [h1]
  simp only []
  rw [h2, h3, h4]
  have hemp : ds.isEmpty = false := by
    cases ds with
    | nil => exact absurd rfl hne
    | cons a t => rfl
  rw [hemp]
  simp

theorem mlo_opener {ds : Str} (hne : ds ≠ []) (hd : ∀ c ∈ ds, isDig c = true) (X : Str) :
    matchLenOpen (openerStr ds ++ X) = some (ds, X) := by
  have h := @mlo_full [] [] ds (fun c hc => by cases hc)
    (fun c hc => by cases hc) hne hd X
  rw [openerStr]
  simpa using h

theorem mlo_none_head {c : Char} (r : Str) (h : c ≠ '\x7b') :
    matchLenOpen (c :: r) = none := by
  cases hm : matchLenOpen (c :: r) with
  | none => rfl
  | some pr =>
    obtain ⟨ds, rest⟩ := pr
    obtain ⟨w1, w2, heq, -⟩ := mlo_some hm
    simp only [List.cons_eq_cons] at heq
    exact absurd heq.1 h

theorem mlo_len {s ds r : Str} (h : matchLenOpen s = some (ds, r)) :
    r.length < s.length := by
  obtain ⟨w1, w2, heq, -, -, -, -⟩ := mlo_some h
  rw [heq]
  simp
  omega

theorem mls_some :
    ∀ {s ds i r : Str}, matchLenSpan s = some (ds, i, r) →
      ∃ w1 w2 : Str,
        s = '\x7b' :: '\x7b' ::
            (w1 ++ 'c' :: (ds ++ (w2 ++ ':' :: ':' :: (i ++ '\x7d' :: '\x7d' :: r)))) ∧
        (∀ c ∈ w1, isJsSpace c = true) ∧ (∀ c ∈ w2, isJsSpace c = true) ∧
        ds ≠ [] ∧ (∀ c ∈ ds, isDig c = true) ∧
        pairFree i = true ∧ endsB i = false := by
  intro s ds i r h
  unfold matchLenSpan at h
  split at h
  · next ds' rr heq =>
    split at h
    · next inner rest heq2 =>
      simp only [Option.some.injEq, Prod.mk.injEq] at h
      obtain ⟨h1, h2, h3⟩ := h
      subst h1; subst h2; subst h3
      obtain ⟨w1, w2, hs, hw1, hw2, hne, hd⟩ := mlo_some heq
      obtain ⟨he, hpf, hend⟩ := splitACB_some heq2
      exact ⟨w1, w2, by rw [hs, he], hw1, hw2, hne, hd, hpf, hend⟩
    · cases h
  · cases h

theorem mls_none_head {c : Char} (r : Str) (h : c ≠ '\x7b') :
    matchLenSpan (c :: r) = none := by
  unfold matchLenSpan
  rw [mlo_none_head r h]

theorem mls_len {s ds i r : Str} (h : matchLenSpan s = some (ds, i, r)) :
    r.length < s.length := by
  obtain ⟨w1, w2, heq, -⟩ := mls_some h
  rw [heq]
  simp
  omega

/- ---------------------------------------------------------------------
   Fuel irrelevance and unfolding equations for the scans.
   --------------------------------------------------------------------- -/

theorem scanG_succ {G : Type} (mt : Str → Option (G × Str)) (lt : Char → G)
    (f : Nat) (s : Str) :
    scanG mt lt (f + 1) s =
      (match mt s with
       | some (b, rest) => b :: scanG mt lt f rest
       | none =>
         match s with
         | [] => []
         | c :: r => lt c :: scanG mt lt f r) := rfl

/-- The matcher consumes at least one character on every match. -/
def mtShrinks {G : Type} (mt : Str → Option (G × Str)) : Prop :=
  ∀ s b rest, mt s = some (b, rest) → rest.length < s.length

theorem scanG_irrel {G : Type} {mt : Str → Option (G × Str)} {lt : Char → G}
    (hm : mtShrinks mt) :
    ∀ f g : Nat, ∀ s : Str, s.length ≤ f → s.length ≤ g →
      scanG mt lt f s = scanG mt lt g s := by
  intro f
  induction f with
  | zero =>
    intro g s hf hg
    have hs : s = [] := List.eq_nil_of_length_eq_zero (Nat.le_zero.mp hf)
    subst hs
    cases g with
    | zero => rfl
    | succ g' =>
      rw [scanG_succ]
      cases hmt : mt [] with
      | some pr =>
        obtain ⟨b, rest⟩ := pr
        have := hm [] b rest hmt
        simp at this
      | none => simp [hmt, scanG]
  | succ f ih =>
    intro g s hf hg
    cases g with
    | zero =>
      have hs : s = [] := List.eq_nil_of_length_eq_zero (Nat.le_zero.mp hg)
      subst hs
      rw [scanG_succ]
      cases hmt : mt [] with
      | some pr =>
        obtain ⟨b, rest⟩ := pr
        have := hm [] b rest hmt
        simp at this
      | none => simp [hmt, scanG]
    | succ g' =>
      rw [scanG_succ, scanG_succ]
      cases hmt : mt s with
      | some pr =>
        obtain ⟨b, rest⟩ := pr
        have hl := hm s b rest hmt
        simp only [hmt]
        rw [ih g' rest (by omega) (by omega)]
      | none =>
        simp only [hmt]
        cases s with
        | nil => rfl
        | cons c r =>
          simp only [List.length_cons] at hf hg
          show lt c :: scanG mt lt f r = lt c :: scanG mt lt g' r
          rw [ih g' r (by omega) (by omega)]

theorem runScan_none {G : Type} {mt : Str → Option (G × Str)} {lt : Char → G}
    {c : Char} {r : Str} (h : mt (c :: r) = none) :
    runScan mt lt (c :: r) = lt c :: runScan mt lt r := by
  unfold runScan
  simp only [List.length_cons, scanG_succ, h]

theorem runScan_some {G : Type} {mt : Str → Option (G × Str)} {lt : Char → G}
    (hm : mtShrinks mt) {s b rest} (h : mt s = some (b, rest)) :
    runScan mt lt s = b :: runScan mt lt rest := by
  have hl := hm s b rest h
  unfold runScan
  cases s with
  | nil => simp at hl
  | cons c r =>
    simp only [List.length_cons, scanG_succ, h]
    congr 1
    exact scanG_irrel hm r.length rest.length rest
      (by simp only [List.length_cons] at hl; omega) (le_refl _)

theorem mtE_shrinks : mtShrinks mtE := by
  intro s b rest h
  unfold mtE at h
  cases hms : matchStrictSpan s with
  | none => rw [hms] at h; cases h
  | some tr =>
    obtain ⟨ds, i, r⟩ := tr
    rw [hms] at h
    simp only [Option.map_some', Option.some.injEq, Prod.mk.injEq] at h
    obtain ⟨h1, h2⟩ := h
    subst h2
    exact mss_len hms

theorem mtR_shrinks : mtShrinks mtR := by
  intro s b rest h
  unfold mtR at h
  cases hms : matchLenOpen s with
  | none => rw [hms] at h; cases h
  | some pr =>
    obtain ⟨ds, r⟩ := pr
    rw [hms] at h
    simp only [Option.map_some', Option.some.injEq, Prod.mk.injEq] at h
    obtain ⟨h1, h2⟩ := h
    subst h2
    exact mlo_len hms

theorem mtC_shrinks : mtShrinks mtC := by
  intro s b rest h
  unfold mtC at h
  cases hms : matchLenSpan s with
  | none => rw [hms] at h; cases h
  | some tr =>
    obtain ⟨ds, i, r⟩ := tr
    rw [hms] at h
    simp only [Option.map_some', Option.some.injEq, Prod.mk.injEq] at h
    obtain ⟨h1, h2⟩ := h
    subst h2
    exact mls_len hms

theorem parseE_nil : parseE [] = [] := rfl

theorem parseE_none {c : Char} {r : Str} (h : matchStrictSpan (c :: r) = none) :
    parseE (c :: r) = ETok.lit c :: parseE r :=
  runScan_none (by unfold mtE; rw [h]; rfl)

theorem parseE_some {s ds i rest : Str} (h : matchStrictSpan s = some (ds, i, rest)) :
    parseE s = ETok.sp ds i :: parseE rest :=
  runScan_some mtE_shrinks (by unfold mtE; rw [h]; rfl)

theorem parseR_nil : parseR [] = [] := rfl

theorem parseR_none {c : Char} {r : Str} (h : matchLenOpen (c :: r) = none) :
    parseR (c :: r) = RTok.lit c :: parseR r :=
  runScan_none (by unfold mtR; rw [h]; rfl)

theorem parseR_some {s ds rest : Str} (h : matchLenOpen s = some (ds, rest)) :
    parseR s = RTok.op ds :: parseR rest :=
  runScan_some mtR_shrinks (by unfold mtR; rw [h]; rfl)

theorem parseC_nil : parseC [] = [] := rfl

theorem parseC_none {c : Char} {r : Str} (h : matchLenSpan (c :: r) = none) :
    parseC (c :: r) = CTok.lit c :: parseC r :=
  runScan_none (by unfold mtC; rw [h]; rfl)

theorem parseC_some {s ds i rest : Str} (h : matchLenSpan s = some (ds, i, rest)) :
    parseC s = CTok.sp (s.take (s.length - rest.length)) ds i :: parseC rest :=
  runScan_some mtC_shrinks (by unfold mtC; rw [h]; rfl)

theorem enforce_eq (t : Str) (maxW : Nat) :
    enforceClozeWordLimit t maxW = ((parseE t).map (renderE maxW)).flatten := by
  cases t with
  | nil => rfl
  | cons c r => rfl

/- ---------------------------------------------------------------------
   Fuel irrelevance and unfolding equations for the split.
   --------------------------------------------------------------------- -/

theorem splitDAux_succ (D : Str) (f : Nat) (s : Str) :
    splitDAux D (f + 1) s =
      (if D.isPrefixOf s && !D.isEmpty then
        [] :: splitDAux D f (s.drop D.length)
      else
        match s with
        | [] => [[]]
        | c :: r =>
          match splitDAux D f r with
          | [] => [[c]]
          | x :: xs => (c :: x) :: xs) := rfl

theorem splitDAux_irrel (D : Str) :
    ∀ f g : Nat, ∀ s : Str, s.length ≤ f → s.length ≤ g →
      splitDAux D f s = splitDAux D g s := by
  intro f
  induction f with
  | zero =>
    intro g s hf hg
    have hs : s = [] := List.eq_nil_of_length_eq_zero (Nat.le_zero.mp hf)
    subst hs
    cases g with
    | zero => rfl
    | succ g' =>
      rw [splitDAux_succ]
      cases hD : (D.isPrefixOf [] && !D.isEmpty) with
      | true =>
        exfalso
        rw [Bool.and_eq_true] at hD
        cases D with
        | nil => simp at hD
        | cons d t => simp [List.isPrefixOf] at hD
      | false => simp [splitDAux]
  | succ f ih =>
    intro g s hf hg
    cases g with
    | zero =>
      have hs : s = [] := List.eq_nil_of_length_eq_zero (Nat.le_zero.mp hg)
      subst hs
      rw [splitDAux_succ]
      cases hD : (D.isPrefixOf [] && !D.isEmpty) with
      | true =>
        exfalso
        rw [Bool.and_eq_true] at hD
        cases D with
        | nil => simp at hD
        | cons d t => simp [List.isPrefixOf] at hD
      | false => simp [splitDAux]
    | succ g' =>
      rw [splitDAux_succ, splitDAux_succ]
      cases hD : (D.isPrefixOf s && !D.isEmpty) with
      | true =>
        rw [Bool.and_eq_true] at hD
        obtain ⟨hpre, hDne⟩ := hD
        have hDlen : 1 ≤ D.length := by
          cases D with
          | nil => simp at hDne
          | cons d t => simp
        have hslen : D.length ≤ s.length := ipo_len hpre
        rw [if_pos rfl, if_pos rfl,
          ih g' (s.drop D.length) (by simp; omega) (by simp; omega)]
      | false =>
        cases s with
        | nil => rfl
        | cons c r =>
          simp only [List.length_cons] at hf hg
          rw [if_neg (by simp), if_neg (by simp)]
          show (match splitDAux D f r with
                | [] => [[c]]
                | x :: xs => (c :: x) :: xs) =
              (match splitDAux D g' r with
                | [] => [[c]]
                | x :: xs => (c :: x) :: xs)
          rw [ih g' r (by omega) (by omega)]

theorem splitD_pref {D s : Str} (hne : D ≠ []) (h : D.isPrefixOf s = true) :
    splitD D s = [] :: splitD D (s.drop D.length) := by
  have hDlen : 1 ≤ D.length := by
    cases D with
    | nil => exact absurd rfl hne
    | cons d t => simp
  have hslen : D.length ≤ s.length := ipo_len h
  unfold splitD
  rw [splitDAux_succ]
  have hcond : (D.isPrefixOf s && !D.isEmpty) = true := by
    rw [Bool.and_eq_true]
    refine ⟨h, ?_⟩
    cases D with
    | nil => exact absurd rfl hne
    | cons d t => rfl
  rw [hcond, if_pos rfl]
  congr 1
  exact splitDAux_irrel D s.length ((s.drop D.length).length + 1) (s.drop D.length)
    (by simp only [List.length_drop]; omega) (by simp)

theorem splitD_nil (D : Str) : splitD D [] = [[]] := by
  unfold splitD
  rw [splitDAux_succ]
  cases D with
  | nil => simp
  | cons d t => simp [List.isPrefixOf]

theorem splitD_cons {D : Str} {c : Char} {r : Str}
    (h : (D.isPrefixOf (c :: r) && !D.isEmpty) = false) :
    splitD D (c :: r) =
      (match splitD D r with
       | [] => [[c]]
       | x :: xs => (c :: x) :: xs) := by
  unfold splitD
  rw [splitDAux_succ, h]
  simp only [Bool.false_eq_true, if_false, List.length_cons]

theorem splitD_ne_nil (D : Str) : ∀ s : Str, splitD D s ≠ [] := by
  intro s
  cases hD : (D.isPrefixOf s && !D.isEmpty) with
  | true =>
    rw [Bool.and_eq_true] at hD
    obtain ⟨hpre, hDne⟩ := hD
    have hne : D ≠ [] := by
      cases D with
      | nil => simp at hDne
      | cons d t => simp
    rw [splitD_pref hne hpre]
    simp
  | false =>
    cases s with
    | nil => rw [splitD_nil]; simp
    | cons c r =>
      rw [splitD_cons hD]
      cases splitD D r with
      | nil => simp
      | cons x xs => simp

/- ---------------------------------------------------------------------
   Round trip of the strict scan, and the passthrough of the capper.
   --------------------------------------------------------------------- -/

/-- Original text of a strict-scan token. -/
def origE : ETok → Str
  | ETok.lit c => [c]
  | ETok.sp ds i => mkSpan ds i

theorem parseE_orig : ∀ n : Nat, ∀ t : Str, t.length ≤ n →
    ((parseE t).map origE).flatten = t := by
  intro n
  induction n with
  | zero =>
    intro t ht
    have : t = [] := List.eq_nil_of_length_eq_zero (Nat.le_zero.mp ht)
    subst this
    rfl
  | succ n ih =>
    intro t ht
    cases hm : matchStrictSpan t with
    | some tr =>
      obtain ⟨ds, i, rest⟩ := tr
      have hlen := mss_len hm
      obtain ⟨heq, -⟩ := mss_some hm
      rw [parseE_some hm]
      simp only [List.map_cons, List.flatten_cons, origE]
      rw [ih rest (by omega)]
      exact heq.symm
    | none =>
      cases t with
      | nil => rfl
      | cons c r =>
        rw [parseE_none hm]
        simp only [List.map_cons, List.flatten_cons, origE, List.singleton_append]
        simp only [List.length_cons] at ht
        rw [ih r (by omega)]

theorem getD_tail (l : List Str) (j : Nat) : l.tail.getD j [] = l.getD (j + 1) [] := by
  cases l with
  | nil => rfl
  | cons x xs => rfl

theorem getD_head (l : List Str) : l.headD [] = l.getD 0 [] := by
  cases l with
  | nil => rfl
  | cons x xs => rfl

theorem capCard_pass {oc ic : Str} (h : openerIdx ic = []) : capCard oc ic = oc := by
  unfold capCard
  rw [h]
  rfl

theorem capCards_empty_allowed :
    ∀ (ocs ics : List Str) (i : Nat), i < ocs.length →
      openerIdx (ics.getD i []) = [] →
      (capCards ocs ics).getD i [] = ocs.getD i [] := by
  intro ocs
  induction ocs with
  | nil =>
    intro ics i h
    simp at h
  | cons oc ocs ih =>
    intro ics i hi ho
    cases i with
    | zero =>
      show (capCard oc (ics.headD []) :: capCards ocs ics.tail).getD 0 [] = oc
      simp only [List.getD_cons_zero]
      exact capCard_pass (by rw [getD_head]; exact ho)
    | succ j =>
      show (capCard oc (ics.headD []) :: capCards ocs ics.tail).getD (j + 1) [] =
        (oc :: ocs).getD (j + 1) []
      simp only [List.getD_cons_succ]
      exact ih ics.tail j (by simpa using hi) (by rw [getD_tail]; exact ho)

/- =====================================================================
   Claim theorems and counterexamples (first group).
   ===================================================================== -/

/-- Claim C9: the word-limit pass matches only openers written exactly as
two braces, the letter c and digits followed by two colons, with no
whitespace; a text with no strict-form span (for example a span written
with stray whitespace inside the opener) is returned character for
character unchanged, while the lenient matchers used by the renumbering
and capping passes do recognise such an opener. -/
theorem C9_strict_vs_lenient :
    (∀ t : Str, ∀ maxW : Nat, strictSpans t = [] →
      enforceClozeWordLimit t maxW = t) ∧
    strictSpans "\x7b\x7b c1 ::one two three four five\x7d\x7d".data = [] ∧
    enforceClozeWordLimit "\x7b\x7b c1 ::one two three four five\x7d\x7d".data 3 =
      "\x7b\x7b c1 ::one two three four five\x7d\x7d".data ∧
    openerIdx "\x7b\x7b c1 ::one two three four five\x7d\x7d".data = ["1".data] ∧
    lenSpanIdx "\x7b\x7b c1 ::one two three four five\x7d\x7d".data = ["1".data] := by
  refine ⟨?_, by decide, by decide, by decide, by decide⟩
  intro t maxW h
  rw [enforce_eq]
  have hc : ∀ tok ∈ parseE t, renderE maxW tok = origE tok := by
    intro tok htok
    cases tok with
    | lit c => rfl
    | sp ds i =>
      exfalso
      have hmem : (ds, i) ∈ strictSpans t := by
        unfold strictSpans
        exact List.mem_filterMap.mpr ⟨ETok.sp ds i, htok, rfl⟩
      rw [h] at hmem
      cases hmem
  rw [List.map_congr_left hc]
  exact parseE_orig t.length t (le_refl _)

/-- Witness for claim C9 at a concrete stray-whitespace span. -/
theorem C9_witness :
    enforceClozeWordLimit "\x7b\x7b c1 ::one two three four five\x7d\x7d".data 3 =
      "\x7b\x7b c1 ::one two three four five\x7d\x7d".data :=
  C9_strict_vs_lenient.1 "\x7b\x7b c1 ::one two three four five\x7d\x7d".data 3 (by decide)

/-- Claim C10: the keyword branch of pickAnchorWords ignores the maxWords
argument entirely; with maxWords one and content containing both paired
keywords it returns a two-token anchor. -/
theorem C10_keyword_branch_ignores_maxWords :
    (∀ content : Str, ∀ m1 m2 : Nat, (findKw (trim content)).isSome = true →
      pickAnchorWords content m1 = pickAnchorWords content m2) ∧
    pickAnchorWords "Schuffner\x27s dots everywhere".data 1 =
      "Schuffner\x27s dots".data ∧
    1 < (wsTokens (pickAnchorWords "Schuffner\x27s dots everywhere".data 1)).length := by
  refine ⟨?_, by decide, by decide⟩
  intro content m1 m2 h
  cases hf : findKw (trim content) with
  | none => rw [hf] at h; cases h
  | some w => simp only [pickAnchorWords, hf]

/-- Witness for claim C10 at a concrete keyword content. -/
theorem C10_witness :
    pickAnchorWords "vivax is here".data 5 = pickAnchorWords "vivax is here".data 1 :=
  C10_keyword_branch_ignores_maxWords.1 "vivax is here".data 5 1 (by decide)

/-- Claim C6: an output card whose corresponding input card contains no
cloze opener (the allowed-index set is empty, including output positions
beyond the last input segment) is passed through the capping stage
unchanged, and capClozesToInput is the delimiter join of the per-position
capped cards. -/
theorem C6_empty_allowed_passthrough :
    (∀ outT inT d : Str, ∀ i : Nat,
      i < (splitD (delimOr d) outT).length →
      openerIdx ((splitD (delimOr d) inT).getD i []) = [] →
      (capCards (splitD (delimOr d) outT) (splitD (delimOr d) inT)).getD i [] =
        (splitD (delimOr d) outT).getD i []) ∧
    (∀ outT inT d : Str,
      capClozesToInput outT inT d =
        List.intercalate (delimOr d)
          (capCards (splitD (delimOr d) outT) (splitD (delimOr d) inT))) := by
  constructor
  · intro outT inT d i hi ho
    exact capCards_empty_allowed _ _ i hi ho
  · intro outT inT d
    rfl

/-- Witness for claim C6: a cloze-free input card leaves an output card
that introduces a new cloze untouched. -/
theorem C6_witness :
    (capCards
        (splitD (delimOr "===CARD===".data)
          "\x7b\x7bc1::Plasmodium vivax\x7d\x7d is a species".data)
        (splitD (delimOr "===CARD===".data)
          "Plasmodium vivax is a species".data)).getD 0 [] =
      (splitD (delimOr "===CARD===".data)
        "\x7b\x7bc1::Plasmodium vivax\x7d\x7d is a species".data).getD 0 [] :=
  C6_empty_allowed_passthrough.1 _ _ "===CARD===".data 0 (by decide) (by decide)

/-- Counterexample to claim C1 as stated: a span whose content consists of
punctuation-only tokens is left with five whitespace tokens by the
word-limit pass, because the anchor selector returns the content unchanged
when every token strips to nothing. -/
theorem C1_counterexample :
    ("1".data, "! @ # $ %".data) ∈
      strictSpans (enforceClozeWordLimit "\x7b\x7bc1::! @ # $ %\x7d\x7d".data 3) ∧
    3 < (wsTokens "! @ # $ %".data).length := by decide

/-- Counterexample to claim C2 as stated: stripping an out-of-set span
whose content itself contains cloze markup recomposes a new span whose
index is outside the allowed set. -/
theorem C2_counterexample :
    openerIdx "\x7b\x7bc1::a\x7d\x7d".data ≠ [] ∧
    "5".data ∉ openerIdx "\x7b\x7bc1::a\x7d\x7d".data ∧
    "5".data ∈ lenSpanIdx
      (capClozesToInput "\x7b\x7bc9::\x7b\x7bc5::x\x7d\x7d junk\x7d\x7d".data
        "\x7b\x7bc1::a\x7d\x7d".data "===CARD===".data) := by decide

/-- Counterexample to claim C4 as stated: with a delimiter that overlaps
cloze markup, renumbering is not idempotent, because the delimiter can
occur inside the renumbered output and change the card decomposition of
the second pass. -/
theorem C4_counterexample :
    renumberClozesPerCard
        (renumberClozesPerCard "\x7b\x7bc3::x\x7d\x7d\x7b\x7bc5::y\x7d\x7d".data
          "\x7b\x7bc1::x\x7d\x7d".data)
        "\x7b\x7bc1::x\x7d\x7d".data ≠
      renumberClozesPerCard "\x7b\x7bc3::x\x7d\x7d\x7b\x7bc5::y\x7d\x7d".data
        "\x7b\x7bc1::x\x7d\x7d".data := by decide

/-- Counterexample to claim C7 as stated: a delimiter containing a newline
can be re-formed across the junction inserted by the join, splitting a
part; the parts here are non-empty, trimmed and delimiter-free. -/
theorem C7_counterexample :
    ("aX".data ≠ [] ∧ trim "aX".data = "aX".data ∧
      hasOccur "X\n".data "aX".data = false) ∧
    ("b".data ≠ [] ∧ trim "b".data = "b".data ∧
      hasOccur "X\n".data "b".data = false) ∧
    splitByDelimiter (joinByDelimiter ["aX".data, "b".data] "X\n".data) "X\n".data ≠
      ["aX".data, "b".data] := by decide

/-- Counterexample to claim C8 as stated: a content containing the phrase
can also contain the higher-priority keyword hypnozoite, in which case the
anchor is that keyword rather than the paired keywords. -/
theorem C8_counterexample :
    hasOccur "Schuffner\x27s dots are seen".data
        "hypnozoite Schuffner\x27s dots are seen".data = true ∧
    pickAnchorWords "hypnozoite Schuffner\x27s dots are seen".data 3 =
      "hypnozoite".data ∧
    pickAnchorWords "hypnozoite Schuffner\x27s dots are seen".data 3 ≠
      "Schuffner\x27s dots".data := by decide

/- ---------------------------------------------------------------------
   Decimal representations.
   --------------------------------------------------------------------- -/

theorem digChar_isDig : ∀ k : Nat, isDig (digChar k) = true := by
  intro k
  unfold digChar
  split <;> decide

theorem digChar_val : ∀ n : Nat, n < 10 → (digChar n).toNat = 48 + n := by
  intro n h
  interval_cases n <;> decide

theorem natDigitsAux_ne_nil : ∀ f n : Nat, n < f → natDigitsAux f n ≠ [] := by
  intro f
  induction f with
  | zero => intro n h; omega
  | succ f ih =>
    intro n h
    unfold natDigitsAux
    by_cases h10 : n < 10
    · rw [if_pos h10]; simp
    · rw [if_neg h10]; simp

theorem natDigits_ne_nil (n : Nat) : natDigits n ≠ [] :=
  natDigitsAux_ne_nil (n + 1) n (by omega)

theorem natDigitsAux_digits : ∀ f n : Nat, ∀ c ∈ natDigitsAux f n, isDig c = true := by
  intro f
  induction f with
  | zero => intro n c h; simp [natDigitsAux] at h
  | succ f ih =>
    intro n c h
    unfold natDigitsAux at h
    by_cases h10 : n < 10
    · rw [if_pos h10] at h
      simp at h
      rw [h]
      exact digChar_isDig n
    · rw [if_neg h10] at h
      rw [List.mem_append] at h
      rcases h with h | h
      · exact ih (n / 10) c h
      · simp at h
        rw [h]
        exact digChar_isDig (n % 10)

theorem natDigits_digits (n : Nat) : ∀ c ∈ natDigits n, isDig c = true :=
  natDigitsAux_digits (n + 1) n

theorem digitsVal_append (a : Str) (c : Char) :
    digitsVal (a ++ [c]) = 10 * digitsVal a + (c.toNat - 48) := by
  unfold digitsVal
  rw [List.foldl_append]
  rfl

theorem natDigitsAux_val : ∀ f n : Nat, n < f → digitsVal (natDigitsAux f n) = n := by
  intro f
  induction f with
  | zero => intro n h; omega
  | succ f ih =>
    intro n h
    unfold natDigitsAux
    by_cases h10 : n < 10
    · rw [if_pos h10]
      show digitsVal ([] ++ [digChar n]) = n
      rw [digitsVal_append, digChar_val n h10]
      simp [digitsVal]
    · rw [if_neg h10]
      rw [digitsVal_append, digChar_val (n % 10) (by omega)]
      have hd : n / 10 < f := by
        have h1 : n / 10 < n := Nat.div_lt_self (by omega) (by omega)
        omega
      rw [ih (n / 10) hd]
      omega

theorem natDigits_val (n : Nat) : digitsVal (natDigits n) = n :=
  natDigitsAux_val (n + 1) n (by omega)

theorem natDigits_inj {a b : Nat} (h : natDigits a = natDigits b) : a = b := by
  have := congrArg digitsVal h
  rwa [natDigits_val, natDigits_val] at this

/- ---------------------------------------------------------------------
   The renumbering output and its rescan.
   --------------------------------------------------------------------- -/

/-- Output of the renumbering replace starting in a given callback
state. -/
def renOut (m : List (Str × Nat)) (nx : Nat) (s : Str) : Str :=
  ((assignR m nx (parseR s)).map renderR1).flatten

theorem renumberCard_eq (s : Str) : renumberCard s = renOut [] 1 s := rfl

theorem renOut_nil (m : List (Str × Nat)) (nx : Nat) : renOut m nx [] = [] := rfl

theorem renOut_lit {c : Char} {r : Str} (h : matchLenOpen (c :: r) = none)
    (m : List (Str × Nat)) (nx : Nat) :
    renOut m nx (c :: r) = c :: renOut m nx r := by
  unfold renOut
  rw [parseR_none h]
  rfl

theorem renOut_match {s ds rest : Str} (h : matchLenOpen s = some (ds, rest))
    (m : List (Str × Nat)) (nx : Nat) :
    renOut m nx s =
      (match lookupStr ds m with
       | some k => openerStr (natDigits k) ++ renOut m nx rest
       | none => openerStr (natDigits nx) ++ renOut ((ds, nx) :: m) (nx + 1) rest) := by
  unfold renOut
  rw [parseR_some h, assignR]
  cases hl : lookupStr ds m with
  | some k => rfl
  | none => rfl

/-- Every character of a normalised opener is an opener character. -/
theorem openerStr_chars {ds : Str} (hd : ∀ c ∈ ds, isDig c = true) :
    ∀ c ∈ openerStr ds, isRenChar c = true := by
  intro c hc
  unfold openerStr at hc
  rcases List.mem_cons.mp hc with h | hc2
  · rw [h]; decide
  rcases List.mem_cons.mp hc2 with h | hc3
  · rw [h]; decide
  rcases List.mem_cons.mp hc3 with h | hc4
  · rw [h]; decide
  rcases List.mem_append.mp hc4 with h | h
  · simp [isRenChar, hd c h]
  · rcases List.mem_cons.mp h with h1 | h1
    · rw [h1]; decide
    · rcases List.mem_cons.mp h1 with h2 | h2
      · rw [h2]; decide
      · simp at h2

/-- Peeling one literal character off the renumbering output: a non-brace
head of the output is the head of the input. -/
theorem renOut_peel {u : Str} {m : List (Str × Nat)} {nx : Nat} {x : Char} {tail : Str}
    (hx : x ≠ '\x7b') (h : renOut m nx u = x :: tail) :
    ∃ u2, u = x :: u2 ∧ renOut m nx u2 = tail ∧ matchLenOpen u = none := by
  cases hm : matchLenOpen u with
  | some pr =>
    obtain ⟨ds, rest⟩ := pr
    rw [renOut_match hm] at h
    exfalso
    cases hl : lookupStr ds m with
    | some k =>
      rw [hl] at h
      simp only [openerStr, List.cons_append, List.cons_eq_cons] at h
      exact hx h.1.symm
    | none =>
      rw [hl] at h
      simp only [openerStr, List.cons_append, List.cons_eq_cons] at h
      exact hx h.1.symm
  | none =>
    cases u with
    | nil => rw [renOut_nil] at h; cases h
    | cons c u2 =>
      rw [renOut_lit hm] at h
      rw [List.cons_eq_cons] at h
      obtain ⟨hcx, hrest⟩ := h
      subst hcx
      exact ⟨u2, rfl, hrest, rfl⟩

/-- Peeling a block of non-brace characters off the renumbering output. -/
theorem renOut_peels :
    ∀ (pfx : Str), (∀ ch ∈ pfx, ch ≠ '\x7b') →
      ∀ {u : Str} {m : List (Str × Nat)} {nx : Nat} {tail : Str},
        renOut m nx u = pfx ++ tail →
        ∃ u2, u = pfx ++ u2 ∧ renOut m nx u2 = tail := by
  intro pfx
  induction pfx with
  | nil =>
    intro _ u m nx tail h
    exact ⟨u, rfl, by simpa using h⟩
  | cons x pfx ih =>
    intro hch u m nx tail h
    rw [List.cons_append] at h
    obtain ⟨u2, hu, hout, -⟩ := renOut_peel (hch x (by simp)) h
    obtain ⟨u3, hu2, hout2⟩ := ih (fun ch hm => hch ch (by simp [hm])) hout
    exact ⟨u3, by rw [hu, hu2, List.cons_append], hout2⟩

/-- The crossing lemma for the renumbering scan: if the lenient opener
fails at a position of the input, it also fails at the corresponding
position of the output. -/
theorem renOut_cross {c : Char} {r : Str} (h : matchLenOpen (c :: r) = none)
    (m : List (Str × Nat)) (nx : Nat) :
    matchLenOpen (c :: renOut m nx r) = none := by
  cases hm2 : matchLenOpen (c :: renOut m nx r) with
  | none => rfl
  | some pr =>
    exfalso
    obtain ⟨ds, rest⟩ := pr
    obtain ⟨w1, w2, heq, hw1, hw2, hne, hd⟩ := mlo_some hm2
    rw [List.cons_eq_cons] at heq
    obtain ⟨hc, hout⟩ := heq
    cases hmr : matchLenOpen r with
    | some pr2 =>
      obtain ⟨ds0, rest0⟩ := pr2
      rw [renOut_match hmr] at hout
      have hshape : ∀ k : Nat, ∀ Y : Str,
          openerStr (natDigits k) ++ Y ≠
            '\x7b' :: (w1 ++ 'c' :: (ds ++ (w2 ++ ':' :: ':' :: rest))) := by
        intro k Y hcontra
        rw [openerStr] at hcontra
        simp only [List.cons_append] at hcontra
        rw [List.cons_eq_cons] at hcontra
        obtain ⟨-, h2⟩ := hcontra
        cases w1 with
        | nil =>
          rw [List.nil_append, List.cons_eq_cons] at h2
          exact absurd h2.1 (by decide)
        | cons wc wr =>
          rw [List.cons_append, List.cons_eq_cons] at h2
          have hsp : isJsSpace wc = true := hw1 wc (by simp)
          rw [← h2.1] at hsp
          revert hsp
          decide
      cases hl : lookupStr ds0 m with
      | some k => rw [hl] at hout; exact hshape k _ hout
      | none => rw [hl] at hout; exact hshape nx _ hout
    | none =>
      cases r with
      | nil =>
        rw [renOut_nil] at hout
        cases w1 <;> simp at hout
      | cons c2 r2 =>
        rw [renOut_lit hmr] at hout
        rw [List.cons_eq_cons] at hout
        obtain ⟨hc2, hout2⟩ := hout
        have hassoc : renOut m nx r2 =
            (w1 ++ 'c' :: (ds ++ (w2 ++ [':', ':']))) ++ rest := by
          rw [hout2]
          simp
        have hchars : ∀ ch ∈ w1 ++ 'c' :: (ds ++ (w2 ++ [':', ':'])), ch ≠ '\x7b' := by
          intro ch hch
          rcases List.mem_append.mp hch with h1 | h1
          · exact space_ne_lb (hw1 ch h1)
          rcases List.mem_cons.mp h1 with h1 | h1
          · rw [h1]; decide
          rcases List.mem_append.mp h1 with h1 | h1
          · exact dig_ne_lb (hd ch h1)
          rcases List.mem_append.mp h1 with h1 | h1
          · exact space_ne_lb (hw2 ch h1)
          rcases List.mem_cons.mp h1 with h1 | h1
          · rw [h1]; decide
          rcases List.mem_cons.mp h1 with h1 | h1
          · rw [h1]; decide
          · simp at h1
        obtain ⟨u2, hu, -⟩ := renOut_peels _ hchars hassoc
        have horig : matchLenOpen (c :: c2 :: r2) = some (ds, u2) := by
          rw [hc, hc2]
          have hfull := mlo_full hw1 hw2 hne hd u2
          have hshape2 : c2 :: r2 =
              '\x7b' :: (w1 ++ 'c' :: (ds ++ (w2 ++ ':' :: ':' :: u2))) := by
            rw [hc2, hu]
            simp
          rw [hc2] at hshape2
          rw [hshape2]
          exact hfull
        rw [horig] at h
        cases h

theorem parseR_renOut : ∀ n : Nat, ∀ s : Str, s.length ≤ n →
    ∀ (m : List (Str × Nat)) (nx : Nat),
      parseR (renOut m nx s) = assignR m nx (parseR s) := by
  intro n
  induction n with
  | zero =>
    intro s hs m nx
    have : s = [] := List.eq_nil_of_length_eq_zero (Nat.le_zero.mp hs)
    subst this
    rfl
  | succ n ih =>
    intro s hs m nx
    cases hm : matchLenOpen s with
    | some pr =>
      obtain ⟨ds, rest⟩ := pr
      have hlen := mlo_len hm
      rw [renOut_match hm, parseR_some hm, assignR]
      cases hl : lookupStr ds m with
      | some k =>
        rw [parseR_some (mlo_opener (natDigits_ne_nil k) (natDigits_digits k) _)]
        rw [ih rest (by omega) m nx]
      | none =>
        rw [parseR_some (mlo_opener (natDigits_ne_nil nx) (natDigits_digits nx) _)]
        rw [ih rest (by omega) ((ds, nx) :: m) (nx + 1)]
    | none =>
      cases s with
      | nil => rfl
      | cons c r =>
        rw [renOut_lit hm, parseR_none hm, parseR_none (renOut_cross hm m nx)]
        simp only [List.length_cons] at hs
        rw [assignR, ih r (by omega) m nx]

theorem assignR_litChars : ∀ (ts : List RTok) (m : List (Str × Nat)) (nx : Nat),
    litChars (assignR m nx ts) = litChars ts := by
  intro ts
  induction ts with
  | nil => intro m nx; rfl
  | cons tok ts ih =>
    intro m nx
    cases tok with
    | lit c =>
      rw [assignR]
      show litChars (RTok.lit c :: assignR m nx ts) = litChars (RTok.lit c :: ts)
      unfold litChars
      simp only [List.filterMap_cons, tokShape]
      have := ih m nx
      unfold litChars at this
      rw [this]
    | op ds =>
      rw [assignR]
      cases hl : lookupStr ds m with
      | some k =>
        show litChars (RTok.op (natDigits k) :: assignR m nx ts) = litChars (RTok.op ds :: ts)
        unfold litChars
        simp only [List.filterMap_cons, tokShape]
        exact ih m nx
      | none =>
        show litChars (RTok.op (natDigits nx) :: assignR ((ds, nx) :: m) (nx + 1) ts) =
          litChars (RTok.op ds :: ts)
        unfold litChars
        simp only [List.filterMap_cons, tokShape]
        exact ih ((ds, nx) :: m) (nx + 1)

theorem assignR_shape : ∀ (ts : List RTok) (m : List (Str × Nat)) (nx : Nat),
    (assignR m nx ts).map tokShape = ts.map tokShape := by
  intro ts
  induction ts with
  | nil => intro m nx; rfl
  | cons tok ts ih =>
    intro m nx
    cases tok with
    | lit c =>
      rw [assignR]
      show (RTok.lit c :: assignR m nx ts).map tokShape = (RTok.lit c :: ts).map tokShape
      simp only [List.map_cons, tokShape]
      rw [ih m nx]
    | op ds =>
      rw [assignR]
      cases hl : lookupStr ds m with
      | some k =>
        show (RTok.op (natDigits k) :: assignR m nx ts).map tokShape =
          (RTok.op ds :: ts).map tokShape
        simp only [List.map_cons, tokShape]
        rw [ih m nx]
      | none =>
        show (RTok.op (natDigits nx) :: assignR ((ds, nx) :: m) (nx + 1) ts).map tokShape =
          (RTok.op ds :: ts).map tokShape
        simp only [List.map_cons, tokShape]
        rw [ih ((ds, nx) :: m) (nx + 1)]

/-- Claim C5: per card, the renumbering pass preserves the relative order
and count of the non-cloze characters, and the token shape of the card:
literal characters are untouched at their positions and only the digit
strings of the openers may change; on the whole text the pass is the
delimiter join of the per-card passes. -/
theorem C5_renumber_preserves_non_cloze :
    (∀ t d : Str, renumberClozesPerCard t d =
      List.intercalate (delimOr d) ((splitD (delimOr d) t).map renumberCard)) ∧
    (∀ card : Str, litChars (parseR (renumberCard card)) = litChars (parseR card)) ∧
    (∀ card : Str, (parseR (renumberCard card)).map tokShape =
      (parseR card).map tokShape) := by
  refine ⟨fun t d => rfl, ?_, ?_⟩
  · intro card
    rw [renumberCard_eq, parseR_renOut card.length card (le_refl _) [] 1]
    exact assignR_litChars _ _ _
  · intro card
    rw [renumberCard_eq, parseR_renOut card.length card (le_refl _) [] 1]
    exact assignR_shape _ _ _

/- ---------------------------------------------------------------------
   The dense renumbering of the indices.
   --------------------------------------------------------------------- -/

theorem assignR_ops : ∀ (ts : List RTok) (m : List (Str × Nat)) (nx : Nat),
    (assignR m nx ts).filterMap opDigits = assignD m nx (ts.filterMap opDigits) := by
  intro ts
  induction ts with
  | nil => intro m nx; rfl
  | cons tok ts ih =>
    intro m nx
    cases tok with
    | lit c =>
      rw [assignR]
      show (RTok.lit c :: assignR m nx ts).filterMap opDigits = _
      simp only [List.filterMap_cons, opDigits]
      exact ih m nx
    | op ds =>
      show (assignR m nx (RTok.op ds :: ts)).filterMap opDigits =
        assignD m nx (ds :: ts.filterMap opDigits)
      rw [assignR, assignD]
      cases hl : lookupStr ds m with
      | some k =>
        simp only [List.filterMap_cons, opDigits]
        rw [ih m nx]
      | none =>
        simp only [List.filterMap_cons, opDigits]
        rw [ih ((ds, nx) :: m) (nx + 1)]

theorem idxOf_app_left {x : Str} :
    ∀ {l : List Str}, x ∈ l → ∀ t, idxOf x (l ++ t) = idxOf x l := by
  intro l
  induction l with
  | nil => intro h; cases h
  | cons y r ih =>
    intro h t
    rw [List.cons_append, idxOf, idxOf]
    by_cases hy : y = x
    · rw [if_pos hy, if_pos hy]
    · rw [if_neg hy, if_neg hy]
      have hx : x ∈ r := by
        rcases List.mem_cons.mp h with h1 | h1
        · exact absurd h1.symm hy
        · exact h1
      rw [ih hx t]

theorem idxOf_app_right {x : Str} :
    ∀ {l : List Str}, x ∉ l → ∀ t, idxOf x (l ++ t) = l.length + idxOf x t := by
  intro l
  induction l with
  | nil => intro _ t; simp [idxOf]
  | cons y r ih =>
    intro h t
    have hy : ¬ y = x := fun hc => h (by rw [hc]; exact List.mem_cons_self x r)
    rw [List.cons_append, idxOf, if_neg hy,
      ih (fun hc => h (List.mem_cons_of_mem y hc)) t]
    simp only [List.length_cons]
    omega

theorem idxOf_inj_mem :
    ∀ {l : List Str} {a b : Str}, a ∈ l → b ∈ l → idxOf a l = idxOf b l → a = b := by
  intro l
  induction l with
  | nil => intro a b h; cases h
  | cons y r ih =>
    intro a b ha hb h
    rw [idxOf, idxOf] at h
    by_cases hya : y = a
    · by_cases hyb : y = b
      · rw [← hya, ← hyb]
      · rw [if_pos hya, if_neg hyb] at h
        cases h
    · by_cases hyb : y = b
      · rw [if_neg hya, if_pos hyb] at h
        cases h
      · rw [if_neg hya, if_neg hyb] at h
        have ha' : a ∈ r := by
          rcases List.mem_cons.mp ha with h1 | h1
          · exact absurd h1.symm hya
          · exact h1
        have hb' : b ∈ r := by
          rcases List.mem_cons.mp hb with h1 | h1
          · exact absurd h1.symm hyb
          · exact h1
        exact ih ha' hb' (by omega)

theorem idxOf_map_inj {f : Str → Str} :
    ∀ {l : List Str} {x : Str}, (∀ u ∈ l, f u = f x → u = x) →
      idxOf (f x) (l.map f) = idxOf x l := by
  intro l
  induction l with
  | nil => intro x _; rfl
  | cons y r ih =>
    intro x hinj
    rw [List.map_cons, idxOf, idxOf]
    by_cases hy : f y = f x
    · have : y = x := hinj y (List.mem_cons_self y r) hy
      rw [if_pos hy, if_pos this]
    · have : ¬ y = x := fun hc => hy (by rw [hc])
      rw [if_neg hy, if_neg this,
        ih (fun u hu he => hinj u (List.mem_cons_of_mem y hu) he)]

theorem firstOccsAux_congr :
    ∀ (xs s1 s2 : List Str), (∀ y, y ∈ s1 ↔ y ∈ s2) →
      firstOccsAux s1 xs = firstOccsAux s2 xs := by
  intro xs
  induction xs with
  | nil => intro s1 s2 _; rfl
  | cons x xs ih =>
    intro s1 s2 h
    rw [firstOccsAux, firstOccsAux]
    by_cases hx : x ∈ s1
    · rw [if_pos hx, if_pos ((h x).mp hx)]
      exact ih s1 s2 h
    · rw [if_neg hx, if_neg (fun hc => hx ((h x).mpr hc))]
      rw [ih (x :: s1) (x :: s2) (fun y => by
        simp only [List.mem_cons]
        exact or_congr Iff.rfl (h y))]

theorem mem_firstOccsAux :
    ∀ (xs seen : List Str) (y : Str),
      y ∈ firstOccsAux seen xs → y ∈ xs ∧ y ∉ seen := by
  intro xs
  induction xs with
  | nil => intro seen y h; simp [firstOccsAux] at h
  | cons x xs ih =>
    intro seen y h
    rw [firstOccsAux] at h
    by_cases hx : x ∈ seen
    · rw [if_pos hx] at h
      obtain ⟨h1, h2⟩ := ih seen y h
      exact ⟨List.mem_cons_of_mem x h1, h2⟩
    · rw [if_neg hx] at h
      rcases List.mem_cons.mp h with h1 | h1
      · rw [h1]
        exact ⟨List.mem_cons_self x xs, hx⟩
      · obtain ⟨h2, h3⟩ := ih (x :: seen) y h1
        exact ⟨List.mem_cons_of_mem x h2,
          fun hc => h3 (List.mem_cons_of_mem x hc)⟩

theorem firstOccsAux_mem :
    ∀ (xs seen : List Str) (y : Str),
      y ∈ xs → y ∉ seen → y ∈ firstOccsAux seen xs := by
  intro xs
  induction xs with
  | nil => intro seen y h; cases h
  | cons x xs ih =>
    intro seen y hy hns
    rw [firstOccsAux]
    by_cases hx : x ∈ seen
    · rw [if_pos hx]
      have hyx : y ≠ x := fun hc => hns (by rw [hc]; exact hx)
      have : y ∈ xs := by
        rcases List.mem_cons.mp hy with h1 | h1
        · exact absurd h1 hyx
        · exact h1
      exact ih seen y this hns
    · rw [if_neg hx]
      by_cases hyx : y = x
      · rw [hyx]
        exact List.mem_cons_self x _
      · have : y ∈ xs := by
          rcases List.mem_cons.mp hy with h1 | h1
          · exact absurd h1 hyx
          · exact h1
        exact List.mem_cons_of_mem x
          (ih (x :: seen) y this (by
            intro hc
            rcases List.mem_cons.mp hc with h1 | h1
            · exact hyx h1
            · exact hns h1))

theorem firstOccsAux_nodup :
    ∀ (xs seen : List Str), (firstOccsAux seen xs).Nodup := by
  intro xs
  induction xs with
  | nil => intro seen; simp [firstOccsAux]
  | cons x xs ih =>
    intro seen
    rw [firstOccsAux]
    by_cases hx : x ∈ seen
    · rw [if_pos hx]
      exact ih seen
    · rw [if_neg hx]
      rw [List.nodup_cons]
      refine ⟨?_, ih (x :: seen)⟩
      intro hc
      exact (mem_firstOccsAux xs (x :: seen) x hc).2 (List.mem_cons_self x seen)

theorem assignD_spec :
    ∀ (xs seen : List Str) (m : List (Str × Nat)) (nx : Nat),
      (∀ x, lookupStr x m = posOpt seen x) →
      nx = seen.length + 1 →
      assignD m nx xs =
        xs.map (fun x => natDigits (idxOf x (seen ++ firstOccsAux seen xs) + 1)) := by
  intro xs
  induction xs with
  | nil => intro seen m nx _ _; rfl
  | cons x xs ih =>
    intro seen m nx hm hnx
    rw [assignD, hm x, posOpt, firstOccsAux]
    by_cases hx : x ∈ seen
    · rw [if_pos hx, if_pos hx]
      show natDigits (idxOf x seen + 1) :: assignD m nx xs = _
      rw [List.map_cons]
      rw [idxOf_app_left hx]
      rw [ih seen m nx hm hnx]
    · rw [if_neg hx, if_neg hx]
      show natDigits nx :: assignD ((x, nx) :: m) (nx + 1) xs = _
      rw [List.map_cons]
      have hhead : idxOf x (seen ++ x :: firstOccsAux (x :: seen) xs) + 1 = nx := by
        rw [idxOf_app_right hx, idxOf]
        rw [if_pos rfl]
        omega
      rw [hhead]
      have htail := ih (seen ++ [x]) ((x, nx) :: m) (nx + 1)
        (by
          intro y
          rw [lookupStr, posOpt]
          by_cases hxy : x = y
          · subst hxy
            rw [if_pos rfl, if_pos (by simp)]
            rw [idxOf_app_right hx, idxOf, if_pos rfl]
            simp only [Option.some.injEq]
            omega
          · rw [if_neg hxy, hm y, posOpt]
            by_cases hy : y ∈ seen
            · rw [if_pos hy, if_pos (by simp [hy])]
              rw [idxOf_app_left hy]
            · rw [if_neg hy, if_neg (by
                simp only [List.mem_append, List.mem_singleton]
                rintro (hc | hc)
                · exact hy hc
                · exact hxy hc.symm)]
          )
        (by simp [hnx])
      rw [htail]
      have hfo : firstOccsAux (seen ++ [x]) xs = firstOccsAux (x :: seen) xs := by
        apply firstOccsAux_congr
        intro y
        simp only [List.mem_append, List.mem_singleton, List.mem_cons]
        tauto
      rw [hfo]
      refine congrArg (List.cons (natDigits nx)) ?_
      apply List.map_congr_left
      intro a _
      rw [List.append_assoc]
      rfl

theorem assignD_base (xs : List Str) :
    assignD [] 1 xs = xs.map (fun x => natDigits (idxOf x (firstOccs xs) + 1)) := by
  have h := assignD_spec xs [] [] 1 (fun x => rfl) rfl
  simpa [firstOccs] using h

theorem map_idxOf_self :
    ∀ (l : List Str) (g : Nat → Str), l.Nodup →
      l.map (fun x => g (idxOf x l)) = (List.range l.length).map g := by
  intro l
  induction l with
  | nil => intro g _; rfl
  | cons y r ih =>
    intro g hnd
    rw [List.nodup_cons] at hnd
    obtain ⟨hy, hnd'⟩ := hnd
    rw [List.map_cons, idxOf, if_pos rfl]
    have hstep : r.map (fun x => g (idxOf x (y :: r))) =
        r.map (fun x => g (idxOf x r + 1)) := by
      apply List.map_congr_left
      intro a ha
      have : ¬ y = a := fun hc => hy (by rw [hc]; exact ha)
      rw [idxOf, if_neg this]
    rw [List.length_cons, List.range_succ_eq_map, List.map_cons, List.map_map]
    rw [hstep, ih (fun i => g (i + 1)) hnd']
    rfl

theorem firstOccsAux_map {f : Str → Str} :
    ∀ (xs seen : List Str),
      (∀ u v, (u ∈ xs ∨ u ∈ seen) → (v ∈ xs ∨ v ∈ seen) → f u = f v → u = v) →
      firstOccsAux (seen.map f) (xs.map f) = (firstOccsAux seen xs).map f := by
  intro xs
  induction xs with
  | nil => intro seen _; rfl
  | cons x xs ih =>
    intro seen hinj
    rw [List.map_cons, firstOccsAux, firstOccsAux]
    by_cases hx : x ∈ seen
    · rw [if_pos (List.mem_map_of_mem f hx), if_pos hx]
      exact ih seen (fun u v hu hv he =>
        hinj u v (by tauto) (by tauto) he)
    · have hfx : f x ∉ seen.map f := by
        intro hc
        obtain ⟨y, hy, hfy⟩ := List.mem_map.mp hc
        have : y = x := hinj y x (Or.inr hy) (Or.inl (List.mem_cons_self x xs)) hfy
        rw [this] at hy
        exact hx hy
      rw [if_neg hfx, if_neg hx, List.map_cons]
      have : f x :: seen.map f = (x :: seen).map f := rfl
      rw [this]
      rw [ih (x :: seen) (fun u v hu hv he => by
        apply hinj u v <;> (simp only [List.mem_cons] at *; tauto))]

/-- C3: within each delimiter-separated card, the renumbering sends every
opener index to the rank of its first appearance among the distinct
original indices of that card (so repeated original indices share one new
index), and the distinct new indices in first-appearance order are exactly
the digit strings of 1, ..., K where K is the number of distinct original
indices; the sample card with original indices 5, 5, 8 renumbers to
indices 1, 1, 2. -/
theorem C3_renumber_dense (t delim : Str) :
    (renumberClozesPerCard t delim =
      List.intercalate (delimOr delim) ((splitD (delimOr delim) t).map renumberCard))
    ∧ (∀ card, card ∈ splitD (delimOr delim) t →
        openerIdx (renumberCard card) =
          (openerIdx card).map
            (fun ds => natDigits (idxOf ds (firstOccs (openerIdx card)) + 1))
        ∧ firstOccs (openerIdx (renumberCard card)) =
            (List.range (firstOccs (openerIdx card)).length).map
              (fun i => natDigits (i + 1)))
    ∧ renumberClozesPerCard
        "\x7b\x7bc5::malaria\x7d\x7d causes \x7b\x7bc5::fever\x7d\x7d and \x7b\x7bc8::jaundice\x7d\x7d".data [] =
      "\x7b\x7bc1::malaria\x7d\x7d causes \x7b\x7bc1::fever\x7d\x7d and \x7b\x7bc2::jaundice\x7d\x7d".data := by
  refine ⟨rfl, ?_, by decide⟩
  intro card _
  have hA : openerIdx (renumberCard card) = assignD [] 1 (openerIdx card) := by
    show (parseR (renumberCard card)).filterMap opDigits =
      assignD [] 1 ((parseR card).filterMap opDigits)
    rw [renumberCard_eq, parseR_renOut card.length card (Nat.le_refl _) [] 1,
      assignR_ops]
  have hinj : ∀ u v,
      (u ∈ openerIdx card ∨ u ∈ ([] : List Str)) →
      (v ∈ openerIdx card ∨ v ∈ ([] : List Str)) →
      natDigits (idxOf u (firstOccs (openerIdx card)) + 1) =
        natDigits (idxOf v (firstOccs (openerIdx card)) + 1) → u = v := by
    intro u v hu hv he
    have hu1 : u ∈ openerIdx card := by
      rcases hu with h | h
      · exact h
      · cases h
    have hv1 : v ∈ openerIdx card := by
      rcases hv with h | h
      · exact h
      · cases h
    have huF : u ∈ firstOccs (openerIdx card) :=
      firstOccsAux_mem (openerIdx card) [] u hu1 (by simp)
    have hvF : v ∈ firstOccs (openerIdx card) :=
      firstOccsAux_mem (openerIdx card) [] v hv1 (by simp)
    have hn := natDigits_inj he
    exact idxOf_inj_mem huF hvF (by omega)
  constructor
  · rw [hA, assignD_base]
  · rw [hA, assignD_base]
    have h1 : firstOccs ((openerIdx card).map
          (fun ds => natDigits (idxOf ds (firstOccs (openerIdx card)) + 1))) =
        (firstOccs (openerIdx card)).map
          (fun ds => natDigits (idxOf ds (firstOccs (openerIdx card)) + 1)) := by
      unfold firstOccs
      exact firstOccsAux_map (openerIdx card) [] hinj
    rw [h1]
    exact map_idxOf_self (firstOccs (openerIdx card)) (fun i => natDigits (i + 1))
      (firstOccsAux_nodup (openerIdx card) [])

theorem C3_witness :
    openerIdx (renumberCard "\x7b\x7bc3::q\x7d\x7d".data) =
      (openerIdx "\x7b\x7bc3::q\x7d\x7d".data).map
        (fun ds => natDigits (idxOf ds (firstOccs (openerIdx "\x7b\x7bc3::q\x7d\x7d".data)) + 1))
    ∧ firstOccs (openerIdx (renumberCard "\x7b\x7bc3::q\x7d\x7d".data)) =
        (List.range (firstOccs (openerIdx "\x7b\x7bc3::q\x7d\x7d".data)).length).map
          (fun i => natDigits (i + 1)) :=
  (C3_renumber_dense "\x7b\x7bc3::q\x7d\x7d".data []).2.1
    "\x7b\x7bc3::q\x7d\x7d".data (by decide)

/- ---------------------------------------------------------------------
   Resplitting the joined renumbered batch.
   --------------------------------------------------------------------- -/

theorem ipo_cons {a b : Char} {l m : Str} :
    List.isPrefixOf (a :: l) (b :: m) = (a == b && List.isPrefixOf l m) := rfl

theorem ipo_app_le : ∀ (E a u : Str), E.length ≤ a.length →
    E.isPrefixOf (a ++ u) = E.isPrefixOf a := by
  intro E
  induction E with
  | nil => intro a u _; simp [List.isPrefixOf]
  | cons e E ih =>
    intro a u h
    cases a with
    | nil => simp at h
    | cons b a2 =>
      rw [List.cons_append, ipo_cons, ipo_cons,
        ih a2 u (by simp only [List.length_cons] at h; omega)]

theorem delimOr_ne_nil (d : Str) : delimOr d ≠ [] := by
  unfold delimOr
  cases d with
  | nil => simp
  | cons c r => simp

theorem intercalate_cons (D x : Str) (xs : List Str) :
    List.intercalate D (x :: xs) = x ++ sepTail D xs := by
  cases xs with
  | nil => simp [List.intercalate, sepTail]
  | cons y ys =>
    rw [sepTail]
    show (List.intersperse D (x :: y :: ys)).flatten = _
    rw [List.intersperse_cons_cons]
    show x ++ (D ++ (List.intersperse D (y :: ys)).flatten) = _
    rfl

theorem noCross_append (D : Str) : ∀ (A B tail : Str),
    noCross D (A ++ B) tail = (noCross D A (B ++ tail) && noCross D B tail) := by
  intro A
  induction A with
  | nil => intro B tail; simp [noCross]
  | cons c A2 ih =>
    intro B tail
    rw [List.cons_append, noCross, noCross, ih B tail]
    simp [List.cons_append, List.append_assoc, Bool.and_assoc]

theorem noCross_ren {D : Str} {d0 : Char} {D2 : Str} (hDeq : D = d0 :: D2)
    (h0 : isRenChar d0 = false) :
    ∀ (A tail : Str), (∀ a ∈ A, isRenChar a = true) → noCross D A tail = true := by
  intro A
  induction A with
  | nil => intro tail _; rfl
  | cons c A2 ih =>
    intro tail hA
    rw [noCross, Bool.and_eq_true]
    refine ⟨?_, ih tail (fun a ha => hA a (List.mem_cons_of_mem c ha))⟩
    have hne : ¬ d0 = c := by
      intro he
      rw [he, hA c (List.mem_cons_self c A2)] at h0
      cases h0
    rw [hDeq, List.cons_append, ipo_cons]
    simp [hne]

theorem renOut_straddle :
    ∀ (E : Str), (∀ e ∈ E, isRenChar e = false) →
      ∀ (r tin tout : Str) (m : List (Str × Nat)) (nx : Nat),
        (∀ E2 : Str, E2.length ≤ E.length → (∀ e ∈ E2, isRenChar e = false) →
          E2.isPrefixOf tout = true → E2.isPrefixOf tin = true) →
        E.isPrefixOf (renOut m nx r ++ tout) = true →
        E.isPrefixOf (r ++ tin) = true := by
  intro E
  induction E with
  | nil => intro _ r tin tout m nx _ _; simp [List.isPrefixOf]
  | cons e E ih =>
    intro hch r tin tout m nx htail hpre
    cases r with
    | nil =>
      have h1 : (e :: E).isPrefixOf tout = true := by
        rw [renOut_nil] at hpre
        simpa using hpre
      have h2 := htail (e :: E) (Nat.le_refl _) hch h1
      simpa using h2
    | cons x r2 =>
      cases hm : matchLenOpen (x :: r2) with
      | some pr =>
        obtain ⟨ds, rest⟩ := pr
        rw [renOut_match hm] at hpre
        exfalso
        have he : isRenChar e = false := hch e (List.mem_cons_self e E)
        cases hl : lookupStr ds m with
        | some k =>
          simp only [hl, openerStr, List.cons_append] at hpre
          rw [ipo_cons, Bool.and_eq_true, beq_iff_eq] at hpre
          rw [hpre.1] at he
          exact absurd he (by decide)
        | none =>
          simp only [hl, openerStr, List.cons_append] at hpre
          rw [ipo_cons, Bool.and_eq_true, beq_iff_eq] at hpre
          rw [hpre.1] at he
          exact absurd he (by decide)
      | none =>
        rw [renOut_lit hm] at hpre
        rw [List.cons_append, ipo_cons, Bool.and_eq_true, beq_iff_eq] at hpre
        obtain ⟨hex, hrest⟩ := hpre
        have hstep := ih (fun c hc => hch c (List.mem_cons_of_mem e hc)) r2 tin tout m nx
          (fun E2 hl2 hc2 hp2 =>
            htail E2 (by simp only [List.length_cons]; omega) hc2 hp2) hrest
        rw [List.cons_append, ipo_cons, Bool.and_eq_true]
        exact ⟨by rw [beq_iff_eq]; exact hex, hstep⟩

theorem noCross_renOut (D : Str) (hD : D ≠ [])
    (hDch : ∀ e ∈ D, isRenChar e = false) (tin tout : Str)
    (htail : ∀ E2 : Str, E2.length ≤ D.length → (∀ e ∈ E2, isRenChar e = false) →
      E2.isPrefixOf tout = true → E2.isPrefixOf tin = true) :
    ∀ n s, s.length ≤ n → ∀ (m : List (Str × Nat)) (nx : Nat),
      noCross D s tin = true → noCross D (renOut m nx s) tout = true := by
  obtain ⟨d0, D2, hDeq⟩ : ∃ d0 D2, D = d0 :: D2 := by
    cases D with
    | nil => exact absurd rfl hD
    | cons a b => exact ⟨a, b, rfl⟩
  have h0 : isRenChar d0 = false := hDch d0 (by rw [hDeq]; exact List.mem_cons_self d0 D2)
  intro n
  induction n with
  | zero =>
    intro s hs m nx _
    have hnil : s = [] := List.eq_nil_of_length_eq_zero (Nat.le_zero.mp hs)
    subst hnil
    rw [renOut_nil]
    rfl
  | succ n ih =>
    intro s hs m nx hin
    cases hm : matchLenOpen s with
    | some pr =>
      obtain ⟨ds, rest⟩ := pr
      obtain ⟨w1, w2, hseq, hw1, hw2, hne, hd⟩ := mlo_some hm
      have hlen := mlo_len hm
      have hseq2 : s = ('\x7b' :: '\x7b' :: (w1 ++ 'c' :: (ds ++ (w2 ++ [':', ':'])))) ++ rest := by
        rw [hseq]
        simp [List.append_assoc]
      have hin_rest : noCross D rest tin = true := by
        rw [hseq2, noCross_append, Bool.and_eq_true] at hin
        exact hin.2
      rw [renOut_match hm]
      cases hl : lookupStr ds m with
      | some k =>
        rw [noCross_append, Bool.and_eq_true]
        exact ⟨noCross_ren hDeq h0 _ _ (openerStr_chars (natDigits_digits k)),
          ih rest (by omega) m nx hin_rest⟩
      | none =>
        rw [noCross_append, Bool.and_eq_true]
        exact ⟨noCross_ren hDeq h0 _ _ (openerStr_chars (natDigits_digits nx)),
          ih rest (by omega) ((ds, nx) :: m) (nx + 1) hin_rest⟩
    | none =>
      cases s with
      | nil =>
        rw [renOut_nil]
        rfl
      | cons x r =>
        rw [renOut_lit hm]
        rw [noCross, Bool.and_eq_true] at hin
        obtain ⟨hnp, hrest⟩ := hin
        rw [noCross, Bool.and_eq_true]
        refine ⟨?_, ih r (by simp only [List.length_cons] at hs; omega) m nx hrest⟩
        rw [Bool.not_eq_true'] at hnp
        rw [Bool.not_eq_true']
        cases hval : List.isPrefixOf D (x :: renOut m nx r ++ tout) with
        | false => rfl
        | true =>
          exfalso
          rw [hDeq, List.cons_append, ipo_cons, Bool.and_eq_true, beq_iff_eq] at hval
          obtain ⟨hd0x, htl⟩ := hval
          have hch2 : ∀ e ∈ D2, isRenChar e = false := fun e he =>
            hDch e (by rw [hDeq]; exact List.mem_cons_of_mem d0 he)
          have htrans := renOut_straddle D2 hch2 r tin tout m nx
            (fun E2 hl2 hc2 hp2 =>
              htail E2 (by rw [hDeq]; simp only [List.length_cons]; omega) hc2 hp2) htl
          have : List.isPrefixOf D (x :: r ++ tin) = true := by
            rw [hDeq, List.cons_append, ipo_cons, Bool.and_eq_true, beq_iff_eq]
            exact ⟨hd0x, htrans⟩
          rw [this] at hnp
          cases hnp

theorem splitD_free (D : Str) : ∀ t, noCross D t [] = true → splitD D t = [t] := by
  intro t
  induction t with
  | nil => exact fun _ => splitD_nil D
  | cons c r ih =>
    intro h
    rw [noCross, Bool.and_eq_true] at h
    obtain ⟨h1, h2⟩ := h
    rw [Bool.not_eq_true'] at h1
    rw [List.append_nil] at h1
    have hcond : (D.isPrefixOf (c :: r) && !D.isEmpty) = false := by
      rw [h1]
      rfl
    rw [splitD_cons hcond, ih h2]

theorem splitD_step (D : Str) (hD : D ≠ []) :
    ∀ x rest, noCross D x (D ++ rest) = true →
      splitD D (x ++ (D ++ rest)) = x :: splitD D rest := by
  intro x
  induction x with
  | nil =>
    intro rest _
    rw [List.nil_append, splitD_pref hD (ipo_app D rest)]
    rw [List.drop_left]
  | cons c x2 ih =>
    intro rest h
    rw [noCross, Bool.and_eq_true] at h
    obtain ⟨h1, h2⟩ := h
    rw [Bool.not_eq_true'] at h1
    rw [List.cons_append]
    have hcond : (D.isPrefixOf (c :: (x2 ++ (D ++ rest))) && !D.isEmpty) = false := by
      rw [List.cons_append] at h1
      rw [h1]
      rfl
    rw [splitD_cons hcond, ih rest h2]

theorem splitD_canon (D : Str) (hD : D ≠ []) :
    ∀ n t, t.length ≤ n →
      List.intercalate D (splitD D t) = t ∧ sepOK D (splitD D t) = true := by
  intro n
  induction n with
  | zero =>
    intro t ht
    have hnil : t = [] := List.eq_nil_of_length_eq_zero (Nat.le_zero.mp ht)
    subst hnil
    rw [splitD_nil]
    refine ⟨by simp [List.intercalate], ?_⟩
    rw [sepOK, sepOK]
    rfl
  | succ n ih =>
    intro t ht
    cases hpre : D.isPrefixOf t with
    | true =>
      obtain ⟨y, hy⟩ := ipo_ex hpre
      have hdrop : t.drop D.length = y := by
        rw [hy, List.drop_left]
      have hDlen : 1 ≤ D.length := by
        cases D with
        | nil => exact absurd rfl hD
        | cons a b => simp
      have hylen : y.length ≤ n := by
        have := congrArg List.length hy
        simp only [List.length_append] at this
        omega
      rw [splitD_pref hD hpre, hdrop]
      obtain ⟨hic, hok⟩ := ih y hylen
      have hne2 := splitD_ne_nil D y
      cases hsp : splitD D y with
      | nil => exact absurd hsp hne2
      | cons z zs =>
        rw [hsp] at hic hok
        constructor
        · rw [intercalate_cons, List.nil_append, sepTail, hic, hy]
        · rw [sepOK, Bool.and_eq_true]
          exact ⟨rfl, hok⟩
    | false =>
      cases t with
      | nil =>
        rw [splitD_nil]
        refine ⟨by simp [List.intercalate], ?_⟩
        rw [sepOK, sepOK]
        rfl
      | cons c r =>
        have hcond : (D.isPrefixOf (c :: r) && !D.isEmpty) = false := by
          rw [hpre]
          rfl
        rw [splitD_cons hcond]
        have hrlen : r.length ≤ n := by
          simp only [List.length_cons] at ht
          omega
        obtain ⟨hic, hok⟩ := ih r hrlen
        have hne2 := splitD_ne_nil D r
        cases hsp : splitD D r with
        | nil => exact absurd hsp hne2
        | cons x xs =>
          rw [hsp] at hic hok
          rw [intercalate_cons] at hic
          rw [sepOK, Bool.and_eq_true] at hok
          obtain ⟨hok1, hok2⟩ := hok
          constructor
          · rw [intercalate_cons, List.cons_append, hic]
          · rw [sepOK, Bool.and_eq_true]
            refine ⟨?_, hok2⟩
            rw [noCross, Bool.and_eq_true]
            refine ⟨?_, hok1⟩
            rw [Bool.not_eq_true', List.cons_append, hic, hpre]

theorem resplit (D : Str) (hD : D ≠ []) :
    ∀ l : List Str, l ≠ [] → sepOK D l = true →
      splitD D (List.intercalate D l) = l := by
  intro l
  induction l with
  | nil => intro h; exact absurd rfl h
  | cons x xs ih =>
    intro _ hok
    rw [sepOK, Bool.and_eq_true] at hok
    obtain ⟨h1, h2⟩ := hok
    rw [intercalate_cons]
    cases xs with
    | nil =>
      rw [sepTail, List.append_nil]
      exact splitD_free D x h1
    | cons y ys =>
      rw [sepTail] at h1 ⊢
      rw [splitD_step D hD x (List.intercalate D (y :: ys)) h1]
      rw [ih (by simp) h2]

theorem sepOK_map_ren (D : Str) (hD : D ≠ [])
    (hDch : ∀ e ∈ D, isRenChar e = false) :
    ∀ l : List Str, sepOK D l = true → sepOK D (l.map renumberCard) = true := by
  intro l
  induction l with
  | nil => intro _; rfl
  | cons x xs ih =>
    intro hok
    rw [sepOK, Bool.and_eq_true] at hok
    obtain ⟨h1, h2⟩ := hok
    rw [List.map_cons, sepOK, Bool.and_eq_true]
    refine ⟨?_, ih h2⟩
    cases xs with
    | nil =>
      rw [renumberCard_eq]
      exact noCross_renOut D hD hDch [] [] (fun E2 _ _ hp => hp)
        x.length x (Nat.le_refl _) [] 1 h1
    | cons y ys =>
      rw [renumberCard_eq, List.map_cons, sepTail]
      rw [sepTail] at h1
      refine noCross_renOut D hD hDch (D ++ List.intercalate D (y :: ys))
        (D ++ List.intercalate D (renumberCard y :: ys.map renumberCard))
        ?_ x.length x (Nat.le_refl _) [] 1 h1
      intro E2 hl2 hc2 hp2
      rw [ipo_app_le E2 D _ hl2] at hp2
      rw [ipo_app_le E2 D _ hl2]
      exact hp2

theorem assignR_idem_aux :
    ∀ (ts : List RTok) (m1 m2 : List (Str × Nat)) (nx : Nat), 1 ≤ nx →
      (∀ k, lookupStr (natDigits k) m2 = if 1 ≤ k ∧ k < nx then some k else none) →
      (∀ ds k, lookupStr ds m1 = some k → 1 ≤ k ∧ k < nx) →
      assignR m2 nx (assignR m1 nx ts) = assignR m1 nx ts := by
  intro ts
  induction ts with
  | nil => intro m1 m2 nx _ _ _; rfl
  | cons tok ts ih =>
    intro m1 m2 nx hnx1 hm2 hm1
    cases tok with
    | lit c =>
      rw [assignR]
      show assignR m2 nx (RTok.lit c :: assignR m1 nx ts) = _
      rw [assignR, ih m1 m2 nx hnx1 hm2 hm1]
    | op ds =>
      rw [assignR]
      cases hl : lookupStr ds m1 with
      | some k =>
        have hk := hm1 ds k hl
        show assignR m2 nx (RTok.op (natDigits k) :: assignR m1 nx ts) = _
        rw [assignR, hm2 k, if_pos hk, ih m1 m2 nx hnx1 hm2 hm1]
      | none =>
        show assignR m2 nx (RTok.op (natDigits nx) :: assignR ((ds, nx) :: m1) (nx + 1) ts) = _
        rw [assignR, hm2 nx, if_neg (by omega)]
        have hstep := ih ((ds, nx) :: m1) ((natDigits nx, nx) :: m2) (nx + 1)
          (by omega)
          (by
            intro k
            rw [lookupStr]
            by_cases hk : natDigits nx = natDigits k
            · have : nx = k := natDigits_inj hk
              subst this
              rw [if_pos rfl, if_pos (by omega)]
            · rw [if_neg hk, hm2 k]
              have hnk : ¬ nx = k := fun hc => hk (by rw [hc])
              by_cases hrange : 1 ≤ k ∧ k < nx
              · rw [if_pos hrange, if_pos (by omega)]
              · rw [if_neg hrange, if_neg (by omega)])
          (by
            intro ds2 k h2
            rw [lookupStr] at h2
            by_cases hd2 : ds = ds2
            · rw [if_pos hd2] at h2
              have : nx = k := by
                have := h2
                simp only [Option.some.injEq] at this
                omega
              omega
            · rw [if_neg hd2] at h2
              have := hm1 ds2 k h2
              omega)
        rw [hstep]

theorem renumberCard_idem (c : Str) : renumberCard (renumberCard c) = renumberCard c := by
  rw [renumberCard_eq, renumberCard_eq]
  show ((assignR [] 1 (parseR (renOut [] 1 c))).map renderR1).flatten = renOut [] 1 c
  rw [parseR_renOut c.length c (Nat.le_refl _) [] 1]
  rw [assignR_idem_aux (parseR c) [] [] 1 (by omega)
    (by intro k; rw [lookupStr, if_neg (by omega)])
    (by intro ds k h; rw [lookupStr] at h; cases h)]
  rfl

/-- C4 (amended): renumbering per card is idempotent whenever no character
of the effective delimiter is an opener character (a brace, the letter c,
a colon or a digit); the original claim fails for delimiters that are
themselves shaped like cloze markup. -/
theorem C4_renumber_idempotent_amended (t d : Str)
    (hDch : ∀ e ∈ delimOr d, isRenChar e = false) :
    renumberClozesPerCard (renumberClozesPerCard t d) d =
      renumberClozesPerCard t d := by
  have hD : delimOr d ≠ [] := delimOr_ne_nil d
  obtain ⟨hic, hok⟩ := splitD_canon (delimOr d) hD t.length t (Nat.le_refl _)
  have hres : splitD (delimOr d) (renumberClozesPerCard t d) =
      (splitD (delimOr d) t).map renumberCard := by
    show splitD (delimOr d)
        (List.intercalate (delimOr d) ((splitD (delimOr d) t).map renumberCard)) = _
    refine resplit (delimOr d) hD _ ?_ (sepOK_map_ren (delimOr d) hD hDch _ hok)
    intro hmap
    exact splitD_ne_nil (delimOr d) t (List.map_eq_nil.mp hmap)
  show List.intercalate (delimOr d)
      ((splitD (delimOr d) (renumberClozesPerCard t d)).map renumberCard) =
    renumberClozesPerCard t d
  rw [hres, List.map_map]
  have hpt : (splitD (delimOr d) t).map (renumberCard ∘ renumberCard) =
      (splitD (delimOr d) t).map renumberCard :=
    List.map_congr_left (fun a _ => renumberCard_idem a)
  rw [hpt]
  rfl

theorem C4_amended_witness :
    (∀ e ∈ delimOr ([] : Str), isRenChar e = false) ∧
      renumberClozesPerCard
          (renumberClozesPerCard
            "\x7b\x7bc5::a\x7d\x7d and \x7b\x7bc2::b\x7d\x7d===CARD===\x7b\x7bc9::z\x7d\x7d".data [])
          [] =
        renumberClozesPerCard
          "\x7b\x7bc5::a\x7d\x7d and \x7b\x7bc2::b\x7d\x7d===CARD===\x7b\x7bc9::z\x7d\x7d".data [] :=
  ⟨by decide,
    C4_renumber_idempotent_amended
      "\x7b\x7bc5::a\x7d\x7d and \x7b\x7bc2::b\x7d\x7d===CARD===\x7b\x7bc9::z\x7d\x7d".data []
      (by decide)⟩

/- ---------------------------------------------------------------------
   The split and join round trip.
   --------------------------------------------------------------------- -/

theorem ipo_stop : ∀ (E : Str), '\n' ∉ E →
    ∀ (s0 t : Str), E.isPrefixOf (s0 ++ '\n' :: t) = true →
      E.isPrefixOf s0 = true := by
  intro E
  induction E with
  | nil => intro _ s0 t _; simp [List.isPrefixOf]
  | cons e E ih =>
    intro hnl s0 t h
    cases s0 with
    | nil =>
      simp only [List.nil_append] at h
      rw [ipo_cons, Bool.and_eq_true, beq_iff_eq] at h
      refine absurd ?_ hnl
      rw [← h.1]
      exact List.mem_cons_self e E
    | cons b s02 =>
      rw [List.cons_append, ipo_cons, Bool.and_eq_true] at h
      rw [ipo_cons, Bool.and_eq_true]
      exact ⟨h.1, ih (fun hc => hnl (List.mem_cons_of_mem e hc)) s02 t h.2⟩

theorem noCross_nlTail {D : Str} (hnl : '\n' ∉ D) :
    ∀ p t, hasOccur D p = false → noCross D p ('\n' :: t) = true := by
  intro p
  induction p with
  | nil => intro t _; rfl
  | cons c r ih =>
    intro t hocc
    rw [hasOccur] at hocc
    rw [Bool.or_eq_false_iff] at hocc
    obtain ⟨h1, h2⟩ := hocc
    rw [noCross, Bool.and_eq_true]
    refine ⟨?_, ih t h2⟩
    rw [Bool.not_eq_true']
    cases hval : List.isPrefixOf D (c :: r ++ '\n' :: t) with
    | false => rfl
    | true =>
      exfalso
      have := ipo_stop D hnl (c :: r) t (by
        rw [List.cons_append] at hval
        rw [List.cons_append]
        exact hval)
      rw [h1] at this
      cases this

theorem noCross_nilTail {D : Str} :
    ∀ p, hasOccur D p = false → noCross D p [] = true := by
  intro p
  induction p with
  | nil => intro _; rfl
  | cons c r ih =>
    intro hocc
    rw [hasOccur, Bool.or_eq_false_iff] at hocc
    obtain ⟨h1, h2⟩ := hocc
    rw [noCross, Bool.and_eq_true]
    refine ⟨?_, ih h2⟩
    rw [Bool.not_eq_true', List.append_nil]
    exact h1

theorem noCross_seg {D : Str} {d0 : Char} {D2 : Str} (hDeq : D = d0 :: D2)
    (hnl : '\n' ∉ D) :
    ∀ p T, hasOccur D p = false → noCross D (p ++ ['\n']) T = true := by
  intro p T hocc
  rw [noCross_append, Bool.and_eq_true]
  constructor
  · show noCross D p ('\n' :: T) = true
    exact noCross_nlTail hnl p T hocc
  · rw [noCross, Bool.and_eq_true]
    refine ⟨?_, rfl⟩
    rw [Bool.not_eq_true', hDeq, List.cons_append, ipo_cons]
    have hne : ¬ d0 = '\n' := fun hc =>
      hnl (by rw [← hc, hDeq]; exact List.mem_cons_self d0 D2)
    simp [hne]

theorem trim_cons_sp {c : Char} (hc : isJsSpace c = true) (q : Str) :
    trim (c :: q) = trim q := by
  unfold trim
  rw [List.dropWhile_cons_of_pos hc]

theorem dropEndWhile_app_sp {p : Char → Bool} {c : Char} (hc : p c = true) :
    ∀ x, dropEndWhile p (x ++ [c]) = dropEndWhile p x := by
  intro x
  induction x with
  | nil =>
    show dropEndWhile p [c] = []
    rw [dropEndWhile]
    show (match dropEndWhile p [] with
      | [] => if p c then [] else [c]
      | x :: xs => c :: x :: xs) = []
    rw [show dropEndWhile p [] = [] from rfl]
    simp [hc]
  | cons a x2 ih =>
    rw [List.cons_append, dropEndWhile, ih]
    rfl

theorem trim_app_sp {c : Char} (hc : isJsSpace c = true) (q : Str) :
    trim (q ++ [c]) = trim q := by
  unfold trim
  rw [List.dropWhile_append]
  cases hdw : (List.dropWhile isJsSpace q).isEmpty with
  | true =>
    rw [if_pos rfl]
    have hq : List.dropWhile isJsSpace q = [] := by
      cases hx : List.dropWhile isJsSpace q with
      | nil => rfl
      | cons a b => rw [hx] at hdw; cases hdw
    rw [hq, List.dropWhile_cons_of_pos hc]
    rfl
  | false =>
    rw [if_neg (by simp)]
    exact dropEndWhile_app_sp hc _

theorem splitD_join_tail {D : Str} (hD : D ≠ []) {d0 : Char} {D2 : Str}
    (hDeq : D = d0 :: D2) (hnl : '\n' ∉ D) :
    ∀ qs q, (∀ x ∈ q :: qs, hasOccur D x = false) →
      splitD D ('\n' :: List.intercalate ('\n' :: (D ++ ['\n'])) (q :: qs)) =
        midSegs (q :: qs) := by
  intro qs
  induction qs with
  | nil =>
    intro q hocc
    rw [intercalate_cons, sepTail, List.append_nil]
    show splitD D ('\n' :: q) = ['\n' :: q]
    apply splitD_free
    rw [noCross, Bool.and_eq_true]
    refine ⟨?_, noCross_nilTail q (hocc q (List.mem_cons_self q []))⟩
    rw [Bool.not_eq_true', hDeq, List.cons_append, ipo_cons]
    have hne : ¬ d0 = '\n' := fun hc =>
      hnl (by rw [← hc, hDeq]; exact List.mem_cons_self d0 D2)
    simp [hne]
  | cons q2 qs2 ih =>
    intro q hocc
    have hshape : '\n' :: List.intercalate ('\n' :: (D ++ ['\n'])) (q :: q2 :: qs2) =
        ('\n' :: (q ++ ['\n'])) ++
          (D ++ ('\n' :: List.intercalate ('\n' :: (D ++ ['\n'])) (q2 :: qs2))) := by
      rw [intercalate_cons, sepTail]
      simp [List.append_assoc]
    rw [hshape]
    have hnc : noCross D ('\n' :: (q ++ ['\n']))
        (D ++ ('\n' :: List.intercalate ('\n' :: (D ++ ['\n'])) (q2 :: qs2))) = true := by
      rw [noCross, Bool.and_eq_true]
      refine ⟨?_, noCross_seg hDeq hnl q _ (hocc q (List.mem_cons_self q _))⟩
      rw [Bool.not_eq_true', hDeq, List.cons_append, ipo_cons]
      have hne : ¬ d0 = '\n' := fun hc =>
        hnl (by rw [← hc, hDeq]; exact List.mem_cons_self d0 D2)
      simp [hne]
    rw [splitD_step D hD _ _ hnc]
    rw [ih q2 (fun x hx => hocc x (List.mem_cons_of_mem q hx))]
    rfl

theorem midSegs_trimfilter :
    ∀ qs q, (∀ x ∈ q :: qs, x ≠ [] ∧ trim x = x) →
      ((midSegs (q :: qs)).map trim).filter (fun s => !s.isEmpty) = q :: qs := by
  intro qs
  induction qs with
  | nil =>
    intro q hq
    obtain ⟨hne, htr⟩ := hq q (List.mem_cons_self q [])
    have hemp : q.isEmpty = false := by
      cases q with
      | nil => exact absurd rfl hne
      | cons a b => rfl
    show [trim ('\n' :: q)].filter (fun s => !s.isEmpty) = [q]
    rw [trim_cons_sp (by decide) q, htr]
    simp [List.filter, hemp]
  | cons q2 qs2 ih =>
    intro q hq
    obtain ⟨hne, htr⟩ := hq q (List.mem_cons_self q _)
    have hemp : q.isEmpty = false := by
      cases q with
      | nil => exact absurd rfl hne
      | cons a b => rfl
    show (trim ('\n' :: (q ++ ['\n'])) :: (midSegs (q2 :: qs2)).map trim).filter
        (fun s => !s.isEmpty) = q :: q2 :: qs2
    rw [trim_cons_sp (by decide), trim_app_sp (by decide), htr, List.filter_cons]
    simp only [hemp, Bool.not_false, if_pos]
    rw [ih q2 (fun x hx => hq x (List.mem_cons_of_mem q hx))]

/-- C7 (amended): the split and join round trip holds for parts that are
non-empty, equal to their own trim and free of the effective delimiter,
provided the effective delimiter contains no newline; a delimiter with a
newline can recombine with the newlines the join inserts, as the
counterexample shows. -/
theorem C7_split_join_roundtrip_amended (parts : List Str) (d : Str)
    (hnl : '\n' ∉ delimOr d)
    (hp : ∀ p ∈ parts, p ≠ [] ∧ trim p = p ∧ hasOccur (delimOr d) p = false) :
    splitByDelimiter (joinByDelimiter parts d) d = parts := by
  obtain ⟨d0, D2, hDeq⟩ : ∃ a b, delimOr d = a :: b := by
    cases hcd : delimOr d with
    | nil => exact absurd hcd (delimOr_ne_nil d)
    | cons a b => exact ⟨a, b, rfl⟩
  have hD : delimOr d ≠ [] := delimOr_ne_nil d
  cases parts with
  | nil =>
    show ((splitD (delimOr d)
        (List.intercalate ('\n' :: (delimOr d ++ ['\n'])) [])).map trim).filter
          (fun s => !s.isEmpty) = []
    rw [show List.intercalate ('\n' :: (delimOr d ++ ['\n'])) ([] : List Str) = []
      from rfl]
    rw [splitD_nil]
    rfl
  | cons p ps =>
    have hocc : ∀ x ∈ p :: ps, hasOccur (delimOr d) x = false :=
      fun x hx => (hp x hx).2.2
    obtain ⟨hne, htr, -⟩ := hp p (List.mem_cons_self p ps)
    have hemp : p.isEmpty = false := by
      cases p with
      | nil => exact absurd rfl hne
      | cons a b => rfl
    cases ps with
    | nil =>
      show ((splitD (delimOr d)
          (List.intercalate ('\n' :: (delimOr d ++ ['\n'])) [p])).map trim).filter
            (fun s => !s.isEmpty) = [p]
      rw [intercalate_cons, sepTail, List.append_nil]
      rw [splitD_free _ p (noCross_nilTail p (hocc p (List.mem_cons_self p [])))]
      show [trim p].filter (fun s => !s.isEmpty) = [p]
      rw [htr]
      simp [List.filter, hemp]
    | cons p2 ps2 =>
      have hshape : List.intercalate ('\n' :: (delimOr d ++ ['\n'])) (p :: p2 :: ps2) =
          (p ++ ['\n']) ++ (delimOr d ++
            ('\n' :: List.intercalate ('\n' :: (delimOr d ++ ['\n'])) (p2 :: ps2))) := by
        rw [intercalate_cons, sepTail]
        simp [List.append_assoc]
      show ((splitD (delimOr d)
          (List.intercalate ('\n' :: (delimOr d ++ ['\n'])) (p :: p2 :: ps2))).map
            trim).filter (fun s => !s.isEmpty) = p :: p2 :: ps2
      rw [hshape, splitD_step _ hD _ _
        (noCross_seg hDeq hnl p _ (hocc p (List.mem_cons_self p _)))]
      rw [splitD_join_tail hD hDeq hnl ps2 p2
        (fun x hx => hocc x (List.mem_cons_of_mem p hx))]
      rw [List.map_cons, trim_app_sp (by decide) p, htr, List.filter_cons]
      simp only [hemp, Bool.not_false, if_pos]
      rw [midSegs_trimfilter ps2 p2 (fun x hx => ⟨(hp x (List.mem_cons_of_mem p hx)).1,
        (hp x (List.mem_cons_of_mem p hx)).2.1⟩)]

theorem C7_amended_witness :
    ('\n' ∉ delimOr "X".data ∧
      (∀ p ∈ ["ab".data, "c".data], p ≠ [] ∧
        trim p = p ∧ hasOccur (delimOr "X".data) p = false)) ∧
    splitByDelimiter
        (joinByDelimiter ["ab".data, "c".data] "X".data) "X".data =
      ["ab".data, "c".data] :=
  ⟨⟨by decide, by decide⟩,
    C7_split_join_roundtrip_amended ["ab".data, "c".data] "X".data (by decide)
      (by decide)⟩

/- ---------------------------------------------------------------------
   The keyword scan of the anchor selector.
   --------------------------------------------------------------------- -/

theorem findKwAux_none_single {pat : Str} :
    ∀ s prev, containsCI s pat = false → findKwAux [pat] prev s = none := by
  intro s
  induction s with
  | nil =>
    intro prev h
    rw [containsCI] at h
    rw [Bool.or_eq_false_iff] at h
    show tryAltsAt [pat] prev [] = none
    rw [tryAltsAt]
    have hm : altMatchAt pat prev [] = false := by
      unfold altMatchAt
      rw [h.1]
      rfl
    rw [hm]
    rfl
  | cons c r ih =>
    intro prev h
    rw [containsCI, Bool.or_eq_false_iff] at h
    obtain ⟨h1, h2⟩ := h
    rw [findKwAux]
    have hm : tryAltsAt [pat] prev (c :: r) = none := by
      rw [tryAltsAt]
      have hmm : altMatchAt pat prev (c :: r) = false := by
        unfold altMatchAt
        rw [h1]
        rfl
      rw [hmm]
      rfl
    rw [hm]
    exact ih (some c) h2

theorem tryAltsAt_some :
    ∀ (alts : List Str) (prev : Option Char) (u w : Str),
      tryAltsAt alts prev u = some w →
      ∃ alt ∈ alts, ciAt alt u = true ∧ w = u.take alt.length := by
  intro alts
  induction alts with
  | nil => intro prev u w h; cases h
  | cons a rest ih =>
    intro prev u w h
    rw [tryAltsAt] at h
    cases hm : altMatchAt a prev u with
    | true =>
      rw [hm, if_pos rfl] at h
      unfold altMatchAt at hm
      rw [Bool.and_eq_true, Bool.and_eq_true] at hm
      refine ⟨a, List.mem_cons_self a rest, hm.1.1, ?_⟩
      simp only [Option.some.injEq] at h
      exact h.symm
    | false =>
      rw [hm] at h
      simp only [Bool.false_eq_true, if_false] at h
      obtain ⟨alt, hmem, hci, hw⟩ := ih prev u w h
      exact ⟨alt, List.mem_cons_of_mem a hmem, hci, hw⟩

theorem findKwAux_some_ci :
    ∀ (s : Str) (alts : List Str) (prev : Option Char) (w : Str),
      findKwAux alts prev s = some w →
      ∃ alt ∈ alts, ∃ u, ciAt alt u = true ∧ w = u.take alt.length := by
  intro s
  induction s with
  | nil =>
    intro alts prev w h
    obtain ⟨alt, hmem, hci, hw⟩ := tryAltsAt_some alts prev [] w h
    exact ⟨alt, hmem, [], hci, hw⟩
  | cons c r ih =>
    intro alts prev w h
    rw [findKwAux] at h
    cases ht : tryAltsAt alts prev (c :: r) with
    | some w2 =>
      rw [ht] at h
      simp only [Option.some.injEq] at h
      obtain ⟨alt, hmem, hci, hw⟩ := tryAltsAt_some alts prev (c :: r) w2 ht
      exact ⟨alt, hmem, c :: r, hci, by rw [← h]; exact hw⟩
    | none =>
      rw [ht] at h
      exact ih alts (some c) w h

theorem findKwAux_found :
    ∀ (alts : List Str) (a u : Str) (prev : Option Char),
      (tryAltsAt alts (lastOpt prev a) u).isSome = true →
      (findKwAux alts prev (a ++ u)).isSome = true := by
  intro alts a
  induction a with
  | nil =>
    intro u prev h
    rw [lastOpt] at h
    rw [List.nil_append]
    cases u with
    | nil => exact h
    | cons c r =>
      rw [findKwAux]
      cases ht : tryAltsAt alts prev (c :: r) with
      | some w => rfl
      | none => rw [ht] at h; cases h
  | cons x a2 ih =>
    intro u prev h
    rw [List.cons_append, findKwAux]
    cases ht : tryAltsAt alts prev (x :: (a2 ++ u)) with
    | some w => rfl
    | none =>
      exact ih u (some x) (by rw [lastOpt] at h; exact h)

theorem ciAt_take_pref :
    ∀ (p1 p2 u : Str), ciAt (p1 ++ p2) u = true →
      ciAt p1 (u.take (p1 ++ p2).length) = true := by
  intro p1
  induction p1 with
  | nil => intro p2 u _; rfl
  | cons p ps ih =>
    intro p2 u h
    cases u with
    | nil =>
      rw [List.cons_append] at h
      cases h
    | cons c cs =>
      rw [List.cons_append, ciAt, Bool.and_eq_true] at h
      have := ih p2 cs h.2
      rw [List.cons_append, List.length_cons, List.take_succ_cons, ciAt,
        Bool.and_eq_true]
      exact ⟨h.1, this⟩

theorem containsCI_append_left (pat : Str) :
    ∀ (a u : Str), containsCI u pat = true → containsCI (a ++ u) pat = true := by
  intro a
  induction a with
  | nil => intro u h; exact h
  | cons x a2 ih =>
    intro u h
    rw [List.cons_append, containsCI, Bool.or_eq_true]
    exact Or.inr (ih u h)

theorem containsCI_of_ciAt {pat u : Str} (h : ciAt pat u = true) :
    containsCI u pat = true := by
  cases u with
  | nil => rw [containsCI, h]; rfl
  | cons c r => rw [containsCI, h]; rfl

theorem ciAt_of_lower :
    ∀ (fix pat : Str), fix.map Char.toLower = pat →
      ∀ rest, ciAt pat (fix ++ rest) = true := by
  intro fix
  induction fix with
  | nil =>
    intro pat h rest
    rw [← h]
    rfl
  | cons c fs ih =>
    intro pat h rest
    rw [← h, List.map_cons, List.cons_append, ciAt, Bool.and_eq_true]
    exact ⟨by simp, ih (fs.map Char.toLower) rfl rest⟩

/-- C8 (amended): the selector returns the paired anchor for content whose
trimmed form contains the phrase at a position not preceded by a word
character, provided the trimmed content has no case-insensitive occurrence
of the higher-priority keyword hypnozoite; without that priority condition
the counterexample applies. -/
theorem C8_anchor_pairing_amended (content : Str)
    (hhyp : containsCI (trim content) "hypnozoite".data = false)
    (a b : Str)
    (hsplit : trim content = a ++ ("Schuffner\x27s dots are seen".data ++ b))
    (hb : ∀ p : Char, lastOpt none a = some p → isWordChar p = false) :
    pickAnchorWords content 3 = "Schuffner\x27s dots".data := by
  have hfk1 : findKwAux ["hypnozoite".data] none (trim content) = none :=
    findKwAux_none_single (trim content) none hhyp
  have htry : (tryAltsAt ["schuffner\x27s".data, "schuffners".data]
      (lastOpt none a) ("Schuffner\x27s dots are seen".data ++ b)).isSome = true := by
    rw [tryAltsAt]
    have hm : altMatchAt "schuffner\x27s".data (lastOpt none a)
        ("Schuffner\x27s dots are seen".data ++ b) = true := by
      unfold altMatchAt
      rw [Bool.and_eq_true, Bool.and_eq_true]
      refine ⟨⟨?_, ?_⟩, ?_⟩
      · show ciAt "schuffner\x27s".data
          ("Schuffner\x27s".data ++ (" dots are seen".data ++ b)) = true
        exact ciAt_of_lower "Schuffner\x27s".data "schuffner\x27s".data (by decide) _
      · cases hl : lastOpt none a with
        | none => rfl
        | some p =>
          show (!(isWordChar p)) = true
          rw [hb p hl]
          rfl
      · have hdrop : (("Schuffner\x27s dots are seen".data ++ b)).drop
            "schuffner\x27s".data.length = ' ' :: ("dots are seen".data ++ b) := rfl
        rw [hdrop]
        show (!(isWordChar ' ')) = true
        decide
    rw [hm, if_pos rfl]
    rfl
  have hfk2 : (findKwAux ["schuffner\x27s".data, "schuffners".data] none
      (trim content)).isSome = true := by
    rw [hsplit]
    exact findKwAux_found _ a _ none htry
  obtain ⟨w, hw⟩ := Option.isSome_iff_exists.mp hfk2
  have hfind : findKw (trim content) = some w := by
    simp only [findKw, kwAlts, List.findSome?, hfk1, hw]
  have hws : containsCI w "schuffner".data = true := by
    obtain ⟨alt, hmem, u, hci, hweq⟩ :=
      findKwAux_some_ci (trim content) _ none w hw
    rcases List.mem_cons.mp hmem with h1 | h1
    · subst h1
      have hci2 : ciAt ("schuffner".data ++ "\x27s".data) u = true := hci
      have := ciAt_take_pref "schuffner".data "\x27s".data u hci2
      rw [hweq]
      exact containsCI_of_ciAt this
    · rcases List.mem_cons.mp h1 with h2 | h2
      · subst h2
        have hci2 : ciAt ("schuffner".data ++ "s".data) u = true := hci
        have := ciAt_take_pref "schuffner".data "s".data u hci2
        rw [hweq]
        exact containsCI_of_ciAt this
      · cases h2
  have hdot : containsCI (trim content) "dot".data = true := by
    rw [hsplit]
    apply containsCI_append_left
    show containsCI ("Schuffner\x27s ".data ++ ("dots are seen".data ++ b))
      "dot".data = true
    apply containsCI_append_left
    show containsCI ("dot".data ++ ("s are seen".data ++ b)) "dot".data = true
    exact containsCI_of_ciAt (ciAt_of_lower "dot".data "dot".data (by decide) _)
  unfold pickAnchorWords
  simp only [hfind, hws, hdot]
  rfl

theorem C8_amended_witness :
    pickAnchorWords "Schuffner\x27s dots are seen".data 3 =
      "Schuffner\x27s dots".data :=
  C8_anchor_pairing_amended "Schuffner\x27s dots are seen".data (by decide) [] []
    (by decide) (by intro p h; cases h)

/- ---------------------------------------------------------------------
   The rescan of a capped card.
   --------------------------------------------------------------------- -/

theorem mem_dropEndWhile {p : Char → Bool} :
    ∀ {u : Str} {ch : Char}, ch ∈ dropEndWhile p u → ch ∈ u := by
  intro u
  induction u with
  | nil => intro ch h; cases h
  | cons c r ih =>
    intro ch h
    rw [dropEndWhile] at h
    cases hd : dropEndWhile p r with
    | nil =>
      rw [hd] at h
      by_cases hc : p c = true
      · rw [if_pos hc] at h
        cases h
      · rw [if_neg hc] at h
        rcases List.mem_cons.mp h with h1 | h1
        · rw [h1]
          exact List.mem_cons_self c r
        · cases h1
    | cons x xs =>
      rw [hd] at h
      rcases List.mem_cons.mp h with h1 | h1
      · rw [h1]
        exact List.mem_cons_self c r
      · exact List.mem_cons_of_mem c (ih (by rw [hd]; exact h1))

theorem mem_trim {u : Str} {ch : Char} (h : ch ∈ trim u) : ch ∈ u := by
  unfold trim at h
  have h2 := mem_dropEndWhile h
  exact (List.dropWhile_sublist isJsSpace).mem h2

theorem take_pref_app (P X : Str) :
    (P ++ X).take ((P ++ X).length - X.length) = P := by
  rw [List.length_append, Nat.add_sub_cancel, List.take_left]

theorem mls_full {w1 w2 ds inner : Str} (hw1 : ∀ c ∈ w1, isJsSpace c = true)
    (hw2 : ∀ c ∈ w2, isJsSpace c = true) (hne : ds ≠ [])
    (hd : ∀ c ∈ ds, isDig c = true) (hpf : pairFree inner = true)
    (hend : endsB inner = false) (X : Str) :
    matchLenSpan ('\x7b' :: '\x7b' ::
        (w1 ++ 'c' :: (ds ++ (w2 ++ ':' :: ':' :: (inner ++ '\x7d' :: '\x7d' :: X))))) =
      some (ds, inner, X) := by
  unfold matchLenSpan
  simp only [mlo_full hw1 hw2 hne hd (inner ++ '\x7d' :: '\x7d' :: X)]
  rw [splitACB_app hpf X, hend]
  simp

theorem parseC_lit_run :
    ∀ (u : Str), (∀ ch ∈ u, isBrace ch = false) →
      ∀ X, parseC (u ++ X) = u.map CTok.lit ++ parseC X := by
  intro u
  induction u with
  | nil => intro _ X; simp
  | cons c r ih =>
    intro hch X
    have hc : c ≠ '\x7b' := by
      intro he
      have := hch c (List.mem_cons_self c r)
      rw [he] at this
      exact absurd this (by decide)
    rw [List.cons_append, parseC_none (mls_none_head _ hc),
      ih (fun ch hm => hch ch (List.mem_cons_of_mem c hm)) X, List.map_cons,
      List.cons_append]

theorem containsStr_mem : ∀ (l : List Str) (x : Str), l.contains x = true → x ∈ l := by
  intro l x
  induction l with
  | nil => intro h; cases h
  | cons a r ih =>
    intro h
    rw [List.contains_cons, Bool.or_eq_true] at h
    rcases h with h1 | h1
    · rw [beq_iff_eq] at h1
      rw [h1]
      exact List.mem_cons_self a r
    · exact List.mem_cons_of_mem a (ih h1)

theorem capRescan (allowed : List Str) :
    ∀ n s, s.length ≤ n → (parseC s).all braceClean = true →
      parseC (((parseC s).map (capTokRender allowed)).flatten) =
        capTokScan allowed (parseC s) := by
  intro n
  induction n with
  | zero =>
    intro s hs _
    have hnil : s = [] := List.eq_nil_of_length_eq_zero (Nat.le_zero.mp hs)
    subst hnil
    rfl
  | succ n ih =>
    intro s hs hcl
    cases hm : matchLenSpan s with
    | none =>
      cases s with
      | nil => rfl
      | cons c r =>
        have hpeq := parseC_none hm
        rw [hpeq] at hcl
        rw [List.all_cons, Bool.and_eq_true] at hcl
        obtain ⟨hc1, hcr⟩ := hcl
        have hcb : isBrace c = false := by
          rw [braceClean, Bool.not_eq_true'] at hc1
          exact hc1
        have hcne : c ≠ '\x7b' := by
          intro he
          rw [he] at hcb
          exact absurd hcb (by decide)
        rw [hpeq]
        show parseC (c :: (List.map (capTokRender allowed) (parseC r)).flatten) =
          CTok.lit c :: capTokScan allowed (parseC r)
        rw [parseC_none (mls_none_head _ hcne),
          ih r (by simp only [List.length_cons] at hs; omega) hcr]
    | some pr =>
      obtain ⟨ds, inner, rest⟩ := pr
      obtain ⟨w1, w2, hseq, hw1, hw2, hne, hd, hpf, hend⟩ := mls_some hm
      have hlen := mls_len hm
      have hs2 : s = ('\x7b' :: '\x7b' ::
          (w1 ++ 'c' :: (ds ++ (w2 ++ ':' :: ':' :: (inner ++ ['\x7d', '\x7d']))))) ++ rest := by
        rw [hseq]
        simp [List.append_assoc]
      have hraw : s.take (s.length - rest.length) = '\x7b' :: '\x7b' ::
          (w1 ++ 'c' :: (ds ++ (w2 ++ ':' :: ':' :: (inner ++ ['\x7d', '\x7d'])))) := by
        rw [hs2]
        exact take_pref_app _ rest
      rw [parseC_some hm] at hcl
      rw [List.all_cons, Bool.and_eq_true] at hcl
      obtain ⟨hsp, hrest⟩ := hcl
      rw [parseC_some hm, hraw]
      rw [capTokScan, List.map_cons]
      have hshape : ∀ X : Str,
          ('\x7b' :: '\x7b' ::
            (w1 ++ 'c' :: (ds ++ (w2 ++ ':' :: ':' :: (inner ++ ['\x7d', '\x7d']))))) ++ X =
          '\x7b' :: '\x7b' ::
            (w1 ++ 'c' :: (ds ++ (w2 ++ ':' :: ':' :: (inner ++ '\x7d' :: '\x7d' :: X)))) := by
        intro X
        simp [List.append_assoc]
      cases hin : allowed.contains ds with
      | true =>
        have hrt : capTokRender allowed (CTok.sp ('\x7b' :: '\x7b' ::
            (w1 ++ 'c' :: (ds ++ (w2 ++ ':' :: ':' :: (inner ++ ['\x7d', '\x7d']))))) ds inner) =
            '\x7b' :: '\x7b' ::
              (w1 ++ 'c' :: (ds ++ (w2 ++ ':' :: ':' :: (inner ++ ['\x7d', '\x7d'])))) := by
          rw [capTokRender, hin, if_pos rfl]
        have het : capTokES allowed (CTok.sp ('\x7b' :: '\x7b' ::
            (w1 ++ 'c' :: (ds ++ (w2 ++ ':' :: ':' :: (inner ++ ['\x7d', '\x7d']))))) ds inner) =
            [CTok.sp ('\x7b' :: '\x7b' ::
              (w1 ++ 'c' :: (ds ++ (w2 ++ ':' :: ':' :: (inner ++ ['\x7d', '\x7d']))))) ds inner] := by
          rw [capTokES, hin, if_pos rfl]
        rw [hrt, het]
        show parseC (('\x7b' :: '\x7b' ::
            (w1 ++ 'c' :: (ds ++ (w2 ++ ':' :: ':' :: (inner ++ ['\x7d', '\x7d']))))) ++
              (List.map (capTokRender allowed) (parseC rest)).flatten) = _
        rw [hshape, parseC_some (mls_full hw1 hw2 hne hd hpf hend _), ← hshape,
          take_pref_app, ih rest (by omega) hrest]
        rfl
      | false =>
        have hrt : capTokRender allowed (CTok.sp ('\x7b' :: '\x7b' ::
            (w1 ++ 'c' :: (ds ++ (w2 ++ ':' :: ':' :: (inner ++ ['\x7d', '\x7d']))))) ds inner) =
            trim inner := by
          rw [capTokRender, hin]
          rfl
        have het : capTokES allowed (CTok.sp ('\x7b' :: '\x7b' ::
            (w1 ++ 'c' :: (ds ++ (w2 ++ ':' :: ':' :: (inner ++ ['\x7d', '\x7d']))))) ds inner) =
            (trim inner).map CTok.lit := by
          rw [capTokES, hin]
          rfl
        rw [hrt, het]
        have hib : ∀ ch ∈ inner, isBrace ch = false := by
          rw [braceClean] at hsp
          intro ch hch
          have := List.all_eq_true.mp hsp ch hch
          rw [Bool.not_eq_true'] at this
          exact this
        show parseC (trim inner ++
            (List.map (capTokRender allowed) (parseC rest)).flatten) = _
        rw [parseC_lit_run (trim inner) (fun ch hch => hib ch (mem_trim hch)) _,
          ih rest (by omega) hrest]

theorem mem_capTokScan {allowed : List Str} {x : CTok} :
    ∀ {ts : List CTok}, x ∈ capTokScan allowed ts → ∃ t ∈ ts, x ∈ capTokES allowed t := by
  intro ts
  induction ts with
  | nil => intro h; cases h
  | cons t ts ih =>
    intro h
    rw [capTokScan] at h
    rcases List.mem_append.mp h with h1 | h1
    · exact ⟨t, List.mem_cons_self t ts, h1⟩
    · obtain ⟨t2, ht2, hx⟩ := ih h1
      exact ⟨t2, List.mem_cons_of_mem t ht2, hx⟩

/-- C2 (amended): for an input card with at least one opener, and an
output card whose braces occur only as the markup of its scanned spans,
the capped card is the braces-only render in which every span kept carries
an index of the input card, every rescannable span of the result has an
allowed index, and a span with a disallowed index is replaced by its
trimmed inner content, which contains no brace; without the cleanliness
requirement the counterexample applies. -/
theorem C2_cap_allowed_amended (outCard inCard : Str)
    (hS : openerIdx inCard ≠ [])
    (hclean : (parseC outCard).all braceClean = true) :
    capCard outCard inCard =
        ((parseC outCard).map (capTokRender (openerIdx inCard))).flatten
    ∧ (∀ ds ∈ lenSpanIdx (capCard outCard inCard), ds ∈ openerIdx inCard)
    ∧ (∀ raw ds inner, CTok.sp raw ds inner ∈ parseC outCard →
        (openerIdx inCard).contains ds = false →
        capTokRender (openerIdx inCard) (CTok.sp raw ds inner) = trim inner ∧
        ∀ ch ∈ trim inner, isBrace ch = false) := by
  have hemp : (openerIdx inCard).isEmpty = false := by
    cases h : openerIdx inCard with
    | nil => exact absurd h hS
    | cons a b => rfl
  have hcap : capCard outCard inCard =
      ((parseC outCard).map (capTokRender (openerIdx inCard))).flatten := by
    show (if (openerIdx inCard).isEmpty then outCard else
      ((parseC outCard).map (capTokRender (openerIdx inCard))).flatten) = _
    rw [hemp]
    simp
  refine ⟨hcap, ?_, ?_⟩
  · intro ds hds
    rw [hcap] at hds
    unfold lenSpanIdx at hds
    rw [capRescan (openerIdx inCard) outCard.length outCard (Nat.le_refl _) hclean]
      at hds
    obtain ⟨tok, htok, hf⟩ := List.mem_filterMap.mp hds
    obtain ⟨t0, ht0, htm⟩ := mem_capTokScan htok
    cases t0 with
    | lit c =>
      rw [capTokES] at htm
      rcases List.mem_cons.mp htm with h1 | h1
      · rw [h1] at hf
        simp at hf
      · cases h1
    | sp raw ds2 inner =>
      rw [capTokES] at htm
      cases hin : (openerIdx inCard).contains ds2 with
      | true =>
        rw [hin, if_pos rfl] at htm
        rcases List.mem_cons.mp htm with h1 | h1
        · rw [h1] at hf
          simp only [Option.some.injEq] at hf
          rw [← hf]
          exact containsStr_mem _ ds2 hin
        · cases h1
      | false =>
        rw [hin] at htm
        simp only [Bool.false_eq_true, if_false] at htm
        obtain ⟨ch, -, hcheq⟩ := List.mem_map.mp htm
        rw [← hcheq] at hf
        simp at hf
  · intro raw ds inner htok hin
    refine ⟨by rw [capTokRender, hin]; rfl, ?_⟩
    have hbc := List.all_eq_true.mp hclean _ htok
    rw [braceClean] at hbc
    intro ch hch
    have h2 := List.all_eq_true.mp hbc ch (mem_trim hch)
    rw [Bool.not_eq_true'] at h2
    exact h2

theorem C2_amended_witness :
    (openerIdx "\x7b\x7bc1::x\x7d\x7d".data ≠ [] ∧
      (parseC "\x7b\x7bc1::a\x7d\x7d and \x7b\x7bc7::b\x7d\x7d".data).all braceClean = true) ∧
    (capCard "\x7b\x7bc1::a\x7d\x7d and \x7b\x7bc7::b\x7d\x7d".data "\x7b\x7bc1::x\x7d\x7d".data =
        ((parseC "\x7b\x7bc1::a\x7d\x7d and \x7b\x7bc7::b\x7d\x7d".data).map
          (capTokRender (openerIdx "\x7b\x7bc1::x\x7d\x7d".data))).flatten
      ∧ (∀ ds ∈ lenSpanIdx (capCard "\x7b\x7bc1::a\x7d\x7d and \x7b\x7bc7::b\x7d\x7d".data
            "\x7b\x7bc1::x\x7d\x7d".data), ds ∈ openerIdx "\x7b\x7bc1::x\x7d\x7d".data)
      ∧ (∀ raw ds inner,
          CTok.sp raw ds inner ∈ parseC "\x7b\x7bc1::a\x7d\x7d and \x7b\x7bc7::b\x7d\x7d".data →
          (openerIdx "\x7b\x7bc1::x\x7d\x7d".data).contains ds = false →
          capTokRender (openerIdx "\x7b\x7bc1::x\x7d\x7d".data) (CTok.sp raw ds inner) =
            trim inner ∧
          ∀ ch ∈ trim inner, isBrace ch = false)) :=
  ⟨⟨by decide, by decide⟩,
    C2_cap_allowed_amended "\x7b\x7bc1::a\x7d\x7d and \x7b\x7bc7::b\x7d\x7d".data
      "\x7b\x7bc1::x\x7d\x7d".data (by decide) (by decide)⟩

/- ---------------------------------------------------------------------
   Counting whitespace tokens.
   --------------------------------------------------------------------- -/

theorem neq_true_of_false {b : Bool} (h : b = false) : ¬ b = true := by
  rw [h]
  simp

theorem wsTokens_tokCount : ∀ n s, s.length ≤ n →
    (wsTokens s).length = tokCount false s := by
  intro n
  induction n with
  | zero =>
    intro s hs
    have : s = [] := List.eq_nil_of_length_eq_zero (Nat.le_zero.mp hs)
    subst this
    rfl
  | succ n ih =>
    intro s hs
    have hone : (if (false : Bool) = true then 0 else 1) = 1 := rfl
    match s with
    | [] => rfl
    | [c] =>
      rw [wsTokens, tokCount]
      by_cases hsp : isJsSpace c = true
      · rw [if_pos hsp, if_pos hsp]
        rfl
      · rw [if_neg hsp, if_neg hsp]
        rfl
    | c :: c2 :: r =>
      simp only [List.length_cons] at hs
      rw [wsTokens, tokCount]
      by_cases hsp : isJsSpace c = true
      · rw [if_pos hsp, if_pos hsp]
        exact ih (c2 :: r) (by simp only [List.length_cons]; omega)
      · rw [if_neg hsp, if_neg hsp, hone]
        have hrec : tokCount true (c2 :: r) =
            (if isJsSpace c2 = true then tokCount false r else tokCount true r) := by
          rw [tokCount]
          by_cases h2 : isJsSpace c2 = true
          · rw [if_pos h2, if_pos h2]
          · rw [if_neg h2, if_neg h2]
            simp
        by_cases h2 : isJsSpace c2 = true
        · rw [if_pos h2, hrec, if_pos h2]
          have h3 := ih r (by omega)
          simp only [List.length_cons]
          omega
        · rw [if_neg h2, hrec, if_neg h2]
          have h3 := ih (c2 :: r) (by simp only [List.length_cons]; omega)
          have h4 : tokCount false (c2 :: r) = 1 + tokCount true r := by
            rw [tokCount, if_neg h2, hone]
          rw [h4] at h3
          cases hw : wsTokens (c2 :: r) with
          | nil =>
            rw [hw] at h3
            simp only [List.length_nil] at h3
            show ([[c]] : List Str).length = 1 + tokCount true r
            simp only [List.length_cons, List.length_nil]
            omega
          | cons t ts =>
            rw [hw] at h3
            simp only [List.length_cons] at h3
            show ((c :: t) :: ts).length = 1 + tokCount true r
            simp only [List.length_cons]
            omega

theorem tokCount_flag : ∀ s, tokCount true s ≤ tokCount false s ∧
    tokCount false s ≤ tokCount true s + 1 := by
  intro s
  induction s with
  | nil => exact ⟨Nat.le_refl _, by show (0 : Nat) ≤ 0 + 1; omega⟩
  | cons c r ih =>
    have hone : (if (false : Bool) = true then 0 else 1) = 1 := rfl
    have hzero : (if (true : Bool) = true then 0 else 1) = 0 := rfl
    rw [tokCount, tokCount]
    by_cases hsp : isJsSpace c = true
    · rw [if_pos hsp, if_pos hsp]
      omega
    · rw [if_neg hsp, if_neg hsp, hone, hzero]
      omega

theorem tokCount_app_right : ∀ (v : Str) (b : Bool) (q : Str),
    tokCount b v ≤ tokCount b (v ++ q) := by
  intro v
  induction v with
  | nil => intro b q; rw [tokCount]; exact Nat.zero_le _
  | cons c r ih =>
    intro b q
    rw [List.cons_append, tokCount, tokCount]
    by_cases hsp : isJsSpace c = true
    · rw [if_pos hsp, if_pos hsp]
      exact ih false q
    · rw [if_neg hsp, if_neg hsp]
      exact Nat.add_le_add_left (ih true q) _

theorem tokCount_app_left : ∀ (p v : Str),
    tokCount false v ≤ tokCount false (p ++ v) := by
  intro p
  induction p with
  | nil => intro v; exact Nat.le_refl _
  | cons c r ih =>
    intro v
    rw [List.cons_append, tokCount]
    by_cases hsp : isJsSpace c = true
    · rw [if_pos hsp]
      exact ih v
    · rw [if_neg hsp,
        show (if (false : Bool) = true then 0 else 1) = 1 from rfl]
      have h1 := ih v
      have h2 := tokCount_flag (r ++ v)
      omega

theorem tokens_within_le {v c : Str} (h : infixOf v c) :
    (wsTokens v).length ≤ (wsTokens c).length := by
  obtain ⟨p, q, hc⟩ := h
  rw [wsTokens_tokCount v.length v (Nat.le_refl _),
    wsTokens_tokCount c.length c (Nat.le_refl _), hc]
  calc tokCount false v ≤ tokCount false (v ++ q) := tokCount_app_right v false q
    _ ≤ tokCount false (p ++ (v ++ q)) := tokCount_app_left p (v ++ q)

theorem noWord_within {v c : Str} (h : infixOf v c) (hn : noWord c = true) :
    noWord v = true := by
  obtain ⟨p, q, hc⟩ := h
  unfold noWord at hn ⊢
  rw [List.all_eq_true] at hn ⊢
  intro ch hch
  exact hn ch (by rw [hc]; simp [hch])

theorem contOK_within {maxW : Nat} {v c : Str} (h : infixOf v c)
    (hc : contOK maxW c) : contOK maxW v := by
  rcases hc with h1 | h1
  · exact Or.inl (Nat.le_trans (tokens_within_le h) h1)
  · exact Or.inr (noWord_within h h1)

theorem tokCount_dropWhile : ∀ u,
    tokCount false (List.dropWhile isJsSpace u) = tokCount false u := by
  intro u
  induction u with
  | nil => rfl
  | cons c r ih =>
    by_cases hsp : isJsSpace c = true
    · rw [List.dropWhile_cons_of_pos hsp, tokCount, if_pos hsp]
      exact ih
    · rw [List.dropWhile_cons_of_neg (by rw [Bool.not_eq_true] at hsp; simp [hsp])]

theorem all_space_tokCount : ∀ u, (∀ c ∈ u, isJsSpace c = true) →
    ∀ b, tokCount b u = 0 := by
  intro u
  induction u with
  | nil => intro _ b; rfl
  | cons c r ih =>
    intro h b
    rw [tokCount, if_pos (h c (List.mem_cons_self c r))]
    exact ih (fun x hx => h x (List.mem_cons_of_mem c hx)) false

theorem dropEndWhile_nil_all {p : Char → Bool} :
    ∀ u, dropEndWhile p u = [] → ∀ c ∈ u, p c = true := by
  intro u
  induction u with
  | nil => intro _ c hc; cases hc
  | cons c r ih =>
    intro h x hx
    rw [dropEndWhile] at h
    cases hd : dropEndWhile p r with
    | nil =>
      rw [hd] at h
      by_cases hc : p c = true
      · rcases List.mem_cons.mp hx with h1 | h1
        · rw [h1]; exact hc
        · exact ih hd x h1
      · rw [if_neg hc] at h
        cases h
    | cons y ys =>
      rw [hd] at h
      cases h

theorem tokCount_cons (b : Bool) (c : Char) (r : Str) :
    tokCount b (c :: r) = if isJsSpace c = true then tokCount false r
      else (if b = true then 0 else 1) + tokCount true r := rfl

theorem tokCount_dropEnd : ∀ u b,
    tokCount b (dropEndWhile isJsSpace u) = tokCount b u := by
  intro u
  induction u with
  | nil => intro b; rfl
  | cons c r ih =>
    intro b
    rw [dropEndWhile]
    cases hd : dropEndWhile isJsSpace r with
    | nil =>
      have hall : ∀ x ∈ r, isJsSpace x = true := dropEndWhile_nil_all r hd
      show tokCount b (if isJsSpace c = true then [] else [c]) = tokCount b (c :: r)
      by_cases hc : isJsSpace c = true
      · rw [if_pos hc, tokCount_cons, if_pos hc, all_space_tokCount r hall false]
        rfl
      · rw [if_neg hc, tokCount_cons, tokCount_cons, if_neg hc, if_neg hc,
          all_space_tokCount r hall true]
        rfl
    | cons x xs =>
      show tokCount b (c :: x :: xs) = tokCount b (c :: r)
      have hxr : tokCount false (x :: xs) = tokCount false r := by
        rw [← hd]
        exact ih false
      have hxr2 : tokCount true (x :: xs) = tokCount true r := by
        rw [← hd]
        exact ih true
      by_cases hc : isJsSpace c = true
      · rw [tokCount_cons, if_pos hc, hxr,
          show tokCount b (c :: r) = tokCount false r from by
            rw [tokCount_cons, if_pos hc]]
      · rw [tokCount_cons, if_neg hc, hxr2,
          show tokCount b (c :: r) = (if b = true then 0 else 1) + tokCount true r
            from by rw [tokCount_cons, if_neg hc]]

theorem tokens_trim (u : Str) :
    (wsTokens (trim u)).length = (wsTokens u).length := by
  rw [wsTokens_tokCount (trim u).length (trim u) (Nat.le_refl _),
    wsTokens_tokCount u.length u (Nat.le_refl _)]
  unfold trim
  rw [tokCount_dropEnd, tokCount_dropWhile]

/- ---------------------------------------------------------------------
   The selected anchor satisfies the amended guarantee.
   --------------------------------------------------------------------- -/

theorem toLower_of_space {c : Char} (h : isJsSpace c = true) : c.toLower = c := by
  simp only [isJsSpace, Bool.or_eq_true, Bool.and_eq_true, decide_eq_true_eq] at h
  show (if c.toNat ≥ 65 ∧ c.toNat ≤ 90 then Char.ofNat (c.toNat + 32) else c) = c
  rw [if_neg (by omega)]

theorem space_not_word {c : Char} (h : isJsSpace c = true) : isWordChar c = false := by
  simp only [isJsSpace, Bool.or_eq_true, Bool.and_eq_true, decide_eq_true_eq] at h
  rw [Bool.eq_false_iff]
  simp only [ne_eq, isWordChar, Bool.or_eq_true, Bool.and_eq_true, decide_eq_true_eq,
    not_or, not_and, not_le]
  omega

theorem tokCount_word_true : ∀ (w : Str), (∀ c ∈ w, isJsSpace c = false) →
    ∀ z, tokCount true (w ++ z) = tokCount true z := by
  intro w
  induction w with
  | nil => intro _ z; rfl
  | cons c r ih =>
    intro hch z
    have hc : ¬ isJsSpace c = true := by
      rw [hch c (List.mem_cons_self c r)]
      simp
    rw [List.cons_append, tokCount_cons, if_neg hc, if_pos rfl,
      ih (fun x hx => hch x (List.mem_cons_of_mem c hx)) z]
    omega

theorem tokCount_word_false : ∀ (w : Str), w ≠ [] →
    (∀ c ∈ w, isJsSpace c = false) →
    ∀ z, tokCount false (w ++ z) = 1 + tokCount true z := by
  intro w hne hch z
  cases w with
  | nil => exact absurd rfl hne
  | cons c r =>
    have hc : ¬ isJsSpace c = true := by
      rw [hch c (List.mem_cons_self c r)]
      simp
    rw [List.cons_append, tokCount_cons, if_neg hc,
      if_neg (show ¬ ((false : Bool) = true) by simp),
      tokCount_word_true r (fun x hx => hch x (List.mem_cons_of_mem c hx)) z]

theorem nonspace_tokens_le_one : ∀ (w : Str), (∀ c ∈ w, isJsSpace c = false) →
    (wsTokens w).length ≤ 1 := by
  intro w h
  rw [wsTokens_tokCount w.length w (Nat.le_refl _)]
  cases w with
  | nil => show (0 : Nat) ≤ 1; omega
  | cons c r =>
    have h1 := tokCount_word_false (c :: r) (by simp) h []
    rw [List.append_nil] at h1
    rw [h1]
    show 1 + 0 ≤ 1
    omega

theorem intercal_tokens : ∀ (ws : List Str),
    (∀ w ∈ ws, w ≠ [] ∧ ∀ c ∈ w, isJsSpace c = false) →
    tokCount false (List.intercalate [' '] ws) = ws.length := by
  intro ws
  induction ws with
  | nil => intro _; rfl
  | cons w ws2 ih =>
    intro h
    obtain ⟨hne, hns⟩ := h w (List.mem_cons_self w ws2)
    cases ws2 with
    | nil =>
      rw [show List.intercalate [' '] [w] = w from by simp [List.intercalate]]
      have h1 := tokCount_word_false w hne hns []
      rw [List.append_nil] at h1
      rw [h1]
      show 1 + 0 = 1
      omega
    | cons w2 ws3 =>
      rw [intercalate_cons, sepTail,
        tokCount_word_false w hne hns ([' '] ++ List.intercalate [' '] (w2 :: ws3))]
      have hsp : tokCount true ([' '] ++ List.intercalate [' '] (w2 :: ws3)) =
          tokCount false (List.intercalate [' '] (w2 :: ws3)) := by
        show tokCount true (' ' :: List.intercalate [' '] (w2 :: ws3)) = _
        rw [tokCount_cons, if_pos (by decide)]
      rw [hsp, ih (fun x hx => h x (List.mem_cons_of_mem w hx))]
      simp only [List.length_cons]
      omega

theorem wsTokens_nonspace : ∀ n s, s.length ≤ n →
    ∀ t ∈ wsTokens s, ∀ c ∈ t, isJsSpace c = false := by
  intro n
  induction n with
  | zero =>
    intro s hs
    have : s = [] := List.eq_nil_of_length_eq_zero (Nat.le_zero.mp hs)
    subst this
    intro t ht
    cases ht
  | succ n ih =>
    intro s hs
    match s with
    | [] => intro t ht; cases ht
    | [c] =>
      rw [wsTokens]
      by_cases hsp : isJsSpace c = true
      · rw [if_pos hsp]
        intro t ht
        cases ht
      · rw [if_neg hsp]
        intro t ht ch hch
        rcases List.mem_cons.mp ht with h1 | h1
        · subst h1
          rcases List.mem_cons.mp hch with h2 | h2
          · subst h2
            exact Bool.not_eq_true _ ▸ Bool.of_not_eq_true hsp
          · cases h2
        · cases h1
    | c :: c2 :: r =>
      simp only [List.length_cons] at hs
      rw [wsTokens]
      by_cases hsp : isJsSpace c = true
      · rw [if_pos hsp]
        exact ih (c2 :: r) (by simp only [List.length_cons]; omega)
      · rw [if_neg hsp]
        have hcf : isJsSpace c = false := Bool.of_not_eq_true hsp
        by_cases h2 : isJsSpace c2 = true
        · rw [if_pos h2]
          intro t ht ch hch
          rcases List.mem_cons.mp ht with h1 | h1
          · subst h1
            rcases List.mem_cons.mp hch with h3 | h3
            · subst h3
              exact hcf
            · cases h3
          · exact ih r (by omega) t h1 ch hch
        · rw [if_neg h2]
          cases hw : wsTokens (c2 :: r) with
          | nil =>
            intro t ht ch hch
            rcases List.mem_cons.mp ht with h1 | h1
            · subst h1
              rcases List.mem_cons.mp hch with h3 | h3
              · subst h3
                exact hcf
              · cases h3
            · cases h1
          | cons t0 ts =>
            intro t ht ch hch
            have hrec := ih (c2 :: r) (by simp only [List.length_cons]; omega)
            rw [hw] at hrec
            rcases List.mem_cons.mp ht with h1 | h1
            · subst h1
              rcases List.mem_cons.mp hch with h3 | h3
              · subst h3
                exact hcf
              · exact hrec t0 (List.mem_cons_self t0 ts) ch h3
            · exact hrec t (List.mem_cons_of_mem t0 h1) ch hch

theorem wsTokens_chars : ∀ n s, s.length ≤ n →
    ∀ ch ∈ s, isJsSpace ch = false → ∃ t ∈ wsTokens s, ch ∈ t := by
  intro n
  induction n with
  | zero =>
    intro s hs
    have : s = [] := List.eq_nil_of_length_eq_zero (Nat.le_zero.mp hs)
    subst this
    intro ch hch
    cases hch
  | succ n ih =>
    intro s hs
    match s with
    | [] => intro ch hch; cases hch
    | [c] =>
      intro ch hch hns
      rcases List.mem_cons.mp hch with h1 | h1
      · subst h1
        rw [wsTokens, if_neg (by rw [hns]; simp)]
        exact ⟨[ch], List.mem_cons_self _ _, List.mem_cons_self _ _⟩
      · cases h1
    | c :: c2 :: r =>
      simp only [List.length_cons] at hs
      intro ch hch hns
      rw [wsTokens]
      by_cases hsp : isJsSpace c = true
      · rw [if_pos hsp]
        have hch2 : ch ∈ c2 :: r := by
          rcases List.mem_cons.mp hch with h1 | h1
          · subst h1
            rw [hsp] at hns
            cases hns
          · exact h1
        exact ih (c2 :: r) (by simp only [List.length_cons]; omega) ch hch2 hns
      · rw [if_neg hsp]
        by_cases h2 : isJsSpace c2 = true
        · rw [if_pos h2]
          rcases List.mem_cons.mp hch with h1 | h1
          · subst h1
            exact ⟨[ch], List.mem_cons_self _ _, List.mem_cons_self _ _⟩
          · rcases List.mem_cons.mp h1 with h3 | h3
            · subst h3
              rw [h2] at hns
              cases hns
            · obtain ⟨t, ht, hcht⟩ := ih r (by omega) ch h3 hns
              exact ⟨t, List.mem_cons_of_mem [c] ht, hcht⟩
        · rw [if_neg h2]
          cases hw : wsTokens (c2 :: r) with
          | nil =>
            exfalso
            have hc2 : isJsSpace c2 = false := Bool.of_not_eq_true h2
            obtain ⟨t, ht, -⟩ := ih (c2 :: r)
              (by simp only [List.length_cons]; omega) c2
              (List.mem_cons_self c2 r) hc2
            rw [hw] at ht
            cases ht
          | cons t0 ts =>
            rcases List.mem_cons.mp hch with h1 | h1
            · subst h1
              exact ⟨ch :: t0, List.mem_cons_self _ _, List.mem_cons_self _ _⟩
            · obtain ⟨t, ht, hcht⟩ := ih (c2 :: r)
                (by simp only [List.length_cons]; omega) ch h1 hns
              rw [hw] at ht
              rcases List.mem_cons.mp ht with h3 | h3
              · subst h3
                exact ⟨c :: t, List.mem_cons_self _ _, List.mem_cons_of_mem c hcht⟩
              · exact ⟨t, List.mem_cons_of_mem (c :: t0) h3, hcht⟩

theorem stripPunct_nil_noword {t : Str} (h : stripPunct t = []) :
    ∀ c ∈ t, isWordChar c = false := by
  intro c hc
  unfold stripPunct at h
  have hall : ∀ x ∈ List.dropWhile (fun c => !(isWordChar c)) t,
      (!(isWordChar x)) = true := dropEndWhile_nil_all _ h
  have hsplit := List.takeWhile_append_dropWhile (fun c => !(isWordChar c)) t
  rw [← hsplit] at hc
  rcases List.mem_append.mp hc with h1 | h1
  · have := List.mem_takeWhile_imp h1
    rw [Bool.not_eq_true'] at this
    exact this
  · have := hall c h1
    rw [Bool.not_eq_true'] at this
    exact this

theorem stripPunct_mem {t : Str} {c : Char} (h : c ∈ stripPunct t) : c ∈ t := by
  unfold stripPunct at h
  have h2 := mem_dropEndWhile h
  exact (List.dropWhile_sublist _).mem h2

theorem noWord_of_empty_words (s : Str)
    (h : (((wsTokens s).map stripPunct).filter (fun t => !t.isEmpty)) = []) :
    noWord s = true := by
  unfold noWord
  rw [List.all_eq_true]
  intro ch hch
  rw [Bool.not_eq_true']
  by_cases hsp : isJsSpace ch = true
  · exact space_not_word hsp
  · obtain ⟨t, ht, hcht⟩ := wsTokens_chars s.length s (Nat.le_refl _) ch hch
      (Bool.of_not_eq_true hsp)
    have hmem : stripPunct t ∈ (wsTokens s).map stripPunct :=
      List.mem_map_of_mem stripPunct ht
    have hemp := List.filter_eq_nil_iff.mp h (stripPunct t) hmem
    have hnil : stripPunct t = [] := by
      cases hst : stripPunct t with
      | nil => rfl
      | cons a b =>
        rw [hst] at hemp
        simp at hemp
    exact stripPunct_nil_noword hnil ch hcht

theorem kwAlts_nonspace :
    ∀ alts ∈ kwAlts, ∀ alt ∈ alts, ∀ a ∈ alt, isJsSpace a = false := by decide

theorem ciAt_take_nonspace :
    ∀ (alt : Str) (u : Str), ciAt alt u = true →
      (∀ a ∈ alt, isJsSpace a = false) →
      ∀ c ∈ u.take alt.length, isJsSpace c = false := by
  intro alt
  induction alt with
  | nil =>
    intro u _ _ c hc
    simp at hc
  | cons a alt2 ih =>
    intro u hci hns c hc
    cases u with
    | nil => cases hci
    | cons x u2 =>
      rw [ciAt, Bool.and_eq_true] at hci
      rw [List.length_cons, List.take_succ_cons] at hc
      rcases List.mem_cons.mp hc with h1 | h1
      · subst h1
        cases hsp : isJsSpace c with
        | false => rfl
        | true =>
          exfalso
          have hl := toLower_of_space hsp
          have ha : c.toLower = a := by
            have := hci.1
            rw [decide_eq_true_eq] at this
            exact this
          rw [hl] at ha
          have := hns a (List.mem_cons_self a alt2)
          rw [← ha, hsp] at this
          cases this
      · exact ih u2 hci.2 (fun b hb => hns b (List.mem_cons_of_mem a hb)) c h1

theorem pickAnchor_eq (content : Str) (maxW : Nat) :
    pickAnchorWords content maxW =
      (match findKw (trim content) with
       | some w =>
         if containsCI w "schuffner".data && containsCI (trim content) "dot".data
         then "Schuffner\x27s dots".data else w
       | none =>
         if (((wsTokens (trim content)).map stripPunct).filter
              (fun t => !t.isEmpty)).isEmpty
         then trim content
         else List.intercalate [' ']
           ((((wsTokens (trim content)).map stripPunct).filter
              (fun t => !t.isEmpty)).take maxW)) := rfl

theorem pickAnchor_contOK (content : Str) (maxW : Nat) (hW : 2 ≤ maxW) :
    contOK maxW (pickAnchorWords content maxW) := by
  rw [pickAnchor_eq]
  cases hf : findKw (trim content) with
  | some w =>
    show contOK maxW (if containsCI w "schuffner".data &&
        containsCI (trim content) "dot".data
      then "Schuffner\x27s dots".data else w)
    by_cases hcond : (containsCI w "schuffner".data &&
        containsCI (trim content) "dot".data) = true
    · rw [if_pos hcond]
      left
      have h2 : (wsTokens "Schuffner\x27s dots".data).length = 2 := by decide
      omega
    · rw [if_neg hcond]
      left
      unfold findKw at hf
      obtain ⟨alts, hmem, haux⟩ := List.exists_of_findSome?_eq_some hf
      obtain ⟨alt, hamem, u, hci, hweq⟩ := findKwAux_some_ci _ _ _ _ haux
      have hns := kwAlts_nonspace alts hmem alt hamem
      have hwns : ∀ c ∈ w, isJsSpace c = false := by
        rw [hweq]
        exact ciAt_take_nonspace alt u hci hns
      have h1 := nonspace_tokens_le_one w hwns
      omega
  | none =>
    show contOK maxW (if (((wsTokens (trim content)).map stripPunct).filter
        (fun t => !t.isEmpty)).isEmpty
      then trim content
      else List.intercalate [' ']
        ((((wsTokens (trim content)).map stripPunct).filter
          (fun t => !t.isEmpty)).take maxW))
    by_cases hw : (((wsTokens (trim content)).map stripPunct).filter
        (fun t => !t.isEmpty)).isEmpty = true
    · rw [if_pos hw]
      right
      apply noWord_of_empty_words
      cases hx : ((wsTokens (trim content)).map stripPunct).filter
          (fun t => !t.isEmpty) with
      | nil => rfl
      | cons a b =>
        rw [hx] at hw
        cases hw
    · rw [if_neg hw]
      left
      rw [wsTokens_tokCount (List.intercalate [' ']
        ((((wsTokens (trim content)).map stripPunct).filter
          (fun t => !t.isEmpty)).take maxW)).length _ (Nat.le_refl _)]
      rw [intercal_tokens]
      · have := List.length_take maxW (((wsTokens (trim content)).map
          stripPunct).filter (fun t => !t.isEmpty))
        omega
      · intro x hx
        have hxL : x ∈ ((wsTokens (trim content)).map stripPunct).filter
            (fun t => !t.isEmpty) := (List.take_sublist _ _).subset hx
        rw [List.mem_filter] at hxL
        obtain ⟨hxm, hxne⟩ := hxL
        obtain ⟨t, htm, hts⟩ := List.mem_map.mp hxm
        constructor
        · intro hc
          rw [hc] at hxne
          cases hxne
        · intro c hc
          rw [← hts] at hc
          exact wsTokens_nonspace (trim content).length (trim content)
            (Nat.le_refl _) t htm c (stripPunct_mem hc)

/- ---------------------------------------------------------------------
   Structure of the word-limit output.
   --------------------------------------------------------------------- -/

theorem dig_ne_rb {c : Char} (h : isDig c = true) : c ≠ '\x7d' := by
  intro he
  rw [he] at h
  revert h
  decide

theorem pairFree_app_pair : ∀ (A B : Str),
    pairFree (A ++ '\x7d' :: '\x7d' :: B) = false := by
  intro A
  induction A with
  | nil =>
    intro B
    rw [List.nil_append, pairFree_cons2]
    simp
  | cons a A2 ih =>
    intro B
    cases hA : A2 ++ '\x7d' :: '\x7d' :: B with
    | nil => simp at hA
    | cons b T =>
      rw [List.cons_append, hA, pairFree_cons2, ← hA, ih B]
      simp

theorem pairFree_tail {a : Char} {u : Str} (h : pairFree (a :: u) = true) :
    pairFree u = true := by
  cases u with
  | nil => rfl
  | cons b u2 =>
    rw [pairFree_cons2, Bool.and_eq_true] at h
    exact h.2

theorem endsB_snoc : ∀ (A : Str), endsB (A ++ ['\x7d']) = true := by
  intro A
  induction A with
  | nil => rfl
  | cons a A2 ih =>
    cases hA : A2 ++ ['\x7d'] with
    | nil => simp at hA
    | cons b T =>
      rw [List.cons_append, hA, endsB_cons2, ← hA, ih]

theorem splitACB_app_some : ∀ (A X : Str),
    ∃ vw, splitACB (A ++ '\x7d' :: '\x7d' :: X) = some vw := by
  intro A
  induction A with
  | nil =>
    intro X
    refine ⟨([], X), ?_⟩
    rw [List.nil_append, splitACB_cons2]
    simp
  | cons a A2 ih =>
    intro X
    obtain ⟨⟨v1, v2⟩, hvw⟩ := ih X
    cases hA : A2 ++ '\x7d' :: '\x7d' :: X with
    | nil => simp at hA
    | cons b T =>
      rw [List.cons_append, hA, splitACB_cons2]
      by_cases hb : (decide (a = '\x7d') && decide (b = '\x7d')) = true
      · rw [if_pos hb]
        exact ⟨([], T), rfl⟩
      · rw [if_neg hb, ← hA, hvw]
        exact ⟨(a :: v1, v2), rfl⟩

theorem eqsplit : ∀ (v : Str), pairFree v = true → endsB v = false →
    ∀ (c X w : Str), v ++ '\x7d' :: '\x7d' :: w = c ++ '\x7d' :: '\x7d' :: X →
      (∃ u2, c = v ++ '\x7d' :: '\x7d' :: u2 ∧ w = u2 ++ '\x7d' :: '\x7d' :: X) ∨
      (v = c ∧ w = X) ∨
      (c = v ++ ['\x7d'] ∧ w = '\x7d' :: X) := by
  intro v
  induction v with
  | nil =>
    intro _ _ c X w heq
    rw [List.nil_append] at heq
    cases c with
    | nil =>
      rw [List.nil_append, List.cons_eq_cons] at heq
      obtain ⟨-, h2⟩ := heq
      rw [List.cons_eq_cons] at h2
      exact Or.inr (Or.inl ⟨rfl, h2.2⟩)
    | cons x c2 =>
      rw [List.cons_append, List.cons_eq_cons] at heq
      obtain ⟨hx, h2⟩ := heq
      cases c2 with
      | nil =>
        rw [List.nil_append, List.cons_eq_cons] at h2
        obtain ⟨hy, h3⟩ := h2
        refine Or.inr (Or.inr ⟨?_, h3⟩)
        rw [← hx]
        rfl
      | cons y c3 =>
        rw [List.cons_append, List.cons_eq_cons] at h2
        obtain ⟨hy, h3⟩ := h2
        refine Or.inl ⟨c3, ?_, h3⟩
        rw [List.nil_append, ← hx, ← hy]
  | cons a v2 ih =>
    intro hpf hend c X w heq
    cases c with
    | nil =>
      exfalso
      rw [List.nil_append, List.cons_append, List.cons_eq_cons] at heq
      obtain ⟨ha, h2⟩ := heq
      cases v2 with
      | nil =>
        rw [ha] at hend
        exact absurd hend (by decide)
      | cons b v3 =>
        rw [List.cons_append, List.cons_eq_cons] at h2
        obtain ⟨hb, -⟩ := h2
        rw [pairFree_cons2, Bool.and_eq_true] at hpf
        have := hpf.1
        rw [ha, hb] at this
        simp at this
    | cons x c2 =>
      rw [List.cons_append, List.cons_append, List.cons_eq_cons] at heq
      obtain ⟨hax, h2⟩ := heq
      cases v2 with
      | nil =>
        rw [List.nil_append] at h2
        cases c2 with
        | nil =>
          rw [List.nil_append, List.cons_eq_cons] at h2
          obtain ⟨-, h3⟩ := h2
          rw [List.cons_eq_cons] at h3
          refine Or.inr (Or.inl ⟨?_, h3.2⟩)
          rw [hax]
        | cons y c3 =>
          rw [List.cons_append, List.cons_eq_cons] at h2
          obtain ⟨hy, h3⟩ := h2
          cases c3 with
          | nil =>
            rw [List.nil_append, List.cons_eq_cons] at h3
            obtain ⟨-, h4⟩ := h3
            refine Or.inr (Or.inr ⟨?_, h4⟩)
            show x :: [y] = [a] ++ ['\x7d']
            rw [← hax, ← hy]
            rfl
          | cons z c4 =>
            rw [List.cons_append, List.cons_eq_cons] at h3
            obtain ⟨hz, h4⟩ := h3
            refine Or.inl ⟨c4, ?_, h4⟩
            show x :: y :: z :: c4 = [a] ++ '\x7d' :: '\x7d' :: c4
            rw [← hax, ← hy, ← hz]
            rfl
      | cons b v3 =>
        have hpf2 : pairFree (b :: v3) = true := pairFree_tail hpf
        have hend2 : endsB (b :: v3) = false := by
          rw [endsB_cons2] at hend
          exact hend
        rcases ih hpf2 hend2 c2 X w h2 with ⟨u2, hc2, hw2⟩ | ⟨hc2, hw2⟩ | ⟨hc2, hw2⟩
        · refine Or.inl ⟨u2, ?_, hw2⟩
          rw [hax, hc2]
          rfl
        · refine Or.inr (Or.inl ⟨?_, hw2⟩)
          rw [hc2, hax]
        · refine Or.inr (Or.inr ⟨?_, hw2⟩)
          rw [hax, hc2]
          rfl

theorem peel_nb : ∀ (H : Str), (∀ ch ∈ H, ch ≠ '\x7d') →
    ∀ (a2 Z T : Str), a2 ++ '\x7d' :: '\x7d' :: Z = H ++ T →
      ∃ a3, a2 = H ++ a3 ∧ T = a3 ++ '\x7d' :: '\x7d' :: Z := by
  intro H
  induction H with
  | nil =>
    intro _ a2 Z T heq
    rw [List.nil_append] at heq
    exact ⟨a2, (List.nil_append a2).symm, heq.symm⟩
  | cons h H2 ih =>
    intro hch a2 Z T heq
    cases a2 with
    | nil =>
      exfalso
      rw [List.nil_append, List.cons_append, List.cons_eq_cons] at heq
      exact hch h (List.mem_cons_self h H2) heq.1.symm
    | cons x a3 =>
      rw [List.cons_append, List.cons_append, List.cons_eq_cons] at heq
      obtain ⟨hx, h2⟩ := heq
      obtain ⟨a4, ha4, hT⟩ := ih (fun c hc => hch c (List.mem_cons_of_mem h hc)) a3 Z T h2
      refine ⟨a4, ?_, hT⟩
      rw [hx, ha4]
      rfl

theorem mss_shape {ds : Str} (hne : ds ≠ []) (hd : ∀ c ∈ ds, isDig c = true)
    (R : Str) :
    matchStrictSpan ('\x7b' :: '\x7b' :: 'c' :: (ds ++ ':' :: ':' :: R)) =
      (match splitACB R with
       | some pr => some (ds, pr.1, pr.2)
       | none => none) := by
  have h1 : List.takeWhile isDig (ds ++ ':' :: ':' :: R) = ds := by
    rw [takeWhile_app_all hd, takeWhile_neg _ (by decide)]
    simp
  have h2 : List.dropWhile isDig (ds ++ ':' :: ':' :: R) = ':' :: ':' :: R := by
    rw [dropWhile_app_all hd, dropWhile_neg _ (by decide)]
  have hemp : ds.isEmpty = false := by
    cases ds with
    | nil => exact absurd rfl hne
    | cons a t => rfl
  unfold matchStrictSpan
  simp only [List.nil_append, List.cons_append]
  rw [h1, h2, hemp]
  simp only [Bool.false_eq_true, if_false]
  cases hsp : splitACB R with
  | some pr =>
    obtain ⟨i, rest⟩ := pr
    rfl
  | none => rfl

theorem mkSpan_app (ds c2 X : Str) :
    mkSpan ds c2 ++ X =
      '\x7b' :: '\x7b' :: 'c' ::
        (ds ++ ':' :: ':' :: (c2 ++ '\x7d' :: '\x7d' :: X)) := by
  rw [mkSpan]
  simp [List.cons_append, List.append_assoc]

theorem mss_gen {ds : Str} (hne : ds ≠ []) (hd : ∀ c ∈ ds, isDig c = true)
    (c2 X : Str) :
    ∃ v w, matchStrictSpan (mkSpan ds c2 ++ X) = some (ds, v, w) ∧
      v ++ '\x7d' :: '\x7d' :: w = c2 ++ '\x7d' :: '\x7d' :: X ∧
      pairFree v = true ∧ endsB v = false := by
  obtain ⟨⟨v, w⟩, hvw⟩ := splitACB_app_some c2 X
  obtain ⟨he, hpf, hend⟩ := splitACB_some hvw
  refine ⟨v, w, ?_, he.symm, hpf, hend⟩
  rw [mkSpan_app, mss_shape hne hd _, hvw]

theorem enfRepl_eq (maxW : Nat) (ds inner : Str) :
    enfRepl maxW ds inner = mkSpan ds (enfCont maxW inner) := by
  unfold enfRepl enfCont
  by_cases h : (wsTokens (trim inner)).length ≤ maxW
  · rw [if_pos h, if_pos h]
  · rw [if_neg h, if_neg h]

theorem enfOut_nil (maxW : Nat) : enfOut maxW [] = [] := rfl

theorem enfOut_none {c : Char} {r : Str} (h : matchStrictSpan (c :: r) = none)
    (maxW : Nat) : enfOut maxW (c :: r) = c :: enfOut maxW r := by
  unfold enfOut
  rw [parseE_none h]
  rfl

theorem enfOut_some {s ds i rest : Str} (h : matchStrictSpan s = some (ds, i, rest))
    (maxW : Nat) :
    enfOut maxW s = mkSpan ds (enfCont maxW i) ++ enfOut maxW rest := by
  unfold enfOut
  rw [parseE_some h]
  simp only [List.map_cons, List.flatten_cons, renderE]
  rw [enfRepl_eq]

theorem enfOut_peel {u : Str} {maxW : Nat} {x : Char} {tail : Str}
    (hx : x ≠ '\x7b') (h : enfOut maxW u = x :: tail) :
    ∃ u2, u = x :: u2 ∧ enfOut maxW u2 = tail ∧ matchStrictSpan u = none := by
  cases hm : matchStrictSpan u with
  | some tr =>
    obtain ⟨ds, i, rest⟩ := tr
    rw [enfOut_some hm] at h
    exfalso
    rw [mkSpan] at h
    simp only [List.cons_append, List.cons_eq_cons] at h
    exact hx h.1.symm
  | none =>
    cases u with
    | nil =>
      rw [enfOut_nil] at h
      cases h
    | cons c u2 =>
      rw [enfOut_none hm] at h
      rw [List.cons_eq_cons] at h
      obtain ⟨hcx, hrest⟩ := h
      subst hcx
      exact ⟨u2, rfl, hrest, rfl⟩

theorem enfOut_peels :
    ∀ (pfx : Str), (∀ ch ∈ pfx, ch ≠ '\x7b') →
      ∀ {u : Str} {maxW : Nat} {tail : Str},
        enfOut maxW u = pfx ++ tail →
        ∃ u2, u = pfx ++ u2 ∧ enfOut maxW u2 = tail := by
  intro pfx
  induction pfx with
  | nil =>
    intro _ u maxW tail h
    exact ⟨u, rfl, by simpa using h⟩
  | cons x pfx ih =>
    intro hch u maxW tail h
    rw [List.cons_append] at h
    obtain ⟨u2, hu, hout, -⟩ := enfOut_peel (hch x (List.mem_cons_self x pfx)) h
    obtain ⟨u3, hu2, hout2⟩ := ih (fun ch hm => hch ch (List.mem_cons_of_mem x hm)) hout
    exact ⟨u3, by rw [hu, hu2, List.cons_append], hout2⟩

theorem enfOut_pairFree : ∀ n u, u.length ≤ n → pairFree u = true →
    ∀ maxW, enfOut maxW u = u := by
  intro n
  induction n with
  | zero =>
    intro u hu _ maxW
    have : u = [] := List.eq_nil_of_length_eq_zero (Nat.le_zero.mp hu)
    subst this
    rfl
  | succ n ih =>
    intro u hu hpf maxW
    cases hm : matchStrictSpan u with
    | some tr =>
      exfalso
      obtain ⟨ds, i, rest⟩ := tr
      obtain ⟨heq, -⟩ := mss_some hm
      have heq2 : u = ('\x7b' :: '\x7b' :: 'c' :: (ds ++ ':' :: ':' :: i)) ++
          '\x7d' :: '\x7d' :: rest := by
        rw [heq, mkSpan]
        simp [List.append_assoc]
      rw [heq2, pairFree_app_pair] at hpf
      cases hpf
    | none =>
      cases u with
      | nil => rfl
      | cons c r =>
        rw [enfOut_none hm,
          ih r (by simp only [List.length_cons] at hu; omega) (pairFree_tail hpf) maxW]

theorem enfOut_cross {c : Char} {r : Str} (h : matchStrictSpan (c :: r) = none)
    (maxW : Nat) : matchStrictSpan (c :: enfOut maxW r) = none := by
  cases hm2 : matchStrictSpan (c :: enfOut maxW r) with
  | none => rfl
  | some tr =>
    exfalso
    obtain ⟨ds, pr2⟩ := tr
    obtain ⟨v, w⟩ := pr2
    obtain ⟨heq, hne, hd, hpf, hend⟩ := mss_some hm2
    rw [mkSpan_app] at heq
    rw [List.cons_eq_cons] at heq
    obtain ⟨hc, hout⟩ := heq
    cases hmr : matchStrictSpan r with
    | some tr2 =>
      obtain ⟨ds0, pr3⟩ := tr2
      obtain ⟨i0, rest0⟩ := pr3
      rw [enfOut_some hmr, mkSpan_app] at hout
      rw [List.cons_eq_cons] at hout
      obtain ⟨-, hout2⟩ := hout
      rw [List.cons_eq_cons] at hout2
      exact absurd hout2.1 (by decide)
    | none =>
      cases r with
      | nil =>
        rw [enfOut_nil] at hout
        cases hout
      | cons c1 r1 =>
        rw [enfOut_none hmr] at hout
        rw [List.cons_eq_cons] at hout
        obtain ⟨hc1, hout1⟩ := hout
        obtain ⟨r2, hr2, hout2, -⟩ := enfOut_peel (by decide) hout1
        obtain ⟨r3, hr3, hout3⟩ :=
          enfOut_peels ds (fun ch hch => dig_ne_lb (hd ch hch)) hout2
        obtain ⟨r4, hr4, hout4, -⟩ := enfOut_peel (by decide) hout3
        obtain ⟨r5, hr5, hout5, -⟩ := enfOut_peel (by decide) hout4
        have hshape : c :: c1 :: r1 =
            '\x7b' :: '\x7b' :: 'c' :: (ds ++ ':' :: ':' :: r5) := by
          rw [hc, hc1, hr2, hr3, hr4, hr5]
        rw [hshape, mss_shape hne hd r5] at h
        cases hsp : splitACB r5 with
        | some pr =>
          rw [hsp] at h
          simp at h
        | none =>
          have hpf5 : pairFree r5 = true := splitACB_none.mp hsp
          rw [enfOut_pairFree r5.length r5 (Nat.le_refl _) hpf5 maxW] at hout5
          rw [hout5, pairFree_app_pair] at hpf5
          cases hpf5

theorem spans_none {c : Char} {r : Str} (h : matchStrictSpan (c :: r) = none) :
    strictSpans (c :: r) = strictSpans r := by
  unfold strictSpans
  rw [parseE_none h]
  simp only [List.filterMap_cons]

theorem spans_some {s ds i rest : Str} (h : matchStrictSpan s = some (ds, i, rest)) :
    strictSpans s = (ds, i) :: strictSpans rest := by
  unfold strictSpans
  rw [parseE_some h]
  simp only [List.filterMap_cons]

theorem residue_good (maxW : Nat) :
    ∀ m a2, a2.length ≤ m → contOK maxW a2 →
      ∀ Z, (∀ pr ∈ strictSpans Z, contOK maxW pr.2) →
        ∀ pr ∈ strictSpans (a2 ++ '\x7d' :: '\x7d' :: Z), contOK maxW pr.2 := by
  intro m
  induction m with
  | zero =>
    intro a2 hlen _ Z hZ pr hpr
    have h0 : a2 = [] := List.eq_nil_of_length_eq_zero (Nat.le_zero.mp hlen)
    subst h0
    rw [List.nil_append, spans_none (mss_none_head _ (by decide)),
      spans_none (mss_none_head _ (by decide))] at hpr
    exact hZ pr hpr
  | succ m ih =>
    intro a2 hlen hA Z hZ pr hpr
    cases hm : matchStrictSpan (a2 ++ '\x7d' :: '\x7d' :: Z) with
    | none =>
      cases a2 with
      | nil =>
        rw [List.nil_append, spans_none (mss_none_head _ (by decide)),
          spans_none (mss_none_head _ (by decide))] at hpr
        exact hZ pr hpr
      | cons x a3 =>
        rw [List.cons_append] at hpr hm
        rw [spans_none hm] at hpr
        refine ih a3 ?_ ?_ Z hZ pr hpr
        · simp only [List.length_cons] at hlen
          omega
        · exact contOK_within ⟨[x], [], by simp⟩ hA
    | some tr =>
      obtain ⟨ds, pr2⟩ := tr
      obtain ⟨v, w⟩ := pr2
      obtain ⟨heq, hne, hd, hpf, hend⟩ := mss_some hm
      rw [mkSpan_app] at heq
      have hHT : ('\x7b' :: '\x7b' :: 'c' ::
          (ds ++ ':' :: ':' :: (v ++ '\x7d' :: '\x7d' :: w))) =
          ('\x7b' :: '\x7b' :: 'c' :: (ds ++ [':', ':'])) ++
            (v ++ '\x7d' :: '\x7d' :: w) := by
        simp [List.append_assoc]
      rw [hHT] at heq
      obtain ⟨a3, ha3, hT⟩ := peel_nb _ (by
        intro ch hch
        rcases List.mem_cons.mp hch with h1 | hch
        · rw [h1]; decide
        rcases List.mem_cons.mp hch with h1 | hch
        · rw [h1]; decide
        rcases List.mem_cons.mp hch with h1 | hch
        · rw [h1]; decide
        rcases List.mem_append.mp hch with h1 | h1
        · exact dig_ne_rb (hd ch h1)
        · rcases List.mem_cons.mp h1 with h2 | h2
          · rw [h2]; decide
          · rcases List.mem_cons.mp h2 with h3 | h3
            · rw [h3]; decide
            · cases h3) a2 Z _ heq
      rw [spans_some hm] at hpr
      have hla := congrArg List.length ha3
      simp only [List.length_append, List.length_cons, List.length_nil] at hla
      rcases eqsplit v hpf hend a3 Z w hT with ⟨u2, hc, hw⟩ | ⟨hc, hw⟩ | ⟨hc, hw⟩
      · have hlc := congrArg List.length hc
        simp only [List.length_append, List.length_cons] at hlc
        rcases List.mem_cons.mp hpr with h1 | h1
        · rw [h1]
          exact contOK_within ⟨'\x7b' :: '\x7b' :: 'c' :: (ds ++ [':', ':']),
            '\x7d' :: '\x7d' :: u2, by rw [ha3, hc]⟩ hA
        · rw [hw] at h1
          refine ih u2 (by omega) ?_ Z hZ pr h1
          exact contOK_within ⟨('\x7b' :: '\x7b' :: 'c' :: (ds ++ [':', ':'])) ++
            (v ++ ['\x7d', '\x7d']), [], by
              rw [ha3, hc]
              simp [List.append_assoc]⟩ hA
      · rcases List.mem_cons.mp hpr with h1 | h1
        · rw [h1]
          exact contOK_within ⟨'\x7b' :: '\x7b' :: 'c' :: (ds ++ [':', ':']), [], by
            rw [ha3, ← hc]
            simp⟩ hA
        · rw [hw] at h1
          exact hZ pr h1
      · rcases List.mem_cons.mp hpr with h1 | h1
        · rw [h1]
          exact contOK_within ⟨'\x7b' :: '\x7b' :: 'c' :: (ds ++ [':', ':']),
            ['\x7d'], by rw [ha3, hc]⟩ hA
        · rw [hw] at h1
          rw [spans_none (mss_none_head _ (by decide))] at h1
          exact hZ pr h1

theorem enfOut_good (maxW : Nat) (hW : 2 ≤ maxW) :
    ∀ n t, t.length ≤ n →
      ∀ pr ∈ strictSpans (enfOut maxW t), contOK maxW pr.2 := by
  intro n
  induction n with
  | zero =>
    intro t ht pr hpr
    have : t = [] := List.eq_nil_of_length_eq_zero (Nat.le_zero.mp ht)
    subst this
    cases hpr
  | succ n ih =>
    intro t ht pr hpr
    cases hm : matchStrictSpan t with
    | none =>
      cases t with
      | nil => cases hpr
      | cons c r =>
        rw [enfOut_none hm, spans_none (enfOut_cross hm maxW)] at hpr
        exact ih r (by simp only [List.length_cons] at ht; omega) pr hpr
    | some tr =>
      obtain ⟨ds, pr2⟩ := tr
      obtain ⟨i, rest⟩ := pr2
      obtain ⟨-, hne, hd, -, -⟩ := mss_some hm
      have hlen := mss_len hm
      have hok : contOK maxW (enfCont maxW i) := by
        unfold enfCont
        by_cases hcond : (wsTokens (trim i)).length ≤ maxW
        · rw [if_pos hcond]
          left
          rw [← tokens_trim]
          exact hcond
        · rw [if_neg hcond]
          exact pickAnchor_contOK (trim i) maxW hW
      rw [enfOut_some hm] at hpr
      obtain ⟨v, w, hmatch, heqn, hpf, hend⟩ :=
        mss_gen hne hd (enfCont maxW i) (enfOut maxW rest)
      rw [spans_some hmatch] at hpr
      have hrest : ∀ pr2 ∈ strictSpans (enfOut maxW rest), contOK maxW pr2.2 :=
        ih rest (by omega)
      rcases eqsplit v hpf hend (enfCont maxW i) (enfOut maxW rest) w heqn with
        ⟨u2, hc, hw⟩ | ⟨hc, hw⟩ | ⟨hc, hw⟩
      · rcases List.mem_cons.mp hpr with h1 | h1
        · rw [h1]
          exact contOK_within ⟨[], '\x7d' :: '\x7d' :: u2, by rw [hc]; simp⟩ hok
        · rw [hw] at h1
          refine residue_good maxW u2.length u2 (Nat.le_refl _) ?_ _ hrest pr h1
          exact contOK_within ⟨v ++ ['\x7d', '\x7d'], [], by
            rw [hc]
            simp [List.append_assoc]⟩ hok
      · rcases List.mem_cons.mp hpr with h1 | h1
        · rw [h1]
          rw [hc]
          exact hok
        · rw [hw] at h1
          exact hrest pr h1
      · rcases List.mem_cons.mp hpr with h1 | h1
        · rw [h1]
          exact contOK_within ⟨[], ['\x7d'], by rw [hc]; simp⟩ hok
        · rw [hw] at h1
          rw [spans_none (mss_none_head _ (by decide))] at h1
          exact hrest pr h1

/-- C1 (amended): in the output of enforceClozeWordLimit with limit 3,
every strict-form cloze span has content with at most 3 whitespace
tokens, unless the content contains no word character at all (the
degenerate fallback that returns the trimmed content unchanged when
punctuation-stripping empties every token). -/
theorem C1_word_limit_amended (t : Str) :
    ∀ pr ∈ strictSpans (enforceClozeWordLimit t 3),
      (wsTokens pr.2).length ≤ 3 ∨ noWord pr.2 = true := by
  intro pr hpr
  by_cases he : t.isEmpty = true
  · rw [enforceClozeWordLimit, if_pos he] at hpr
    have h0 : t = [] := by
      cases t with
      | nil => rfl
      | cons c r => simp [List.isEmpty] at he
    subst h0
    have h1 : strictSpans ([] : Str) = [] := by decide
    rw [h1] at hpr
    cases hpr
  · rw [enforceClozeWordLimit, if_neg he] at hpr
    exact enfOut_good 3 (by omega) t.length t (Nat.le_refl _) pr hpr

theorem C1_amended_witness :
    (("1".data, "aaaa bbbb cccc".data) ∈
        strictSpans
          (enforceClozeWordLimit "\x7b\x7bc1::aaaa bbbb cccc dddd\x7d\x7d".data 3)) ∧
      ((wsTokens "aaaa bbbb cccc".data).length ≤ 3 ∨
        noWord "aaaa bbbb cccc".data = true) :=
  ⟨by decide,
    C1_word_limit_amended "\x7b\x7bc1::aaaa bbbb cccc dddd\x7d\x7d".data
      ("1".data, "aaaa bbbb cccc".data) (by decide)⟩

end Cloze
